import Mathlib

/-!
In-network gradient aggregation (pa-atp-ns3)

A shallow embedding of `src/utils/my_utils.cc` (`split_string`), of the
aggregating relay `src/model/aggregate_switch.cc` (`SetFill`, `SendResult`,
`HandleRead`), of the worker `src/model/custom_client.cc`
(`StartApplication`, `StopApplication`, `ScheduleTransmit`, `Send`,
`HandleRead`) and of the receive handler of the coordinator
`src/model/parameter_server.cc`, followed by theorems about the relay's
aggregation buffer, the worker's counters and windows, and the handling of
malformed payloads.

Conventions of the embedding.

* A byte string (`std::string`, packet payload) is a `List Char`.
* `std::map<std::string, std::set<uint16_t>>` is an association list; the
  code never iterates over the map or over a set, so only membership, size,
  insertion and erasure are observable and the order of the entries is not.
* Undefined behaviour (indexing a vector out of range, copying a packet that
  does not fit the 1000-byte read buffer) and an uncaught exception
  (`std::stoi`) end the run with status `fault`; what was sent before the
  fault stays in the result.
* The trace sources (`m_rxTrace`, `m_fwTrace`, ...) call sinks registered
  from outside and are left out; `NS_LOG_INFO` lines are kept as `LogLine`s
  without their time stamp.
* The headers `custom_client.h` and `parameter_server.h` are not among the
  sources; the counters they declare are natural numbers without a width.
* The simulator is the list of the `Send` events of a worker that are
  scheduled; virtual time is not modelled, any scheduled event may fire.
-/

namespace AtpNs3

/-- The zero byte that ends a C string. -/
def NUL : Char := Char.ofNat 0

/-- The delimiter argument `(char *)","` of every call of `split_string`. -/
def comma : List Char := [',']

/-- The bytes `std::string::c_str()` shows to a C function: up to the first
zero byte. -/
def c_str (s : List Char) : List Char :=
  s.takeWhile (fun c => c != NUL)

/-- One call of `strtok` on the remaining C string `s`: skip the leading
delimiters; if nothing is left return `none` (`NULL`); otherwise the token
runs up to the next delimiter, which is overwritten and stepped over. The
result is the token and the string the next call starts from. -/
def strtok (delim : List Char) (s : List Char) : Option (List Char × List Char) :=
  match s.dropWhile (fun c => delim.elem c) with
  | [] => none
  | c :: cs =>
    some ((c :: cs).takeWhile (fun x => !delim.elem x),
          ((c :: cs).dropWhile (fun x => !delim.elem x)).drop 1)

/-- The `while (pch != NULL)` loop of `split_string`; `fuel` bounds the
number of `strtok` calls. -/
def split_loop (delim : List Char) : Nat → List Char → List (List Char)
  | 0, _ => []
  | fuel + 1, s =>
    match strtok delim s with
    | none => []
    | some (pch, rest) => pch :: split_loop delim fuel rest

/-- The function `split_string` of `my_utils.cc`. Every `strtok` call that returns a token
consumes at least one byte, so `input.length + 1` calls are enough. -/
def split_string (input : List Char) (delim : List Char) : List (List Char) :=
  split_loop delim (input.length + 1) (c_str input)

/-- The C function `isspace` in the C locale. -/
def isspace (c : Char) : Bool :=
  c.toNat == 32 || (9 ≤ c.toNat && c.toNat ≤ 13)

/-- The value of a run of decimal digits. -/
def digitsValue (ds : List Char) : Nat :=
  ds.foldl (fun acc c => 10 * acc + (c.toNat - 48)) 0

/-- The sign prefix accepted by `strtol`: `true` for a leading minus. -/
def stripSign : List Char → Bool × List Char
  | '-' :: r => (true, r)
  | '+' :: r => (false, r)
  | s => (false, s)

/-- The call `std::stoi(str)`: leading white space is skipped, an optional sign and
the longest run of digits are read, what follows is ignored. `none` is a
thrown exception: `invalid_argument` when there is no digit, `out_of_range`
when the value is not an `int`. -/
def stoi (str : List Char) : Option Int :=
  let (neg, body) := stripSign (str.dropWhile isspace)
  let ds := body.takeWhile Char.isDigit
  if ds.isEmpty then none
  else
    let v : Int := if neg then - (digitsValue ds : Int) else (digitsValue ds : Int)
    if v < -2147483648 ∨ 2147483647 < v then none else some v

/-- The conversion `uint16_t part = <int>`: reduction modulo `2^16`. -/
def toUint16 (v : Int) : Nat := (v % 65536).toNat

/-- An IPv4 socket address. -/
structure InetSocketAddress where
  ipv4 : Nat
  port : Nat
deriving DecidableEq, Repr

/-- The address `255.255.255.255`. -/
def broadcastIp : Nat := 4294967295

/-- One `SendTo` call: the bytes of the packet and where it goes. -/
structure Datagram where
  data : List Char
  dst : InetSocketAddress
deriving DecidableEq, Repr

/-- One received datagram: what `RecvFrom` returns. -/
structure Received where
  data : List Char
  sender : InetSocketAddress
deriving DecidableEq, Repr

/-- The `NS_LOG_INFO` lines of the relay. -/
inductive LogLine where
  | received (read_data : List Char)
  | sentGACK (sender : InetSocketAddress)
  | bufferOverflow
  | partDuplicate
  | sentResult (peer : InetSocketAddress)
deriving DecidableEq, Repr

/-- The aggregation buffer `m_buffer`. -/
abbrev Buffer := List (List Char × List Nat)

/-- The field `m_bufferSize = 10` of `aggregate_switch.h`. -/
def m_bufferSize : Nat := 10

/-- The members of `AggregateSwitch` that `HandleRead` reads or writes. -/
structure AggregateSwitch where
  m_peerAddr : Nat
  m_peerPort : Nat
  m_size : Nat
  m_dataSize : Nat
  m_data : List Char
  m_sent : Nat
  m_maxParts : Nat
  m_buffer : Buffer
deriving DecidableEq, Repr

/-- The test `m_buffer.find(key) != m_buffer.end()`: the key is open. -/
def Buffer.hasKey (b : Buffer) (key : List Char) : Bool :=
  b.any (fun e => e.1 == key)

/-- The set stored under `key`, the empty set when the key is absent. -/
def Buffer.parts : Buffer → List Char → List Nat
  | [], _ => []
  | (k, s) :: b, key => if k = key then s else Buffer.parts b key

/-- The call `m_buffer.insert(pair(key, {part}))`: nothing changes when the key is
there already; the flag is `ret.second`. -/
def Buffer.insertKey (b : Buffer) (key : List Char) (part : Nat) : Buffer × Bool :=
  if b.hasKey key then (b, false) else (b ++ [(key, [part])], true)

/-- The call `std::set<uint16_t>::insert(part)`; the flag is `retSet.second`. -/
def setInsert (s : List Nat) (part : Nat) : List Nat × Bool :=
  if part ∈ s then (s, false) else (s ++ [part], true)

/-- The call `m_buffer[key].insert(part)` for a key that is present. -/
def Buffer.insertPart : Buffer → List Char → Nat → Buffer
  | [], _, _ => []
  | (k, s) :: b, key, part =>
    if k = key then (k, (setInsert s part).1) :: b
    else (k, s) :: Buffer.insertPart b key part

/-- The call `m_buffer.erase(key)`. -/
def Buffer.eraseKey (b : Buffer) (key : List Char) : Buffer :=
  b.filter (fun e => e.1 != key)

/-- The method `AggregateSwitch::SetFill(std::string fill)`: the data buffer holds the
string and its zero terminator. The length is at most a few bytes more than
a payload that fits the read buffer, far below `2^32`. -/
def AggregateSwitch.SetFill (a : AggregateSwitch) (fill : List Char) : AggregateSwitch :=
  { a with m_data := fill ++ [NUL], m_dataSize := fill.length + 1, m_size := fill.length + 1 }

/-- How the body of the `while` loop of `HandleRead` ends: `next` falls
through to the next `RecvFrom`, `ret` is a `return`, `fault` is undefined
behaviour or an uncaught exception. -/
inductive Status where
  | next
  | ret
  | fault
deriving DecidableEq, Repr

/-- The effect of a piece of `HandleRead`: the relay afterwards, the
datagrams sent (in order), the lines logged, and how it ended. -/
structure Outcome where
  st : AggregateSwitch
  out : List Datagram
  log : List LogLine
  status : Status
deriving DecidableEq, Repr

/-- The method `AggregateSwitch::SendResult()`: `m_dataSize` is non-zero
after a `SetFill`, so the packet is `m_data`; it goes to the peer (an IPv4
address and `m_peerPort`) and `m_sent` (a `uint32_t`) is incremented. -/
def AggregateSwitch.SendResult (a : AggregateSwitch) : AggregateSwitch × Datagram × LogLine :=
  let peer : InetSocketAddress := ⟨a.m_peerAddr, a.m_peerPort⟩
  ({ a with m_sent := (a.m_sent + 1) % 4294967296 }, ⟨a.m_data.take a.m_dataSize, peer⟩,
    LogLine.sentResult peer)

/-- The marker `AACK`. -/
def AACK : List Char := ['A', 'A', 'C', 'K']

/-- The marker `GACK`. -/
def GACK : List Char := ['G', 'A', 'C', 'K']

/-- The prefix `GACK,`. -/
def GACK_ : List Char := ['G', 'A', 'C', 'K', ',']

/-- The prefix `RESULT,`. -/
def RESULT_ : List Char := ['R', 'E', 'S', 'U', 'L', 'T', ',']

/-- The aggregation key `pktGradient[0] + ',' + pktGradient[2]`. -/
def aggKey (f0 f2 : List Char) : List Char := f0 ++ ',' :: f2

/-- The last part of the loop body (lines 320-334): insert the part, and
when the set is full send the result and erase the key. -/
def AggregateSwitch.aggregate (a : AggregateSwitch) (f0 f2 : List Char) (part : Nat) :
    AggregateSwitch × List Datagram × List LogLine :=
  let key := aggKey f0 f2
  let ret := a.m_buffer.insertKey key part
  let buf1 := if ret.2 = false then ret.1.insertPart key part else ret.1
  let log1 := if ret.2 = false ∧ (setInsert (ret.1.parts key) part).2 = false
    then [LogLine.partDuplicate] else []
  if (buf1.parts key).length = a.m_maxParts then
    let r := ({ a with m_buffer := buf1 }.SetFill (RESULT_ ++ f0 ++ ',' :: f2)).SendResult
    ({ r.1 with m_buffer := r.1.m_buffer.eraseKey key }, [r.2.1], log1 ++ [r.2.2])
  else
    ({ a with m_buffer := buf1 }, [], log1)

/-- The body of the `while` loop of `AggregateSwitch::HandleRead` for one
received packet. -/
def AggregateSwitch.handlePacket (a : AggregateSwitch) (p : Received) : Outcome :=
  -- uint8_t read_buffer[1000]; packet->CopyData(read_buffer, packet->GetSize());
  if 1000 < p.data.length then ⟨a, [], [], Status.fault⟩
  else
    let read_data := p.data
    let log0 := [LogLine.received read_data]
    let pktGradient := split_string read_data comma
    match pktGradient[0]? with
    | none => ⟨a, [], log0, Status.fault⟩
    | some f0 =>
      if f0 = AACK then
        -- dstAddress (the broadcast address) is computed and not used
        ⟨a, [⟨p.data, p.sender⟩], log0, Status.ret⟩
      else
        match pktGradient[2]? with
        | none => ⟨a, [], log0, Status.fault⟩
        | some f2 =>
          let a1 := a.SetFill (GACK_ ++ f2)
          let pktGACK : Datagram := ⟨a1.m_data.take a1.m_dataSize, p.sender⟩
          let log1 := log0 ++ [LogLine.sentGACK p.sender]
          if m_bufferSize ≤ a1.m_buffer.length then
            ⟨a1, [pktGACK], log1 ++ [LogLine.bufferOverflow], Status.ret⟩
          else
            match (pktGradient[1]?).bind stoi with
            | none => ⟨a1, [pktGACK], log1, Status.fault⟩
            | some v =>
              let r := a1.aggregate f0 f2 (toUint16 v)
              ⟨r.1, pktGACK :: r.2.1, log1 ++ r.2.2, Status.next⟩

/-- What one invocation of `HandleRead` leaves behind: the outcome and the
datagrams still queued in the socket (not consumed by this invocation). -/
structure Invocation where
  res : Outcome
  pending : List Received
deriving DecidableEq, Repr

/-- The method `AggregateSwitch::HandleRead`: the `while ((packet = socket->RecvFrom(from)))`
loop over the datagrams queued in the socket. The loop ends with status
`next` when the queue is drained. -/
def AggregateSwitch.HandleRead (a : AggregateSwitch) : List Received → Invocation
  | [] => ⟨⟨a, [], [], Status.next⟩, []⟩
  | p :: queue =>
    let r := a.handlePacket p
    match r.status with
    | Status.next =>
      let r2 := AggregateSwitch.HandleRead r.st queue
      ⟨⟨r2.res.st, r.out ++ r2.res.out, r.log ++ r2.res.log, r2.res.status⟩, r2.pending⟩
    | _ => ⟨r, queue⟩

/-- A relay as the constructor and the attributes leave it: no data buffer,
nothing sent, an empty aggregation buffer. -/
def AggregateSwitch.init (peerAddr peerPort size maxParts : Nat) : AggregateSwitch :=
  { m_peerAddr := peerAddr, m_peerPort := peerPort, m_size := size, m_dataSize := 0,
    m_data := [], m_sent := 0, m_maxParts := maxParts, m_buffer := [] }

/-- Successive invocations of `HandleRead`, one per entry of `queues` (the
datagrams the socket holds when the receive callback fires). A fault ends
the process: the later invocations do not happen. -/
def AggregateSwitch.run (a : AggregateSwitch) : List (List Received) → Outcome
  | [] => ⟨a, [], [], Status.next⟩
  | q :: queues =>
    let r := (a.HandleRead q).res
    match r.status with
    | Status.fault => r
    | _ =>
      let r2 := AggregateSwitch.run r.st queues
      ⟨r2.st, r.out ++ r2.out, r.log ++ r2.log, r2.status⟩

/-- The fields `pktGradient` the relay reads from a packet; `none` when the
packet does not fit the 1000-byte read buffer. -/
def pktFields (data : List Char) : Option (List (List Char)) :=
  if 1000 < data.length then none else some (split_string data comma)

/-- A packet read as a contribution: at least three fields, the first not
the marker `AACK`, the second a number for `std::stoi`. The result is the
aggregation key and the part id (a `uint16_t`). -/
def contribution (data : List Char) : Option (List Char × Nat) :=
  match pktFields data with
  | some (f0 :: f1 :: f2 :: _) =>
    if f0 = AACK then none else (stoi f1).map (fun v => (aggKey f0 f2, toUint16 v))
  | _ => none

/-- The datagram that carries the CombinedResult of the round `key`. -/
def resultDatagram (a : AggregateSwitch) (key : List Char) : Datagram :=
  ⟨RESULT_ ++ key ++ [NUL], ⟨a.m_peerAddr, a.m_peerPort⟩⟩

/-- The RoundAck for the round field `f2`, sent to `sender`. -/
def gackDatagram (f2 : List Char) (sender : InetSocketAddress) : Datagram :=
  ⟨GACK_ ++ f2 ++ [NUL], sender⟩

/-- The keys that are open in the buffer. -/
def Buffer.openKeys (b : Buffer) : List (List Char) := b.map (fun e => e.1)

/-- The buffer after lines 320-328: the part is in the set of the key. -/
def Buffer.add (b : Buffer) (key : List Char) (part : Nat) : Buffer :=
  if b.hasKey key then b.insertPart key part else b ++ [(key, [part])]

/-- The buffer after lines 320-334. -/
def Buffer.step (b : Buffer) (maxParts : Nat) (key : List Char) (part : Nat) : Buffer :=
  if ((b.add key part).parts key).length = maxParts then (b.add key part).eraseKey key
  else b.add key part

/-- The invariant of the aggregation buffer for a relay configured with
`maxParts`: no key is stored twice, at most `m_bufferSize` keys are open, and
every stored set is duplicate-free, non-empty, and (when `maxParts >= 1`)
smaller than `maxParts`. -/
def Buffer.Inv (b : Buffer) (maxParts : Nat) : Prop :=
  b.openKeys.Nodup ∧ b.length ≤ m_bufferSize ∧
    ∀ e ∈ b, e.2.Nodup ∧ 1 ≤ e.2.length ∧ (1 ≤ maxParts → e.2.length < maxParts)

/-- Whether a datagram carries the CombinedResult `RESULT,<key>` (with its
zero terminator). -/
def isResultFor (key : List Char) (d : Datagram) : Bool :=
  d.data == RESULT_ ++ key ++ [NUL]

/-- The number of CombinedResults for `key` among the datagrams sent. -/
def countResults (key : List Char) (out : List Datagram) : Nat :=
  out.countP (isResultFor key)

/-- Whether a packet is read as a contribution for `key`. -/
def isContributionFor (key : List Char) (p : Received) : Bool :=
  (contribution p.data).map (fun c => c.1) == some key

/-- The part id of a packet read as a contribution (0 otherwise). -/
def partOf (p : Received) : Nat :=
  match contribution p.data with
  | some c => c.2
  | none => 0

/-- The RoundAck the relay answers a packet with: `GACK,` and the third
field of the packet, to the sender. -/
def roundAck (p : Received) : Datagram :=
  gackDatagram ((split_string p.data comma).getD 2 []) p.sender

/-- The set a round has collected after the parts `ps` arrived on top of
`s`. -/
def collect (s : List Nat) (ps : List Nat) : List Nat :=
  ps.foldl (fun acc part => (setInsert acc part).1) s


/-- The loop body applied to every packet of a list in arrival order, one
after the other: the reference for a batch that is processed in full. -/
def AggregateSwitch.processAll (a : AggregateSwitch) : List Received → Outcome
  | [] => ⟨a, [], [], Status.next⟩
  | p :: ps =>
    let r := a.handlePacket p
    let r2 := AggregateSwitch.processAll r.st ps
    ⟨r2.st, r.out ++ r2.out, r.log ++ r2.log, r2.status⟩

/-- No packet of the batch triggers the `AACK` branch or the overflow
branch: every packet is read as a contribution and finds fewer than
`m_bufferSize` open keys when its turn comes. -/
def AggregateSwitch.allAccepted (a : AggregateSwitch) : List Received → Bool
  | [] => true
  | p :: ps =>
    (contribution p.data).isSome && decide (a.m_buffer.length < m_bufferSize) &&
      AggregateSwitch.allAccepted (a.handlePacket p).st ps

/-- The buffer `b0` with one more round `key` that has collected the set
`s` (no entry while `s` is empty). -/
def Buffer.withKey (b0 : Buffer) (key : List Char) (s : List Nat) : Buffer :=
  if s = [] then b0 else b0 ++ [(key, s)]

/-! ## The worker (`custom_client.cc`) -/

/-- The decimal text `operator<<` writes for an unsigned integer. -/
def decimal (n : Nat) : List Char := Nat.toDigits 10 n

/-- The conversion of the `int` that `std::stoi` returns to the counter
`m_lastGACK`. A round id (a value that is not negative) is kept as it is; a
negative value is reduced modulo `2^32`, as for `uint32_t`, the type the
source gives the local `boundary`. The sum `m_lastGACK + 1` that is assigned
to `m_sent` next is reduced in the same way, so that `GACK,-1` gives
`m_lastGACK = 4294967295` and `m_sent = 0`. -/
def counterOfInt (v : Int) : Nat := (v % 4294967296).toNat

/-- A `Send` event of this worker that the simulator holds: its uid and the
delay `dt` it was scheduled with. -/
structure SendEvent where
  uid : Nat
  delay : Nat
deriving DecidableEq, Repr

/-- Modelled from the spec: the header `custom_client.h` is not among the
sources, so the integer types of the members are not known. The counters
`m_sent`, `m_lastGACK`, `m_lastAACK`, the window sizes `m_AWD`, `m_CWD` and
the ids are natural numbers, as the round ids and counts of the spec, with
no width. What the source does fix is kept: the range of `int` in `stoi`
and the type `uint32_t` of the local `boundary`; the value `HandleRead`
takes from `stoi` and its successor are reduced modulo `2^32` (see
`counterOfInt`).

The members of `CustomClient` that `StartApplication`, `StopApplication`,
`ScheduleTransmit`, `Send` and `HandleRead` read or write. `m_socket` tells
whether the socket exists; `m_sendEvent` is the uid of the event the handle
refers to (`none` for `EventId()`). The last two fields are the simulator's
side: the `Send` events of this worker that are scheduled and have neither
run nor been cancelled, and the uid `Simulator::Schedule` gives the next
event. -/
structure CustomClient where
  m_count : Nat
  m_interval : Nat
  m_size : Nat
  m_dataSize : Nat
  m_data : List Char
  m_sent : Nat
  m_socket : Bool
  m_peerAddr : Nat
  m_peerPort : Nat
  m_sendEvent : Option Nat
  m_jobId : Nat
  m_partId : Nat
  m_lastAACK : Nat
  m_lastGACK : Nat
  m_AWD : Nat
  m_CWD : Nat
  sim_events : List SendEvent
  sim_uid : Nat
deriving DecidableEq, Repr

/-- The `NS_LOG_INFO` lines of the worker. -/
inductive WorkerLog where
  | received (read_data : List Char)
  | sent (size : Nat)
deriving DecidableEq, Repr

/-- The effect of a piece of the worker: the worker afterwards, the
datagrams sent, the lines logged, and how it ended (`fault` is undefined
behaviour, an uncaught exception or a failed `NS_ASSERT`). -/
structure ClientOutcome where
  st : CustomClient
  out : List Datagram
  log : List WorkerLog
  status : Status
deriving DecidableEq, Repr

/-- The constructor `CustomClient::CustomClient()` followed by the
attributes: nothing sent, no socket, no event, no data buffer, both
watermarks 0, `m_AWD = 15`, `m_CWD = 5`. -/
def CustomClient.init (count interval size jobId partId peerAddr peerPort : Nat) :
    CustomClient :=
  { m_count := count, m_interval := interval, m_size := size, m_dataSize := 0,
    m_data := [], m_sent := 0, m_socket := false, m_peerAddr := peerAddr,
    m_peerPort := peerPort, m_sendEvent := none, m_jobId := jobId, m_partId := partId,
    m_lastAACK := 0, m_lastGACK := 0, m_AWD := 15, m_CWD := 5,
    sim_events := [], sim_uid := 0 }

/-- The method `CustomClient::SetFill(std::string fill)`: the data buffer
holds the string and its zero terminator. -/
def CustomClient.SetFill (c : CustomClient) (fill : List Char) : CustomClient :=
  { c with m_data := fill ++ [NUL], m_dataSize := fill.length + 1, m_size := fill.length + 1 }

/-- The method `CustomClient::ScheduleTransmit(Time dt)`:
`m_sendEvent = Simulator::Schedule(dt, &CustomClient::Send, this)`. The
simulator takes one more event; the handle is overwritten, the event it
referred to before is not cancelled. -/
def CustomClient.ScheduleTransmit (c : CustomClient) (dt : Nat) : CustomClient :=
  { c with sim_events := c.sim_events ++ [⟨c.sim_uid, dt⟩],
           m_sendEvent := some c.sim_uid,
           sim_uid := c.sim_uid + 1 }

/-- The test `m_sendEvent.IsExpired()`: the handle refers to no event, or
to one the simulator no longer holds. -/
def CustomClient.sendEventExpired (c : CustomClient) : Bool :=
  match c.m_sendEvent with
  | none => true
  | some uid => !(c.sim_events.any (fun e => e.uid == uid))

/-- The method `CustomClient::StartApplication()`, with a valid IPv4 peer
and a `Bind` that succeeds: the socket is created and connected, and the
first send is scheduled at once when `m_sent < m_count`. -/
def CustomClient.StartApplication (c : CustomClient) : CustomClient :=
  let c1 := { c with m_socket := true }
  if c1.m_sent < c1.m_count then c1.ScheduleTransmit 0 else c1

/-- The method `CustomClient::StopApplication()`: the socket is closed and
dropped, and `Simulator::Cancel(m_sendEvent)` cancels the one event the
handle refers to. -/
def CustomClient.StopApplication (c : CustomClient) : CustomClient :=
  let c1 := { c with m_socket := false }
  match c1.m_sendEvent with
  | none => c1
  | some uid => { c1 with sim_events := c1.sim_events.filter (fun e => e.uid != uid) }

/-- The method `CustomClient::Send()`, run by the simulator when a `Send`
event fires. `NS_ASSERT(m_sendEvent.IsExpired())` fails when the handle
refers to an event that is still scheduled; `m_socket->GetSockName` is a
null dereference after `StopApplication`. Otherwise the packet holds the
text `jobId,partId,sent` and its zero terminator, goes to the connected
peer, and `m_sent` is incremented. No send is scheduled (the
`ScheduleTransmit` at the end is commented out). -/
def CustomClient.Send (c : CustomClient) : ClientOutcome :=
  if c.sendEventExpired = false then ⟨c, [], [], Status.fault⟩
  else
    let c1 := c.SetFill
      (decimal c.m_jobId ++ ',' :: decimal c.m_partId ++ ',' :: decimal c.m_sent)
    let p : Datagram := ⟨c1.m_data.take c1.m_dataSize, ⟨c1.m_peerAddr, c1.m_peerPort⟩⟩
    if c1.m_socket = false then ⟨c1, [], [], Status.fault⟩
    else ⟨{ c1 with m_sent := c1.m_sent + 1 }, [p], [WorkerLog.sent c1.m_size], Status.next⟩

/-- The body of the `while` loop of `CustomClient::HandleRead` for one
received packet. -/
def CustomClient.handlePacket (c : CustomClient) (p : Received) : ClientOutcome :=
  -- uint8_t read_buffer[1000]; packet->CopyData(read_buffer, packet->GetSize());
  if 1000 < p.data.length then ⟨c, [], [], Status.fault⟩
  else
    let read_data := p.data
    let log0 := [WorkerLog.received read_data]
    let pktAck := split_string read_data comma
    match pktAck[0]? with
    | none => ⟨c, [], log0, Status.fault⟩
    | some f0 =>
      if f0 = GACK then
        match (pktAck[1]?).bind stoi with
        | none => ⟨c, [], log0, Status.fault⟩
        | some v =>
          let c1 := { c with m_lastGACK := counterOfInt v }
          let c2 := { c1 with m_sent := (c1.m_lastGACK + 1) % 4294967296 }
          let boundary := (min (c2.m_lastGACK + c2.m_CWD) (c2.m_lastAACK + c2.m_AWD)) % 4294967296
          if c2.m_sent < c2.m_count ∧ c2.m_sent ≤ boundary then
            ⟨c2.ScheduleTransmit c2.m_interval, [], log0, Status.next⟩
          else ⟨c2, [], log0, Status.next⟩
      else ⟨c, [], log0, Status.next⟩

/-- The method `CustomClient::HandleRead`: the loop over the datagrams
queued in the socket. No branch returns; only a fault ends the loop before
the queue is drained. -/
def CustomClient.HandleRead (c : CustomClient) : List Received → ClientOutcome
  | [] => ⟨c, [], [], Status.next⟩
  | p :: queue =>
    let r := c.handlePacket p
    match r.status with
    | Status.next =>
      let r2 := CustomClient.HandleRead r.st queue
      ⟨r2.st, r.out ++ r2.out, r.log ++ r2.log, r2.status⟩
    | _ => r

/-- What happens to a worker: the application is started or stopped, the
simulator fires the `Send` event `uid`, or the socket hands a batch of
datagrams to the receive callback. -/
inductive WorkerOp where
  | start
  | stop
  | fire (uid : Nat)
  | deliver (batch : List Received)
deriving DecidableEq, Repr

/-- One operation on a worker. The simulator fires only an event it holds
(the event leaves the queue, then `Send` runs); datagrams reach `HandleRead`
only while the receive callback is set, between start and stop. -/
def CustomClient.step (c : CustomClient) : WorkerOp → ClientOutcome
  | WorkerOp.start => ⟨c.StartApplication, [], [], Status.next⟩
  | WorkerOp.stop => ⟨c.StopApplication, [], [], Status.next⟩
  | WorkerOp.fire uid =>
    if c.sim_events.any (fun e => e.uid == uid) then
      { c with sim_events := c.sim_events.filter (fun e => e.uid != uid) }.Send
    else ⟨c, [], [], Status.next⟩
  | WorkerOp.deliver batch =>
    if c.m_socket then c.HandleRead batch else ⟨c, [], [], Status.next⟩

/-- A sequence of operations on a worker; a fault ends the process. -/
def CustomClient.runOps (c : CustomClient) : List WorkerOp → ClientOutcome
  | [] => ⟨c, [], [], Status.next⟩
  | op :: ops =>
    let r := c.step op
    match r.status with
    | Status.fault => r
    | _ =>
      let r2 := CustomClient.runOps r.st ops
      ⟨r2.st, r.out ++ r2.out, r.log ++ r2.log, r2.status⟩

/-- A packet read as a RoundAck: first field `GACK`, second field a number
`std::stoi` accepts that is a round id (not negative). The result is the
round id. -/
def roundAckOf (data : List Char) : Option Nat :=
  match pktFields data with
  | some (f0 :: f1 :: _) =>
    if f0 = GACK then
      match stoi f1 with
      | some v => if 0 ≤ v then some v.toNat else none
      | none => none
    else none
  | _ => none

/-- The window boundary of line 409 for a worker state:
`min(m_lastGACK + m_CWD, m_lastAACK + m_AWD)`. -/
def CustomClient.boundary (c : CustomClient) : Nat :=
  min (c.m_lastGACK + c.m_CWD) (c.m_lastAACK + c.m_AWD)

/-! ## The coordinator (`parameter_server.cc`) -/

/-- The prefix `AACK,`. -/
def AACK_ : List Char := ['A', 'A', 'C', 'K', ',']

/-- Modelled from the spec: the header `parameter_server.h` is not among the
sources, so the type of `m_gradientCount` is not known; it is a natural
number, the count of combined results of the spec.

The members of `ParameterServer` that `HandleRead` reads or writes. -/
structure ParameterServer where
  m_peerPort : Nat
  m_size : Nat
  m_dataSize : Nat
  m_data : List Char
  m_gradientCount : Nat
deriving DecidableEq, Repr

/-- The `NS_LOG_INFO` lines of the coordinator. -/
inductive ServerLog where
  | received (read_data : List Char)
  | sentAACK (dst : InetSocketAddress)
deriving DecidableEq, Repr

/-- The effect of a piece of the coordinator's `HandleRead`. -/
structure ServerOutcome where
  st : ParameterServer
  out : List Datagram
  log : List ServerLog
  status : Status
deriving DecidableEq, Repr

/-- The method `ParameterServer::SetFill(std::string fill)`. -/
def ParameterServer.SetFill (s : ParameterServer) (fill : List Char) : ParameterServer :=
  { s with m_data := fill ++ [NUL], m_dataSize := fill.length + 1, m_size := fill.length + 1 }

/-- The body of the `while` loop of `ParameterServer::HandleRead` for one
received packet: a packet whose first field is `AACK` makes `HandleRead`
return; for any other packet the counter is incremented first, then the
second and third field are read and `AACK,<field 1>,<field 2>` is sent to
255.255.255.255 on the peer port. -/
def ParameterServer.handlePacket (s : ParameterServer) (p : Received) : ServerOutcome :=
  -- uint8_t read_buffer[1000]; packet->CopyData(read_buffer, packet->GetSize());
  if 1000 < p.data.length then ⟨s, [], [], Status.fault⟩
  else
    let read_data := p.data
    let log0 := [ServerLog.received read_data]
    let pktGradient := split_string read_data comma
    match pktGradient[0]? with
    | none => ⟨s, [], log0, Status.fault⟩
    | some f0 =>
      if f0 = AACK then ⟨s, [], log0, Status.ret⟩
      else
        let s1 := { s with m_gradientCount := s.m_gradientCount + 1 }
        match pktGradient[1]?, pktGradient[2]? with
        | some f1, some f2 =>
          let s2 := s1.SetFill (AACK_ ++ f1 ++ ',' :: f2)
          let dstAddress : InetSocketAddress := ⟨broadcastIp, s2.m_peerPort⟩
          ⟨s2, [⟨s2.m_data.take s2.m_dataSize, dstAddress⟩],
            log0 ++ [ServerLog.sentAACK dstAddress], Status.next⟩
        | _, _ => ⟨s1, [], log0, Status.fault⟩

/-- The method `ParameterServer::HandleRead`: the loop over the datagrams
queued in the socket. -/
def ParameterServer.HandleRead (s : ParameterServer) : List Received → ServerOutcome
  | [] => ⟨s, [], [], Status.next⟩
  | p :: queue =>
    let r := s.handlePacket p
    match r.status with
    | Status.next =>
      let r2 := ParameterServer.HandleRead r.st queue
      ⟨r2.st, r.out ++ r2.out, r.log ++ r2.log, r2.status⟩
    | _ => r

/-- A coordinator as the constructor leaves it: no data buffer, counter 0. -/
def ParameterServer.init (peerPort size : Nat) : ParameterServer :=
  { m_peerPort := peerPort, m_size := size, m_dataSize := 0, m_data := [],
    m_gradientCount := 0 }

/-! ## Concrete relays and packets -/

/-- A worker at 10.0.1.1, port 49153. -/
def worker1 : InetSocketAddress := ⟨167772417, 49153⟩

/-- The coordinator at 10.0.2.2, port 9. -/
def coordinator : InetSocketAddress := ⟨167772674, 9⟩

/-- The packet a sender fills with the text `s`: the text and its zero
terminator. -/
def packetOf (s : String) (sender : InetSocketAddress) : Received :=
  ⟨s.toList ++ [NUL], sender⟩

/-- A fresh relay that expects `maxParts` parts per round and reports to the
coordinator. -/
def freshRelay (maxParts : Nat) : AggregateSwitch :=
  AggregateSwitch.init coordinator.ipv4 coordinator.port 0 maxParts

/-- Ten contributions of part 0 of job 1, for the rounds 0 to 9. -/
def tenRounds : List Received :=
  [packetOf "1,0,0" worker1, packetOf "1,0,1" worker1, packetOf "1,0,2" worker1,
   packetOf "1,0,3" worker1, packetOf "1,0,4" worker1, packetOf "1,0,5" worker1,
   packetOf "1,0,6" worker1, packetOf "1,0,7" worker1, packetOf "1,0,8" worker1,
   packetOf "1,0,9" worker1]

/-- A relay with `maxParts = 2` after the first nine packets of `tenRounds`:
nine rounds are open, one more key fits. -/
def nineRelay : AggregateSwitch := ((freshRelay 2).run [tenRounds.take 9]).st

/-- A relay with `maxParts = 2` after `tenRounds`: ten rounds are open, each
with part 0. -/
def fullRelay : AggregateSwitch := ((freshRelay 2).run [tenRounds]).st

/-- The relay at 10.0.1.254, port 9, as the workers see it. -/
def relayAddr : InetSocketAddress := ⟨167772670, 9⟩

/-- A freshly constructed worker for part 0 of job 1 with `MaxPackets =
count`, an interval of one second (in nanoseconds), and the relay as peer. -/
def freshWorker (count : Nat) : CustomClient :=
  CustomClient.init count 1000000000 100 1 0 relayAddr.ipv4 relayAddr.port

/-- A worker with `MaxPackets = 10` that was started and has sent the
rounds 0, 1 and 2, each after the RoundAck of the round before. -/
def workerAfterThree : CustomClient :=
  ((freshWorker 10).runOps [WorkerOp.start, WorkerOp.fire 0,
    WorkerOp.deliver [packetOf "GACK,0" relayAddr], WorkerOp.fire 1,
    WorkerOp.deliver [packetOf "GACK,1" relayAddr], WorkerOp.fire 2]).st

/-- A fresh coordinator that broadcasts on port 9. -/
def freshServer : ParameterServer := ParameterServer.init 9 100

/-- Successive invocations of `ParameterServer::HandleRead`, one per entry of
`queues`. A fault ends the process: the later invocations do not happen. -/
def ParameterServer.run (s : ParameterServer) : List (List Received) → ServerOutcome
  | [] => ⟨s, [], [], Status.next⟩
  | q :: queues =>
    let r := s.HandleRead q
    match r.status with
    | Status.fault => r
    | _ =>
      let r2 := ParameterServer.run r.st queues
      ⟨r2.st, r.out ++ r2.out, r.log ++ r2.log, r2.status⟩

/-- The CompletionAck for the fields `f1` and `f2`, broadcast on `port`. -/
def aackDatagram (f1 f2 : List Char) (port : Nat) : Datagram :=
  ⟨AACK_ ++ f1 ++ ',' :: f2 ++ [NUL], ⟨broadcastIp, port⟩⟩

/-- The pieces of `l` between its commas, in order, without the empty ones. -/
def commaPieces (l : List Char) : List (List Char) :=
  (l.splitOn ',').filter (fun piece => !piece.isEmpty)

/-- The reference definition of `split_string(s, ",")`, in the words of the
specification: take `s` up to its first zero byte, split it at every comma,
and drop the empty pieces, keeping the order. -/
def split_string_spec (s : List Char) : List (List Char) :=
  commaPieces (s.takeWhile (fun c => c != NUL))

/-! ## The pattern fill `SetFill(uint8_t* fill, uint32_t fillSize, uint32_t dataSize)` -/

/-- The members the pattern fill writes: the data buffer `m_data`, its
allocated size `m_dataSize` and the packet size `m_size`. -/
structure FillMembers where
  m_data : List Char
  m_dataSize : Nat
  m_size : Nat
deriving DecidableEq, Repr

/-- How a run of the pattern fill stands after a bounded number of loop
tests: the loop is still running, a `memcpy` has left its buffers (undefined
behaviour), or the function has returned with the state `st`. -/
inductive FillResult (σ : Type) where
  | unfinished
  | overrun
  | done (st : σ)
deriving DecidableEq, Repr

/-- The call `memcpy(&dst[off], src, n)`: `none` when it writes past the end
of `dst` or reads past the end of `src`. -/
def memcpy (dst : List Char) (off : Nat) (src : List Char) (n : Nat) : Option (List Char) :=
  if off + n ≤ dst.length ∧ n ≤ src.length then
    some (dst.take off ++ src.take n ++ dst.drop (off + n))
  else none

/-- The loop `while (filled + fillSize < dataSize)` of the pattern fill, from
the value `filled` of the counter and the buffer `m_data`; `fuel` bounds the
number of loop tests. The sum `filled + fillSize` is a `uint32_t`. The result
is the counter and the buffer when the loop is left. -/
def fillLoop (fill : List Char) (fillSize dataSize : Nat) :
    Nat → Nat → List Char → FillResult (Nat × List Char)
  | 0, _, _ => FillResult.unfinished
  | fuel + 1, filled, m_data =>
    if (filled + fillSize) % 4294967296 < dataSize then
      -- memcpy(&m_data[filled], fill, fillSize); filled += fillSize;
      match memcpy m_data filled fill fillSize with
      | none => FillResult.overrun
      | some m_data1 =>
        fillLoop fill fillSize dataSize fuel ((filled + fillSize) % 4294967296) m_data1
    else FillResult.done (filled, m_data)

/-- The body shared by `CustomClient::SetFill(uint8_t*, uint32_t, uint32_t)`
and `ParameterServer::SetFill(uint8_t*, uint32_t, uint32_t)`, whose text is
the same. `fill` is the memory the pointer refers to. A buffer of another
size is replaced by a new one, whose bytes are indeterminate until they are
written (zero bytes here); the source never reads them. -/
def patternFill (m : FillMembers) (fill : List Char) (fillSize dataSize fuel : Nat) :
    FillResult FillMembers :=
  let m_data := if dataSize ≠ m.m_dataSize then List.replicate dataSize NUL else m.m_data
  if fillSize ≥ dataSize then
    match memcpy m_data 0 fill dataSize with
    | none => FillResult.overrun
    | some m_data1 => FillResult.done ⟨m_data1, dataSize, dataSize⟩
  else
    -- Do all but the final fill.
    match fillLoop fill fillSize dataSize fuel 0 m_data with
    | FillResult.unfinished => FillResult.unfinished
    | FillResult.overrun => FillResult.overrun
    | FillResult.done (filled, m_data1) =>
      -- Last fill may be partial
      match memcpy m_data1 filled fill ((dataSize + 4294967296 - filled) % 4294967296) with
      | none => FillResult.overrun
      | some m_data2 => FillResult.done ⟨m_data2, dataSize, dataSize⟩

/-- The method `CustomClient::SetFill(uint8_t* fill, uint32_t fillSize,
uint32_t dataSize)` (lines 263-300). -/
def CustomClient.SetFillPattern (c : CustomClient) (fill : List Char)
    (fillSize dataSize fuel : Nat) : FillResult CustomClient :=
  match patternFill ⟨c.m_data, c.m_dataSize, c.m_size⟩ fill fillSize dataSize fuel with
  | FillResult.unfinished => FillResult.unfinished
  | FillResult.overrun => FillResult.overrun
  | FillResult.done m =>
    FillResult.done { c with m_data := m.m_data, m_dataSize := m.m_dataSize, m_size := m.m_size }

/-- The method `ParameterServer::SetFill(uint8_t* fill, uint32_t fillSize,
uint32_t dataSize)` (lines 240-277). -/
def ParameterServer.SetFillPattern (s : ParameterServer) (fill : List Char)
    (fillSize dataSize fuel : Nat) : FillResult ParameterServer :=
  match patternFill ⟨s.m_data, s.m_dataSize, s.m_size⟩ fill fillSize dataSize fuel with
  | FillResult.unfinished => FillResult.unfinished
  | FillResult.overrun => FillResult.overrun
  | FillResult.done m =>
    FillResult.done { s with m_data := m.m_data, m_dataSize := m.m_dataSize, m_size := m.m_size }

/-- The decimal digit characters. -/
def decimalDigits : List Char := ['0', '1', '2', '3', '4', '5', '6', '7', '8', '9']

/-- The text of a contribution for the ids `j`, `p` and the round `k`, as
`Send` builds it with `std::to_string`: `<j>,<p>,<k>`. -/
def contributionText (j p k : Nat) : List Char :=
  decimal j ++ ',' :: decimal p ++ ',' :: decimal k

/-- The marker `RESULT`. -/
def RESULT : List Char := ['R', 'E', 'S', 'U', 'L', 'T']

/-! ## `split_string` -/

theorem strtok_eq_some (delim s tok rest : List Char)
    (h : strtok delim s = some (tok, rest)) :
    tok ≠ [] ∧ (∀ c ∈ tok, delim.elem c = false ∧ c ∈ s) ∧ (∀ c ∈ rest, c ∈ s) ∧
      rest.length < s.length := by
  unfold strtok at h
  split at h
  · cases h
  · rename_i c cs hd
    simp only [Option.some.injEq, Prod.mk.injEq] at h
    obtain ⟨h1, h2⟩ := h
    have hc : delim.elem c = false := by
      have := List.head?_dropWhile_not (fun c => delim.elem c) s
      rw [hd] at this
      simpa using this
    have hsub : ∀ x ∈ c :: cs, x ∈ s := by
      intro x hx
      rw [← hd] at hx
      exact (List.dropWhile_sublist _).subset hx
    have hlen : (c :: cs).length ≤ s.length := by
      rw [← hd]
      exact (List.dropWhile_sublist _).length_le
    have hc2 : c ∉ delim := by simpa using hc
    refine ⟨?_, ?_, ?_, ?_⟩
    · rw [← h1]
      simp [List.takeWhile_cons, hc2]
    · intro x hx
      rw [← h1] at hx
      have hp := List.mem_takeWhile_imp hx
      refine ⟨by simpa using hp, hsub x ((List.takeWhile_prefix _).subset hx)⟩
    · intro x hx
      rw [← h2] at hx
      exact hsub x ((List.dropWhile_sublist _).subset ((List.drop_sublist _ _).subset hx))
    · rw [← h2]
      have h3 : ((c :: cs).dropWhile (fun x => !delim.elem x)).length ≤ cs.length := by
        simp only [List.dropWhile_cons, hc, Bool.not_false, if_true]
        exact (List.dropWhile_sublist _).length_le
      have h4 := List.length_drop 1 ((c :: cs).dropWhile (fun x => !delim.elem x))
      simp only [List.length_cons] at hlen
      omega

theorem split_loop_mem (delim : List Char) (fuel : Nat) :
    ∀ (s tok : List Char), tok ∈ split_loop delim fuel s →
      tok ≠ [] ∧ ∀ c ∈ tok, delim.elem c = false ∧ c ∈ s := by
  induction fuel with
  | zero =>
    intro s tok h
    cases h
  | succ n ih =>
    intro s tok h
    unfold split_loop at h
    cases hs : strtok delim s with
    | none =>
      rw [hs] at h
      cases h
    | some r =>
      obtain ⟨pch, rest⟩ := r
      rw [hs] at h
      obtain ⟨h1, h2, h3, _⟩ := strtok_eq_some delim s pch rest hs
      rcases List.mem_cons.1 h with h | h
      · rw [h]
        exact ⟨h1, h2⟩
      · obtain ⟨i1, i2⟩ := ih rest tok h
        exact ⟨i1, fun c hc => ⟨(i2 c hc).1, h3 c (i2 c hc).2⟩⟩

/-- The fuel of `split_string` is enough: more calls of `strtok` than the
length of the string never change the result. -/
theorem split_loop_fuel (delim : List Char) (n : Nat) :
    ∀ (m : Nat) (s : List Char), s.length < n → s.length < m →
      split_loop delim n s = split_loop delim m s := by
  induction n with
  | zero =>
    intro m s h
    cases h
  | succ n ih =>
    intro m s hn hm
    cases m with
    | zero => cases hm
    | succ m =>
      unfold split_loop
      cases hs : strtok delim s with
      | none => rfl
      | some r =>
        obtain ⟨pch, rest⟩ := r
        obtain ⟨_, _, _, h4⟩ := strtok_eq_some delim s pch rest hs
        simp only
        rw [ih m rest (by omega) (by omega)]

theorem c_str_mem (s : List Char) (c : Char) (h : c ∈ c_str s) : c ≠ NUL ∧ c ∈ s := by
  unfold c_str at h
  have hp := List.mem_takeWhile_imp h
  exact ⟨by simpa using hp, (List.takeWhile_prefix _).subset h⟩

theorem split_string_mem (input tok : List Char) (h : tok ∈ split_string input comma) :
    tok ≠ [] ∧ ∀ c ∈ tok, c ≠ ',' ∧ c ≠ NUL ∧ c ∈ input := by
  unfold split_string at h
  obtain ⟨h1, h2⟩ := split_loop_mem comma _ _ tok h
  refine ⟨h1, fun c hc => ?_⟩
  obtain ⟨h3, h4⟩ := h2 c hc
  obtain ⟨h5, h6⟩ := c_str_mem input c h4
  refine ⟨?_, h5, h6⟩
  intro hcc
  rw [hcc] at h3
  simp [comma] at h3

theorem strtok_token (tok : List Char) (hne : tok ≠ [])
    (hc : ∀ c ∈ tok, c ≠ ',') : strtok comma tok = some (tok, []) := by
  cases tok with
  | nil => exact absurd rfl hne
  | cons c cs =>
    have hel : ∀ x ∈ c :: cs, x ∉ comma := by
      intro x hx
      have := hc x hx
      simp [comma, this]
    have h0 : (c :: cs).dropWhile (fun x => comma.elem x) = c :: cs := by
      simp [List.dropWhile_cons, hel c (List.mem_cons_self _ _)]
    have h1 : (c :: cs).takeWhile (fun x => !comma.elem x) = c :: cs := by
      rw [List.takeWhile_eq_self_iff]
      intro x hx
      simp [hel x hx]
    have h2 : (c :: cs).dropWhile (fun x => !comma.elem x) = [] := by
      rw [List.dropWhile_eq_nil_iff]
      intro x hx
      simp [hel x hx]
    unfold strtok
    rw [h0]
    simp only [h1, h2, List.drop_nil]

/-- The RoundAck `GACK,<f2>` with its zero terminator is read back as the two
fields `GACK` and `f2`. -/
theorem split_string_gack (f2 : List Char) (hne : f2 ≠ [])
    (hc : ∀ c ∈ f2, c ≠ ',' ∧ c ≠ NUL) :
    split_string (GACK_ ++ f2 ++ [NUL]) comma = [GACK, f2] := by
  have hcs : c_str (GACK_ ++ f2 ++ [NUL]) = GACK_ ++ f2 := by
    unfold c_str
    rw [List.takeWhile_append_of_pos]
    · simp
    · intro x hx
      rcases List.mem_append.1 hx with hx | hx
      · simp only [GACK_, List.mem_cons, List.mem_singleton, List.not_mem_nil, or_false] at hx
        rcases hx with h | h | h | h | h <;> rw [h] <;> decide
      · simpa using (hc x hx).2
  have hfuel : (GACK_ ++ f2 ++ [NUL]).length + 1 = (f2.length + 4) + 3 := by
    simp [GACK_]
  have h1 : strtok comma (GACK_ ++ f2) = some (GACK, f2) := by
    simp [strtok, GACK_, GACK, comma]
  have h2 := strtok_token f2 hne (fun c h => (hc c h).1)
  have h3 : strtok comma [] = none := rfl
  unfold split_string
  rw [hcs, hfuel]
  simp only [split_loop, h1, h2, h3]

/-! ## The aggregation buffer -/

theorem Buffer.hasKey_iff (b : Buffer) (key : List Char) :
    b.hasKey key = true ↔ key ∈ b.openKeys := by
  induction b with
  | nil => simp [Buffer.hasKey, Buffer.openKeys]
  | cons e b ih =>
    simp only [Buffer.hasKey, Buffer.openKeys, List.any_cons, List.map_cons, List.mem_cons,
      Bool.or_eq_true, beq_iff_eq] at ih ⊢
    rw [ih]
    constructor
    · rintro (h | h)
      · exact Or.inl h.symm
      · exact Or.inr h
    · rintro (h | h)
      · exact Or.inl h.symm
      · exact Or.inr h

theorem Buffer.parts_of_not_mem (b : Buffer) (key : List Char) (h : key ∉ b.openKeys) :
    b.parts key = [] := by
  induction b with
  | nil => rfl
  | cons e b ih =>
    obtain ⟨k, s⟩ := e
    simp only [Buffer.openKeys, List.map_cons, List.mem_cons, not_or] at h
    have hk : k ≠ key := fun hh => h.1 hh.symm
    simp only [Buffer.parts, hk, if_false]
    exact ih h.2

theorem Buffer.parts_of_mem (b : Buffer) (key : List Char) (s : List Nat)
    (hnd : b.openKeys.Nodup) (h : (key, s) ∈ b) : b.parts key = s := by
  induction b with
  | nil => cases h
  | cons e b ih =>
    obtain ⟨k, t⟩ := e
    simp only [Buffer.openKeys, List.map_cons, List.nodup_cons] at hnd
    rcases List.mem_cons.1 h with h | h
    · cases h
      simp [Buffer.parts]
    · have hk : k ≠ key := by
        intro hh
        apply hnd.1
        rw [hh]
        exact List.mem_map.2 ⟨(key, s), h, rfl⟩
      simp only [Buffer.parts, hk, if_false]
      exact ih hnd.2 h

theorem Buffer.openKeys_insertPart (b : Buffer) (key : List Char) (part : Nat) :
    (b.insertPart key part).openKeys = b.openKeys := by
  induction b with
  | nil => rfl
  | cons e b ih =>
    obtain ⟨k, s⟩ := e
    by_cases hk : k = key
    · simp [Buffer.insertPart, Buffer.openKeys, hk]
    · simp only [Buffer.insertPart, hk, if_false, Buffer.openKeys, List.map_cons] at ih ⊢
      rw [ih]

theorem Buffer.length_insertPart (b : Buffer) (key : List Char) (part : Nat) :
    (b.insertPart key part).length = b.length := by
  have h := congrArg List.length (Buffer.openKeys_insertPart b key part)
  simpa [Buffer.openKeys] using h

theorem Buffer.parts_insertPart_same (b : Buffer) (key : List Char) (part : Nat)
    (h : key ∈ b.openKeys) :
    (b.insertPart key part).parts key = (setInsert (b.parts key) part).1 := by
  induction b with
  | nil => simp [Buffer.openKeys] at h
  | cons e b ih =>
    obtain ⟨k, s⟩ := e
    by_cases hk : k = key
    · simp [Buffer.insertPart, Buffer.parts, hk]
    · simp only [Buffer.openKeys, List.map_cons, List.mem_cons] at h
      have h2 : key ∈ Buffer.openKeys b := by
        rcases h with h | h
        · exact absurd h.symm hk
        · exact h
      simp only [Buffer.insertPart, Buffer.parts, hk, if_false]
      exact ih h2

theorem Buffer.parts_insertPart_other (b : Buffer) (key other : List Char) (part : Nat)
    (h : other ≠ key) : (b.insertPart key part).parts other = b.parts other := by
  induction b with
  | nil => rfl
  | cons e b ih =>
    obtain ⟨k, s⟩ := e
    by_cases hk : k = key
    · subst hk
      have hko : k ≠ other := fun hh => h hh.symm
      simp [Buffer.insertPart, Buffer.parts, hko]
    · by_cases hko : k = other
      · subst hko
        simp [Buffer.insertPart, Buffer.parts, hk]
      · simp only [Buffer.insertPart, Buffer.parts, hk, hko, if_false]
        exact ih

theorem Buffer.mem_insertPart (b : Buffer) (key : List Char) (part : Nat)
    (e : List Char × List Nat) (h : e ∈ b.insertPart key part) :
    e ∈ b ∨ ∃ s, (key, s) ∈ b ∧ e = (key, (setInsert s part).1) := by
  induction b with
  | nil => cases h
  | cons e0 b ih =>
    obtain ⟨k, s⟩ := e0
    by_cases hk : k = key
    · simp only [Buffer.insertPart, hk, if_true] at h
      rcases List.mem_cons.1 h with h | h
      · exact Or.inr ⟨s, by simp [hk], h⟩
      · exact Or.inl (List.mem_cons_of_mem _ h)
    · simp only [Buffer.insertPart, hk, if_false] at h
      rcases List.mem_cons.1 h with h | h
      · exact Or.inl (by rw [h]; exact List.mem_cons_self _ _)
      · rcases ih h with h | ⟨t, ht, he⟩
        · exact Or.inl (List.mem_cons_of_mem _ h)
        · exact Or.inr ⟨t, List.mem_cons_of_mem _ ht, he⟩

theorem Buffer.parts_append_new (b : Buffer) (key other : List Char) (s : List Nat)
    (h : key ∉ b.openKeys) :
    (b ++ [(key, s)]).parts other = if other = key then s else b.parts other := by
  induction b with
  | nil =>
    by_cases ho : other = key
    · simp [Buffer.parts, ho]
    · have : key ≠ other := fun hh => ho hh.symm
      simp [Buffer.parts, ho, this]
  | cons e b ih =>
    obtain ⟨k, t⟩ := e
    simp only [Buffer.openKeys, List.map_cons, List.mem_cons, not_or] at h
    by_cases hko : k = other
    · have : other ≠ key := fun hh => h.1 (hh.symm.trans hko.symm)
      simp [Buffer.parts, hko, this]
    · simp only [List.cons_append, Buffer.parts, hko, if_false]
      exact ih h.2

theorem Buffer.openKeys_erase (b : Buffer) (key : List Char) :
    (b.eraseKey key).openKeys = b.openKeys.filter (fun k => k != key) := by
  induction b with
  | nil => rfl
  | cons e b ih =>
    obtain ⟨k, s⟩ := e
    by_cases hk : k = key
    · simp only [Buffer.eraseKey, Buffer.openKeys] at ih ⊢
      simp [List.filter_cons, hk, ih]
    · simp only [Buffer.eraseKey, Buffer.openKeys] at ih ⊢
      simp [List.filter_cons, hk, ih]

theorem Buffer.eraseKey_of_not_mem (b : Buffer) (key : List Char) (h : key ∉ b.openKeys) :
    b.eraseKey key = b := by
  unfold Buffer.eraseKey
  rw [List.filter_eq_self]
  intro e he
  simp only [bne_iff_ne, ne_eq]
  intro hh
  exact h (List.mem_map.2 ⟨e, he, hh⟩)

theorem Buffer.parts_erase_other (b : Buffer) (key other : List Char) (h : other ≠ key) :
    (b.eraseKey key).parts other = b.parts other := by
  induction b with
  | nil => rfl
  | cons e b ih =>
    obtain ⟨k, s⟩ := e
    simp only [Buffer.eraseKey] at ih
    by_cases hk : k = key
    · subst hk
      have hko : k ≠ other := fun hh => h hh.symm
      simp [Buffer.eraseKey, List.filter_cons, Buffer.parts, ih, hko]
    · by_cases hko : k = other
      · subst hko
        simp [Buffer.eraseKey, List.filter_cons, hk, Buffer.parts]
      · simp [Buffer.eraseKey, List.filter_cons, hk, Buffer.parts, hko, ih]

theorem setInsert_nodup (s : List Nat) (part : Nat) (h : s.Nodup) :
    (setInsert s part).1.Nodup := by
  unfold setInsert
  split_ifs with hm
  · exact h
  · simp only
    rw [List.nodup_append]
    refine ⟨h, List.nodup_singleton _, ?_⟩
    intro x hx hy
    simp only [List.mem_singleton] at hy
    rw [hy] at hx
    exact hm hx

theorem setInsert_length_le (s : List Nat) (part : Nat) :
    (setInsert s part).1.length ≤ s.length + 1 := by
  unfold setInsert
  split_ifs <;> simp

theorem setInsert_length_ge (s : List Nat) (part : Nat) :
    s.length ≤ (setInsert s part).1.length := by
  unfold setInsert
  split_ifs <;> simp

theorem Buffer.insertPart_of_mem (b : Buffer) (key : List Char) (part : Nat)
    (h : part ∈ b.parts key) : b.insertPart key part = b := by
  induction b with
  | nil => rfl
  | cons e b ih =>
    obtain ⟨k, s⟩ := e
    by_cases hk : k = key
    · subst hk
      simp only [Buffer.parts, if_true] at h
      simp [Buffer.insertPart, setInsert, h]
    · simp only [Buffer.parts, hk, if_false] at h
      simp only [Buffer.insertPart, hk, if_false]
      rw [ih h]

theorem Buffer.mem_openKeys_of_parts (b : Buffer) (key : List Char) (part : Nat)
    (h : part ∈ b.parts key) : key ∈ b.openKeys := by
  by_contra hk
  rw [Buffer.parts_of_not_mem b key hk] at h
  cases h

theorem Buffer.add_of_mem (b : Buffer) (key : List Char) (part : Nat)
    (h : part ∈ b.parts key) : b.add key part = b := by
  have hk := (Buffer.hasKey_iff b key).2 (Buffer.mem_openKeys_of_parts b key part h)
  simp only [Buffer.add, hk, if_true]
  exact Buffer.insertPart_of_mem b key part h

theorem Buffer.length_add_le (b : Buffer) (key : List Char) (part : Nat) :
    (b.add key part).length ≤ b.length + 1 := by
  unfold Buffer.add
  split_ifs
  · rw [Buffer.length_insertPart]
    exact Nat.le_succ _
  · simp

theorem Buffer.length_eraseKey_le (b : Buffer) (key : List Char) :
    (b.eraseKey key).length ≤ b.length :=
  List.length_filter_le _ _

theorem Buffer.add_inv (b : Buffer) (maxParts : Nat) (key : List Char) (part : Nat)
    (h : b.Inv maxParts) (hroom : b.length < m_bufferSize) :
    (b.add key part).openKeys.Nodup ∧ (b.add key part).length ≤ m_bufferSize ∧
      ∀ e ∈ b.add key part, e.2.Nodup ∧ 1 ≤ e.2.length ∧
        (1 ≤ maxParts → e.2.length < maxParts ∨ (e.1 = key ∧ e.2.length ≤ maxParts)) := by
  obtain ⟨hnd, hlen, hall⟩ := h
  unfold Buffer.add
  by_cases hk : b.hasKey key = true
  · simp only [hk, if_true]
    refine ⟨by rw [Buffer.openKeys_insertPart]; exact hnd,
      by rw [Buffer.length_insertPart]; exact hlen, ?_⟩
    intro e he
    rcases Buffer.mem_insertPart b key part e he with he | ⟨s, hs, he⟩
    · obtain ⟨h1, h2, h3⟩ := hall e he
      exact ⟨h1, h2, fun hm => Or.inl (h3 hm)⟩
    · obtain ⟨h1, h2, h3⟩ := hall (key, s) hs
      subst he
      refine ⟨setInsert_nodup s part h1, le_trans h2 (setInsert_length_ge s part), ?_⟩
      intro hm
      refine Or.inr ⟨rfl, ?_⟩
      have := setInsert_length_le s part
      have := h3 hm
      simp only at *
      omega
  · have hk2 : key ∉ b.openKeys := fun hh => hk ((Buffer.hasKey_iff b key).2 hh)
    have hk3 : b.hasKey key = false := by simpa using hk
    simp only [hk3, Bool.false_eq_true, if_false]
    refine ⟨?_, ?_, ?_⟩
    · simp only [Buffer.openKeys, List.map_append, List.map_cons, List.map_nil] at hnd hk2 ⊢
      rw [List.nodup_append]
      refine ⟨hnd, List.nodup_singleton _, ?_⟩
      intro x hx hy
      simp only [List.mem_singleton] at hy
      rw [hy] at hx
      exact hk2 hx
    · simp only [List.length_append, List.length_singleton]
      omega
    · intro e he
      rcases List.mem_append.1 he with he | he
      · obtain ⟨h1, h2, h3⟩ := hall e he
        exact ⟨h1, h2, fun hm => Or.inl (h3 hm)⟩
      · simp only [List.mem_singleton] at he
        subst he
        exact ⟨List.nodup_singleton _, by simp, fun hm => Or.inr ⟨rfl, by simpa using hm⟩⟩

theorem Buffer.step_inv (b : Buffer) (maxParts : Nat) (key : List Char) (part : Nat)
    (h : b.Inv maxParts) (hroom : b.length < m_bufferSize) :
    (b.step maxParts key part).Inv maxParts := by
  obtain ⟨hnd, hlen, hall⟩ := Buffer.add_inv b maxParts key part h hroom
  unfold Buffer.step
  split_ifs with hfull
  · refine ⟨?_, le_trans (Buffer.length_eraseKey_le _ _) hlen, ?_⟩
    · rw [Buffer.openKeys_erase]
      exact hnd.filter _
    · intro e he
      have he2 := List.mem_filter.1 he
      obtain ⟨h1, h2, h3⟩ := hall e he2.1
      refine ⟨h1, h2, fun hm => ?_⟩
      rcases h3 hm with h3 | ⟨h3, _⟩
      · exact h3
      · have := he2.2
        simp [h3] at this
  · refine ⟨hnd, hlen, ?_⟩
    intro e he
    obtain ⟨h1, h2, h3⟩ := hall e he
    refine ⟨h1, h2, fun hm => ?_⟩
    rcases h3 hm with h3 | ⟨h3, h4⟩
    · exact h3
    · obtain ⟨k, t⟩ := e
      simp only at h3 h4 ⊢
      subst h3
      have hp : (b.add k part).parts k = t := Buffer.parts_of_mem _ _ _ hnd he
      rw [hp] at hfull
      omega

/-! ## The loop body of `HandleRead` -/

theorem pktFields_eq_some (data : List Char) (fs : List (List Char))
    (h : pktFields data = some fs) :
    ¬ 1000 < data.length ∧ split_string data comma = fs := by
  unfold pktFields at h
  split_ifs at h with hl
  exact ⟨hl, Option.some.inj h⟩

theorem pktFields_eq_none (data : List Char) (h : pktFields data = none) :
    1000 < data.length := by
  unfold pktFields at h
  split_ifs at h with hl
  exact hl

theorem aggregate_buffer (a : AggregateSwitch) (f0 f2 : List Char) (part : Nat) :
    (a.aggregate f0 f2 part).1.m_buffer =
      a.m_buffer.step a.m_maxParts (aggKey f0 f2) part := by
  unfold AggregateSwitch.aggregate Buffer.step Buffer.add Buffer.insertKey
  by_cases hk : a.m_buffer.hasKey (aggKey f0 f2) = true
  · simp only [hk, if_true]
    split_ifs <;> simp [AggregateSwitch.SendResult, AggregateSwitch.SetFill]
  · have hk3 : a.m_buffer.hasKey (aggKey f0 f2) = false := by simpa using hk
    simp only [hk3, Bool.false_eq_true, if_false]
    split_ifs <;> simp_all [AggregateSwitch.SendResult, AggregateSwitch.SetFill]

theorem aggregate_out (a : AggregateSwitch) (f0 f2 : List Char) (part : Nat) :
    (a.aggregate f0 f2 part).2.1 =
      if ((a.m_buffer.add (aggKey f0 f2) part).parts (aggKey f0 f2)).length = a.m_maxParts
      then [resultDatagram a (aggKey f0 f2)] else [] := by
  have hlen : ∀ x y z : Nat, x + (y + (z + 1 + 1)) ≤ x + (y + (z + 1)) + 1 := by
    intro x y z
    omega
  unfold AggregateSwitch.aggregate Buffer.add Buffer.insertKey
  by_cases hk : a.m_buffer.hasKey (aggKey f0 f2) = true
  · simp only [hk, if_true]
    split_ifs <;>
      simp [AggregateSwitch.SendResult, AggregateSwitch.SetFill, resultDatagram, aggKey, hlen]
  · have hk3 : a.m_buffer.hasKey (aggKey f0 f2) = false := by simpa using hk
    simp only [hk3, Bool.false_eq_true, if_false, Bool.true_eq_false, false_and]
    split_ifs <;>
      simp [AggregateSwitch.SendResult, AggregateSwitch.SetFill, resultDatagram, aggKey, hlen]

theorem aggregate_frame (a : AggregateSwitch) (f0 f2 : List Char) (part : Nat) :
    (a.aggregate f0 f2 part).1.m_maxParts = a.m_maxParts ∧
    (a.aggregate f0 f2 part).1.m_peerAddr = a.m_peerAddr ∧
    (a.aggregate f0 f2 part).1.m_peerPort = a.m_peerPort := by
  simp only [AggregateSwitch.aggregate]
  split_ifs <;> simp [AggregateSwitch.SendResult, AggregateSwitch.SetFill]

theorem handlePacket_unreadable (a : AggregateSwitch) (p : Received)
    (h : pktFields p.data = none) :
    a.handlePacket p = ⟨a, [], [], Status.fault⟩ := by
  unfold AggregateSwitch.handlePacket
  simp [pktFields_eq_none p.data h]

theorem handlePacket_aack (a : AggregateSwitch) (p : Received) (rest : List (List Char))
    (h : pktFields p.data = some (AACK :: rest)) :
    a.handlePacket p =
      ⟨a, [⟨p.data, p.sender⟩], [LogLine.received p.data], Status.ret⟩ := by
  obtain ⟨hl, hs⟩ := pktFields_eq_some _ _ h
  unfold AggregateSwitch.handlePacket
  simp [hl, hs]

theorem handlePacket_short (a : AggregateSwitch) (p : Received) (fs : List (List Char))
    (h : pktFields p.data = some fs) (hlen : fs.length < 3) (h0 : fs.head? ≠ some AACK) :
    a.handlePacket p = ⟨a, [], [LogLine.received p.data], Status.fault⟩ := by
  obtain ⟨hl, hs⟩ := pktFields_eq_some _ _ h
  unfold AggregateSwitch.handlePacket
  match fs, hlen, h0 with
  | [], _, _ => simp [hl, hs]
  | [f0], _, h0 =>
    have : f0 ≠ AACK := fun hh => h0 (by simp [hh])
    simp [hl, hs, this]
  | [f0, f1], _, h0 =>
    have : f0 ≠ AACK := fun hh => h0 (by simp [hh])
    simp [hl, hs, this]

theorem handlePacket_fields (a : AggregateSwitch) (p : Received)
    (f0 f1 f2 : List Char) (rest : List (List Char))
    (h : pktFields p.data = some (f0 :: f1 :: f2 :: rest)) (h0 : f0 ≠ AACK) :
    a.handlePacket p =
      if m_bufferSize ≤ a.m_buffer.length then
        ⟨a.SetFill (GACK_ ++ f2), [gackDatagram f2 p.sender],
          [LogLine.received p.data, LogLine.sentGACK p.sender, LogLine.bufferOverflow],
          Status.ret⟩
      else
        match stoi f1 with
        | none =>
          ⟨a.SetFill (GACK_ ++ f2), [gackDatagram f2 p.sender],
            [LogLine.received p.data, LogLine.sentGACK p.sender], Status.fault⟩
        | some v =>
          ⟨((a.SetFill (GACK_ ++ f2)).aggregate f0 f2 (toUint16 v)).1,
            gackDatagram f2 p.sender ::
              ((a.SetFill (GACK_ ++ f2)).aggregate f0 f2 (toUint16 v)).2.1,
            [LogLine.received p.data, LogLine.sentGACK p.sender] ++
              ((a.SetFill (GACK_ ++ f2)).aggregate f0 f2 (toUint16 v)).2.2,
            Status.next⟩ := by
  obtain ⟨hl, hs⟩ := pktFields_eq_some _ _ h
  unfold AggregateSwitch.handlePacket
  simp only [hl, if_false, hs, List.getElem?_cons_zero, h0, List.getElem?_cons_succ,
    Option.some_bind]
  have hdata : ((a.SetFill (GACK_ ++ f2)).m_data.take (a.SetFill (GACK_ ++ f2)).m_dataSize) =
      GACK_ ++ f2 ++ [NUL] := by
    simp [AggregateSwitch.SetFill]
    omega
  have hbuf : (a.SetFill (GACK_ ++ f2)).m_buffer = a.m_buffer := rfl
  simp only [hdata, hbuf, gackDatagram]
  split_ifs with hov
  · simp
  · cases hst : stoi f1 <;> simp

theorem split_string_RESULT_ne (t : List Char) (rest : List (List Char)) :
    split_string (RESULT_ ++ t) comma ≠ AACK :: rest := by
  simp [split_string, RESULT_, c_str, NUL, split_loop, strtok, comma, AACK]

theorem isResultFor_gack (key f2 : List Char) (sender : InetSocketAddress) :
    isResultFor key (gackDatagram f2 sender) = false := by
  simp [isResultFor, gackDatagram, GACK_, RESULT_]

theorem isResultFor_resultDatagram (a : AggregateSwitch) (key other : List Char) :
    isResultFor key (resultDatagram a other) = decide (other = key) := by
  by_cases h : other = key
  · simp [isResultFor, resultDatagram, h]
  · have : ¬ (RESULT_ ++ other ++ [NUL] = RESULT_ ++ key ++ [NUL]) := by
      intro hh
      rw [List.append_assoc, List.append_assoc] at hh
      exact h (List.append_cancel_right (List.append_cancel_left hh))
    simp [isResultFor, resultDatagram, h, this, -List.append_assoc]

theorem handlePacket_summary (a : AggregateSwitch) (p : Received) :
    ((a.handlePacket p).st.m_maxParts = a.m_maxParts ∧
      (a.handlePacket p).st.m_peerAddr = a.m_peerAddr ∧
      (a.handlePacket p).st.m_peerPort = a.m_peerPort) ∧
    (((a.handlePacket p).st.m_buffer = a.m_buffer ∧
        (a.handlePacket p).status ≠ Status.next ∧
        ∀ key, countResults key (a.handlePacket p).out = 0) ∨
      ∃ key part, contribution p.data = some (key, part) ∧
        a.m_buffer.length < m_bufferSize ∧
        (a.handlePacket p).status = Status.next ∧
        (a.handlePacket p).st.m_buffer = a.m_buffer.step a.m_maxParts key part ∧
        (a.handlePacket p).out = roundAck p ::
          (if ((a.m_buffer.add key part).parts key).length = a.m_maxParts
            then [resultDatagram a key] else [])) := by
  cases hf : pktFields p.data with
  | none =>
    rw [handlePacket_unreadable a p hf]
    exact ⟨⟨rfl, rfl, rfl⟩, Or.inl ⟨rfl, by simp, fun _ => rfl⟩⟩
  | some fs =>
    by_cases h0 : fs.head? = some AACK
    · obtain ⟨rest, hfs⟩ : ∃ rest, fs = AACK :: rest := by
        cases fs with
        | nil => simp at h0
        | cons f rest => exact ⟨rest, by simp at h0; rw [h0]⟩
      subst hfs
      rw [handlePacket_aack a p rest hf]
      refine ⟨⟨rfl, rfl, rfl⟩, Or.inl ⟨rfl, by simp, fun key => ?_⟩⟩
      have hs := (pktFields_eq_some _ _ hf).2
      simp only [countResults, List.countP_cons, List.countP_nil, isResultFor, beq_iff_eq]
      have : ¬ (p.data = RESULT_ ++ key ++ [NUL]) := by
        intro hd
        rw [hd, List.append_assoc] at hs
        exact split_string_RESULT_ne _ _ hs
      simp [this, -List.append_assoc]
    · by_cases hlen : fs.length < 3
      · rw [handlePacket_short a p fs hf hlen h0]
        exact ⟨⟨rfl, rfl, rfl⟩, Or.inl ⟨rfl, by simp, fun _ => rfl⟩⟩
      · obtain ⟨f0, f1, f2, rest, hfs⟩ : ∃ f0 f1 f2 rest, fs = f0 :: f1 :: f2 :: rest := by
          match fs, hlen with
          | [], h => simp at h
          | [_], h => simp at h
          | [_, _], h => simp at h
          | f0 :: f1 :: f2 :: rest, _ => exact ⟨f0, f1, f2, rest, rfl⟩
        subst hfs
        have hne : f0 ≠ AACK := fun hh => h0 (by simp [hh])
        rw [handlePacket_fields a p f0 f1 f2 rest hf hne]
        have hack : roundAck p = gackDatagram f2 p.sender := by
          simp [roundAck, (pktFields_eq_some _ _ hf).2]
        by_cases hov : m_bufferSize ≤ a.m_buffer.length
        · simp only [hov, if_true]
          refine ⟨⟨rfl, rfl, rfl⟩, Or.inl ⟨rfl, by simp, fun key => ?_⟩⟩
          simp [countResults, isResultFor_gack]
        · simp only [hov, if_false]
          cases hst : stoi f1 with
          | none =>
            refine ⟨⟨rfl, rfl, rfl⟩, Or.inl ⟨rfl, by simp, fun key => ?_⟩⟩
            simp [countResults, isResultFor_gack]
          | some v =>
            have hfr := aggregate_frame (a.SetFill (GACK_ ++ f2)) f0 f2 (toUint16 v)
            refine ⟨⟨hfr.1, hfr.2.1, hfr.2.2⟩, Or.inr ⟨aggKey f0 f2, toUint16 v, ?_, ?_, rfl, ?_, ?_⟩⟩
            · simp [contribution, hf, hne, hst]
            · exact Nat.lt_of_not_le hov
            · exact aggregate_buffer _ _ _ _
            · simp only [hack]
              rw [aggregate_out]
              rfl

theorem contribution_eq_some (data : List Char) (key : List Char) (part : Nat)
    (h : contribution data = some (key, part)) :
    ∃ f0 f1 f2 rest v, pktFields data = some (f0 :: f1 :: f2 :: rest) ∧ f0 ≠ AACK ∧
      stoi f1 = some v ∧ key = aggKey f0 f2 ∧ part = toUint16 v := by
  unfold contribution at h
  split at h
  · rename_i f0 f1 f2 rest hf
    split_ifs at h with h0
    cases hst : stoi f1 with
    | none => simp [hst] at h
    | some v =>
      simp only [hst, Option.map_some', Option.some.injEq, Prod.mk.injEq] at h
      exact ⟨f0, f1, f2, rest, v, hf, h0, hst, h.1.symm, h.2.symm⟩
  · cases h

theorem Buffer.parts_mem (b : Buffer) (key : List Char) (h : key ∈ b.openKeys) :
    (key, b.parts key) ∈ b := by
  induction b with
  | nil => simp [Buffer.openKeys] at h
  | cons e b ih =>
    obtain ⟨k, s⟩ := e
    by_cases hk : k = key
    · subst hk
      simp [Buffer.parts]
    · simp only [Buffer.openKeys, List.map_cons, List.mem_cons] at h
      have h2 : key ∈ Buffer.openKeys b := by
        rcases h with h | h
        · exact absurd h.symm hk
        · exact h
      simp only [Buffer.parts, hk, if_false]
      exact List.mem_cons_of_mem _ (ih h2)

theorem Buffer.inv_nil (maxParts : Nat) : Buffer.Inv [] maxParts := by
  refine ⟨List.nodup_nil, Nat.zero_le _, ?_⟩
  intro e he
  cases he

theorem handlePacket_inv (a : AggregateSwitch) (p : Received)
    (h : a.m_buffer.Inv a.m_maxParts) :
    (a.handlePacket p).st.m_buffer.Inv (a.handlePacket p).st.m_maxParts := by
  obtain ⟨⟨hmp, _, _⟩, hcase⟩ := handlePacket_summary a p
  rw [hmp]
  rcases hcase with ⟨hb, _, _⟩ | ⟨key, part, _, hroom, _, hb, _⟩
  · rw [hb]
    exact h
  · rw [hb]
    exact Buffer.step_inv _ _ _ _ h hroom

/-! ## The receive loop and successive invocations -/

theorem HandleRead_cons_next (a : AggregateSwitch) (p : Received) (queue : List Received)
    (h : (a.handlePacket p).status = Status.next) :
    a.HandleRead (p :: queue) =
      ⟨⟨((a.handlePacket p).st.HandleRead queue).res.st,
          (a.handlePacket p).out ++ ((a.handlePacket p).st.HandleRead queue).res.out,
          (a.handlePacket p).log ++ ((a.handlePacket p).st.HandleRead queue).res.log,
          ((a.handlePacket p).st.HandleRead queue).res.status⟩,
        ((a.handlePacket p).st.HandleRead queue).pending⟩ := by
  simp only [AggregateSwitch.HandleRead, h]

theorem HandleRead_cons_stop (a : AggregateSwitch) (p : Received) (queue : List Received)
    (h : (a.handlePacket p).status ≠ Status.next) :
    a.HandleRead (p :: queue) = ⟨a.handlePacket p, queue⟩ := by
  cases hs : (a.handlePacket p).status with
  | next => exact absurd hs h
  | ret => simp [AggregateSwitch.HandleRead, hs]
  | fault => simp [AggregateSwitch.HandleRead, hs]

theorem HandleRead_append_next (a : AggregateSwitch) (q m : List Received)
    (h : (a.HandleRead q).res.status = Status.next) :
    a.HandleRead (q ++ m) =
      ⟨⟨((a.HandleRead q).res.st.HandleRead m).res.st,
          (a.HandleRead q).res.out ++ ((a.HandleRead q).res.st.HandleRead m).res.out,
          (a.HandleRead q).res.log ++ ((a.HandleRead q).res.st.HandleRead m).res.log,
          ((a.HandleRead q).res.st.HandleRead m).res.status⟩,
        ((a.HandleRead q).res.st.HandleRead m).pending⟩ := by
  induction q generalizing a with
  | nil => simp [AggregateSwitch.HandleRead]
  | cons p q ih =>
    by_cases hp : (a.handlePacket p).status = Status.next
    · rw [HandleRead_cons_next a p q hp] at h ⊢
      simp only at h
      rw [List.cons_append, HandleRead_cons_next a p (q ++ m) hp, ih _ h]
      simp
    · rw [HandleRead_cons_stop a p q hp] at h
      exact absurd h hp

theorem HandleRead_append_stop (a : AggregateSwitch) (q m : List Received)
    (h : (a.HandleRead q).res.status ≠ Status.next) :
    a.HandleRead (q ++ m) = ⟨(a.HandleRead q).res, (a.HandleRead q).pending ++ m⟩ := by
  induction q generalizing a with
  | nil => simp [AggregateSwitch.HandleRead] at h
  | cons p q ih =>
    by_cases hp : (a.handlePacket p).status = Status.next
    · rw [HandleRead_cons_next a p q hp] at h ⊢
      simp only at h
      rw [List.cons_append, HandleRead_cons_next a p (q ++ m) hp, ih _ h]
    · rw [HandleRead_cons_stop a p q hp, List.cons_append, HandleRead_cons_stop a p (q ++ m) hp]

theorem HandleRead_frame (a : AggregateSwitch) (queue : List Received) :
    (a.HandleRead queue).res.st.m_maxParts = a.m_maxParts ∧
    (a.HandleRead queue).res.st.m_peerAddr = a.m_peerAddr ∧
    (a.HandleRead queue).res.st.m_peerPort = a.m_peerPort := by
  induction queue generalizing a with
  | nil => exact ⟨rfl, rfl, rfl⟩
  | cons p q ih =>
    have hf := (handlePacket_summary a p).1
    by_cases hp : (a.handlePacket p).status = Status.next
    · rw [HandleRead_cons_next a p q hp]
      have := ih (a.handlePacket p).st
      exact ⟨this.1.trans hf.1, this.2.1.trans hf.2.1, this.2.2.trans hf.2.2⟩
    · rw [HandleRead_cons_stop a p q hp]
      exact hf

theorem HandleRead_inv (a : AggregateSwitch) (queue : List Received)
    (h : a.m_buffer.Inv a.m_maxParts) :
    (a.HandleRead queue).res.st.m_buffer.Inv a.m_maxParts := by
  induction queue generalizing a with
  | nil => exact h
  | cons p q ih =>
    have hi := handlePacket_inv a p h
    have hf := (handlePacket_summary a p).1.1
    by_cases hp : (a.handlePacket p).status = Status.next
    · rw [HandleRead_cons_next a p q hp]
      have := ih (a.handlePacket p).st hi
      rw [hf] at this
      exact this
    · rw [HandleRead_cons_stop a p q hp]
      rw [hf] at hi
      exact hi

theorem run_cons (a : AggregateSwitch) (q : List Received) (queues : List (List Received)) :
    a.run (q :: queues) =
      if (a.HandleRead q).res.status = Status.fault then (a.HandleRead q).res
      else ⟨((a.HandleRead q).res.st.run queues).st,
        (a.HandleRead q).res.out ++ ((a.HandleRead q).res.st.run queues).out,
        (a.HandleRead q).res.log ++ ((a.HandleRead q).res.st.run queues).log,
        ((a.HandleRead q).res.st.run queues).status⟩ := by
  cases hs : (a.HandleRead q).res.status <;> simp [AggregateSwitch.run, hs]

theorem run_frame (a : AggregateSwitch) (queues : List (List Received)) :
    (a.run queues).st.m_maxParts = a.m_maxParts ∧
    (a.run queues).st.m_peerAddr = a.m_peerAddr ∧
    (a.run queues).st.m_peerPort = a.m_peerPort := by
  induction queues generalizing a with
  | nil => exact ⟨rfl, rfl, rfl⟩
  | cons q queues ih =>
    have hf := HandleRead_frame a q
    rw [run_cons]
    split_ifs
    · exact hf
    · have := ih (a.HandleRead q).res.st
      exact ⟨this.1.trans hf.1, this.2.1.trans hf.2.1, this.2.2.trans hf.2.2⟩

theorem run_inv (a : AggregateSwitch) (queues : List (List Received))
    (h : a.m_buffer.Inv a.m_maxParts) :
    (a.run queues).st.m_buffer.Inv a.m_maxParts := by
  induction queues generalizing a with
  | nil => exact h
  | cons q queues ih =>
    have hi := HandleRead_inv a q h
    have hf := (HandleRead_frame a q).1
    rw [run_cons]
    split_ifs
    · exact hi
    · have := ih (a.HandleRead q).res.st (by rw [hf]; exact hi)
      rw [hf] at this
      exact this

theorem handlePacket_overflow (a : AggregateSwitch) (p : Received)
    (f0 f1 f2 : List Char) (rest : List (List Char))
    (hf : pktFields p.data = some (f0 :: f1 :: f2 :: rest)) (h0 : f0 ≠ AACK)
    (hfull : m_bufferSize ≤ a.m_buffer.length) :
    a.handlePacket p =
      ⟨a.SetFill (GACK_ ++ f2), [gackDatagram f2 p.sender],
        [LogLine.received p.data, LogLine.sentGACK p.sender, LogLine.bufferOverflow],
        Status.ret⟩ := by
  rw [handlePacket_fields a p f0 f1 f2 rest hf h0]
  simp [hfull]

theorem roundAck_eq (p : Received) (f0 f1 f2 : List Char) (rest : List (List Char))
    (hf : pktFields p.data = some (f0 :: f1 :: f2 :: rest)) :
    roundAck p = gackDatagram f2 p.sender := by
  simp [roundAck, (pktFields_eq_some _ _ hf).2]

/-! ## Overflow -/

/-- C4: when the number of open keys equals the buffer capacity and a packet
with at least three fields (first field not `AACK`) arrives whose key is not
open, the aggregation buffer is left unchanged (the key is not created), the
only datagram sent is the RoundAck (no CombinedResult), the line
`buffer overflow` is logged and `HandleRead` returns. -/
theorem overflow_rejects_new_key (a : AggregateSwitch) (p : Received)
    (f0 f1 f2 : List Char) (rest : List (List Char))
    (hf : pktFields p.data = some (f0 :: f1 :: f2 :: rest)) (h0 : f0 ≠ AACK)
    (hfull : a.m_buffer.length = m_bufferSize)
    (hnew : aggKey f0 f2 ∉ a.m_buffer.openKeys) :
    (a.handlePacket p).st.m_buffer = a.m_buffer ∧
    aggKey f0 f2 ∉ (a.handlePacket p).st.m_buffer.openKeys ∧
    (a.handlePacket p).out = [gackDatagram f2 p.sender] ∧
    (∀ key, countResults key (a.handlePacket p).out = 0) ∧
    LogLine.bufferOverflow ∈ (a.handlePacket p).log ∧
    (a.handlePacket p).status = Status.ret := by
  rw [handlePacket_overflow a p f0 f1 f2 rest hf h0 (le_of_eq hfull.symm)]
  refine ⟨rfl, hnew, rfl, fun key => ?_, by simp, rfl⟩
  simp [countResults, isResultFor_gack]

/-- Witness of C4: the full relay and a contribution for round 0 of job 2. -/
theorem overflow_rejects_new_key_witness :
    (fullRelay.handlePacket (packetOf "2,0,0" worker1)).st.m_buffer = fullRelay.m_buffer ∧
    (fullRelay.handlePacket (packetOf "2,0,0" worker1)).status = Status.ret :=
  have h := overflow_rejects_new_key fullRelay (packetOf "2,0,0" worker1)
    "2".toList "0".toList "0".toList [] (by decide) (by decide) (by decide) (by decide)
  ⟨h.1, h.2.2.2.2.2⟩

/-- C3, as the code behaves: when the number of open keys is at the buffer
capacity, a contribution is an overflow also when its key is already open:
the buffer is left unchanged (the part is not inserted, the round is not
completed), only the RoundAck is sent, `buffer overflow` is logged and
`HandleRead` returns. -/
theorem overflow_rejects_open_key (a : AggregateSwitch) (p : Received)
    (key : List Char) (part : Nat)
    (hc : contribution p.data = some (key, part))
    (hfull : a.m_buffer.length = m_bufferSize)
    (hopen : key ∈ a.m_buffer.openKeys) :
    (a.handlePacket p).st.m_buffer = a.m_buffer ∧
    key ∈ (a.handlePacket p).st.m_buffer.openKeys ∧
    (a.handlePacket p).out = [roundAck p] ∧
    (∀ k, countResults k (a.handlePacket p).out = 0) ∧
    LogLine.bufferOverflow ∈ (a.handlePacket p).log ∧
    (a.handlePacket p).status = Status.ret := by
  obtain ⟨f0, f1, f2, rest, v, hf, h0, _, _, _⟩ := contribution_eq_some _ _ _ hc
  rw [handlePacket_overflow a p f0 f1 f2 rest hf h0 (le_of_eq hfull.symm),
    roundAck_eq p f0 f1 f2 rest hf]
  refine ⟨rfl, hopen, rfl, fun k => ?_, by simp, rfl⟩
  simp [countResults, isResultFor_gack]

/-- Witness of the amended C3: the full relay and part 1 of the open round
0 of job 1. -/
theorem overflow_rejects_open_key_witness :
    (fullRelay.handlePacket (packetOf "1,1,0" worker1)).st.m_buffer = fullRelay.m_buffer ∧
    (fullRelay.handlePacket (packetOf "1,1,0" worker1)).status = Status.ret :=
  have h := overflow_rejects_open_key fullRelay (packetOf "1,1,0" worker1)
    "1,0".toList 1 (by decide) (by decide) (by decide)
  ⟨h.1, h.2.2.2.2.2⟩

/-- Counterexample to C3: the relay (`maxParts = 2`) holds ten open keys,
among them round 0 of job 1 with the set {0}. Part 1 of that round arrives:
it is not inserted and the round is not completed; the set stays {0}, no
CombinedResult is sent and the packet is handled as an overflow. -/
theorem open_key_at_capacity_is_overflow :
    fullRelay.m_buffer.length = m_bufferSize ∧
    "1,0".toList ∈ fullRelay.m_buffer.openKeys ∧
    fullRelay.m_buffer.parts "1,0".toList = [0] ∧
    contribution (packetOf "1,1,0" worker1).data = some ("1,0".toList, 1) ∧
    (fullRelay.handlePacket (packetOf "1,1,0" worker1)).st.m_buffer.parts "1,0".toList = [0] ∧
    countResults "1,0".toList (fullRelay.handlePacket (packetOf "1,1,0" worker1)).out = 0 ∧
    LogLine.bufferOverflow ∈ (fullRelay.handlePacket (packetOf "1,1,0" worker1)).log := by
  decide

/-! ## Invariants of the buffer -/

/-- C5: in every state the relay reaches from an empty buffer, by any
sequence of invocations of `HandleRead` on any packets, the number of open
keys is at most `m_bufferSize`, which is 10 (and no key is stored twice, so
the length of the buffer is the number of open keys). -/
theorem capacity_invariant (a : AggregateSwitch) (queues : List (List Received))
    (h : a.m_buffer = []) :
    (a.run queues).st.m_buffer.length ≤ m_bufferSize ∧ m_bufferSize = 10 ∧
    (a.run queues).st.m_buffer.openKeys.Nodup := by
  have hi := run_inv a queues (by rw [h]; exact Buffer.inv_nil _)
  exact ⟨hi.2.1, rfl, hi.1⟩

/-- Witness of C5: eleven contributions for eleven rounds leave ten keys. -/
theorem capacity_invariant_witness :
    ((freshRelay 2).run [tenRounds, [packetOf "1,0,10" worker1]]).st.m_buffer.length ≤ 10 :=
  (capacity_invariant (freshRelay 2) [tenRounds, [packetOf "1,0,10" worker1]] rfl).1

/-! ## Duplicates, acknowledgements, forwarding -/

theorem handlePacket_accepted (a : AggregateSwitch) (p : Received)
    (key : List Char) (part : Nat)
    (hc : contribution p.data = some (key, part))
    (hroom : a.m_buffer.length < m_bufferSize) :
    (a.handlePacket p).status = Status.next ∧
    (a.handlePacket p).st.m_buffer = a.m_buffer.step a.m_maxParts key part ∧
    (a.handlePacket p).out = roundAck p ::
      (if ((a.m_buffer.add key part).parts key).length = a.m_maxParts
        then [resultDatagram a key] else []) := by
  obtain ⟨_, hcase⟩ := handlePacket_summary a p
  rcases hcase with ⟨hb, hs, _⟩ | ⟨key2, part2, hc2, _, hs, hb, ho⟩
  · exfalso
    obtain ⟨f0, f1, f2, rest, v, hf, h0, hst, _, _⟩ := contribution_eq_some _ _ _ hc
    rw [handlePacket_fields a p f0 f1 f2 rest hf h0] at hs
    simp [Nat.not_le.2 hroom, hst] at hs
  · rw [hc] at hc2
    simp only [Option.some.injEq, Prod.mk.injEq] at hc2
    rw [← hc2.1, ← hc2.2] at hb ho
    exact ⟨hs, hb, ho⟩

/-- C6, as the code behaves: in a relay whose buffer satisfies the buffer
invariant (every reachable relay), delivering a contribution whose part id
is already in the set of its open round leaves the whole aggregation buffer
unchanged and sends the RoundAck and no CombinedResult. Processing goes on
with the next packet of the batch when fewer than `m_bufferSize` keys are
open; when the buffer is at capacity the packet is an overflow and
`HandleRead` returns. -/
theorem duplicate_contribution (a : AggregateSwitch) (p : Received)
    (key : List Char) (part : Nat)
    (hinv : a.m_buffer.Inv a.m_maxParts)
    (hc : contribution p.data = some (key, part))
    (hdup : part ∈ a.m_buffer.parts key) :
    (a.handlePacket p).st.m_buffer = a.m_buffer ∧
    (a.handlePacket p).out = [roundAck p] ∧
    (∀ k, countResults k (a.handlePacket p).out = 0) ∧
    (a.m_buffer.length < m_bufferSize → (a.handlePacket p).status = Status.next) ∧
    (m_bufferSize ≤ a.m_buffer.length → (a.handlePacket p).status = Status.ret) := by
  have hcount : ∀ k, countResults k [roundAck p] = 0 := by
    intro k
    simp [countResults, roundAck, isResultFor_gack]
  by_cases hroom : a.m_buffer.length < m_bufferSize
  · obtain ⟨hs, hb, ho⟩ := handlePacket_accepted a p key part hc hroom
    have hadd := Buffer.add_of_mem _ key part hdup
    have hne : (a.m_buffer.parts key).length ≠ a.m_maxParts := by
      have hk := Buffer.mem_openKeys_of_parts _ key part hdup
      obtain ⟨_, h2, h3⟩ := hinv.2.2 _ (Buffer.parts_mem _ key hk)
      intro heq
      simp only at h2 h3
      have := h3 (by omega)
      omega
    rw [hadd] at ho
    simp only [hne, if_false] at ho
    refine ⟨?_, ho, ?_, fun _ => hs, fun h => absurd hroom (Nat.not_lt.2 h)⟩
    · rw [hb]
      simp [Buffer.step, hadd, hne]
    · rw [ho]
      exact hcount
  · have hfull : m_bufferSize ≤ a.m_buffer.length := Nat.not_lt.1 hroom
    obtain ⟨f0, f1, f2, rest, v, hf, h0, _, _, _⟩ := contribution_eq_some _ _ _ hc
    have hr := roundAck_eq p f0 f1 f2 rest hf
    rw [handlePacket_overflow a p f0 f1 f2 rest hf h0 hfull, ← hr]
    exact ⟨rfl, rfl, hcount, fun h => absurd h hroom, fun _ => rfl⟩

/-- Witness of the amended C6: part 2 of round 7 delivered a second time. -/
theorem duplicate_contribution_witness :
    (((freshRelay 3).run [[packetOf "1,2,7" worker1]]).st.handlePacket
        (packetOf "1,2,7" worker1)).st.m_buffer =
      ((freshRelay 3).run [[packetOf "1,2,7" worker1]]).st.m_buffer ∧
    (((freshRelay 3).run [[packetOf "1,2,7" worker1]]).st.handlePacket
        (packetOf "1,2,7" worker1)).status = Status.next :=
  have h := duplicate_contribution ((freshRelay 3).run [[packetOf "1,2,7" worker1]]).st
    (packetOf "1,2,7" worker1) "1,7".toList 2
    (run_inv (freshRelay 3) _ (Buffer.inv_nil _)) (by decide) (by decide)
  ⟨h.1, h.2.2.2.1 (by decide)⟩

/-- Counterexample to C6: the relay holds ten open rounds. The contribution
that opened round 0 is delivered again, with one more packet queued behind
it: the duplicate is handled as an overflow, `HandleRead` returns and the
packet behind it is left in the queue. -/
theorem duplicate_at_capacity_aborts_batch :
    0 ∈ fullRelay.m_buffer.parts "1,0".toList ∧
    contribution (packetOf "1,0,0" worker1).data = some ("1,0".toList, 0) ∧
    (fullRelay.handlePacket (packetOf "1,0,0" worker1)).status = Status.ret ∧
    (fullRelay.HandleRead [packetOf "1,0,0" worker1, packetOf "1,1,1" worker1]).pending =
      [packetOf "1,1,1" worker1] := by
  decide

/-- C8: for every packet with at least three fields whose first field is
not `AACK`, and every relay state, the first datagram the relay sends is the
RoundAck to the sender of the packet: its bytes are `GACK,<third field>` and
a zero terminator, which `split_string` reads as the two fields `GACK` and
the third field of the packet. After it comes nothing or the one
CombinedResult of the round, so the RoundAck is sent once and before any
CombinedResult, whether the contribution is accepted, a duplicate, an
overflow, or has a part field that is no number. -/
theorem round_ack_sent_first (a : AggregateSwitch) (p : Received)
    (f0 f1 f2 : List Char) (rest : List (List Char))
    (hf : pktFields p.data = some (f0 :: f1 :: f2 :: rest)) (h0 : f0 ≠ AACK) :
    (∃ tail, (a.handlePacket p).out = ⟨GACK_ ++ f2 ++ [NUL], p.sender⟩ :: tail ∧
      (tail = [] ∨
        tail = [⟨RESULT_ ++ aggKey f0 f2 ++ [NUL], ⟨a.m_peerAddr, a.m_peerPort⟩⟩])) ∧
    split_string (GACK_ ++ f2 ++ [NUL]) comma = [GACK, f2] := by
  constructor
  · rw [handlePacket_fields a p f0 f1 f2 rest hf h0]
    split_ifs with hov
    · exact ⟨[], rfl, Or.inl rfl⟩
    · cases hst : stoi f1 with
      | none => exact ⟨[], rfl, Or.inl rfl⟩
      | some v =>
        refine ⟨_, rfl, ?_⟩
        rw [aggregate_out]
        split_ifs
        · exact Or.inr rfl
        · exact Or.inl rfl
  · have hmem : f2 ∈ split_string p.data comma := by
      rw [(pktFields_eq_some _ _ hf).2]
      simp
    obtain ⟨h1, h2⟩ := split_string_mem p.data f2 hmem
    exact split_string_gack f2 h1 (fun c hc => ⟨(h2 c hc).1, (h2 c hc).2.1⟩)

/-- Witness of C8: with `maxParts = 1` the only part of round 7 is
acknowledged before the CombinedResult. -/
theorem round_ack_sent_first_witness :
    ((freshRelay 1).handlePacket (packetOf "1,0,7" worker1)).out =
      [⟨"GACK,7".toList ++ [NUL], worker1⟩, ⟨"RESULT,1,7".toList ++ [NUL], coordinator⟩] ∧
    split_string (GACK_ ++ "7".toList ++ [NUL]) comma = [GACK, "7".toList] :=
  have h := round_ack_sent_first (freshRelay 1) (packetOf "1,0,7" worker1)
    "1".toList "0".toList "7".toList [] (by decide) (by decide)
  ⟨by decide, h.2⟩

/-- C9, the code at a CompletionAck from the coordinator: the relay sends
one datagram with the same payload, and sends it to the coordinator it came
from, not to the broadcast address 255.255.255.255 on the peer port; the
buffer is unchanged and `HandleRead` returns. -/
theorem aack_goes_back_to_sender :
    ((freshRelay 3).handlePacket (packetOf "AACK,1,7" coordinator)).out =
      [⟨(packetOf "AACK,1,7" coordinator).data, coordinator⟩] ∧
    coordinator ≠ ⟨broadcastIp, (freshRelay 3).m_peerPort⟩ ∧
    ((freshRelay 3).handlePacket (packetOf "AACK,1,7" coordinator)).st.m_buffer =
      (freshRelay 3).m_buffer ∧
    ((freshRelay 3).handlePacket (packetOf "AACK,1,7" coordinator)).status = Status.ret := by
  decide

/-! ## A batch of packets in one invocation -/

theorem HandleRead_of_allAccepted (a : AggregateSwitch) (batch : List Received)
    (h : a.allAccepted batch = true) :
    a.HandleRead batch =
      ⟨⟨(a.processAll batch).st, (a.processAll batch).out, (a.processAll batch).log,
        Status.next⟩, []⟩ := by
  induction batch generalizing a with
  | nil => rfl
  | cons p ps ih =>
    simp only [AggregateSwitch.allAccepted, Bool.and_eq_true, decide_eq_true_eq] at h
    obtain ⟨⟨hc, hroom⟩, hps⟩ := h
    obtain ⟨c, hc⟩ := Option.isSome_iff_exists.1 hc
    have hs := (handlePacket_accepted a p c.1 c.2 hc hroom).1
    rw [HandleRead_cons_next a p ps hs, ih _ hps]
    rfl

theorem handlePacket_trigger (a : AggregateSwitch) (m : Received)
    (hm : (∃ rest, pktFields m.data = some (AACK :: rest)) ∨
      ((∃ f0 f1 f2 rest, pktFields m.data = some (f0 :: f1 :: f2 :: rest) ∧ f0 ≠ AACK) ∧
        m_bufferSize ≤ a.m_buffer.length)) :
    (a.handlePacket m).status = Status.ret := by
  rcases hm with ⟨rest, hf⟩ | ⟨⟨f0, f1, f2, rest, hf, h0⟩, hfull⟩
  · rw [handlePacket_aack a m rest hf]
  · rw [handlePacket_overflow a m f0 f1 f2 rest hf h0 hfull]

/-- C10: in one invocation of `HandleRead` on the queue `pre ++ m :: post`,
if no packet of `pre` triggers either branch (each is read as a contribution
and finds the buffer below capacity) and `m` is a CompletionAck (first field
`AACK`) or a packet with three fields that finds the buffer at capacity,
then the relay, the datagrams sent and the log are those of `HandleRead` on
`pre ++ [m]`, `HandleRead` returns, and the packets `post` stay in the
queue. If no packet of `batch` triggers either branch, `HandleRead`
processes all of them in arrival order and drains the queue. -/
theorem abort_rest_of_batch (a : AggregateSwitch) (pre : List Received) (m : Received)
    (post batch : List Received) :
    (a.allAccepted pre = true →
      ((∃ rest, pktFields m.data = some (AACK :: rest)) ∨
        ((∃ f0 f1 f2 rest, pktFields m.data = some (f0 :: f1 :: f2 :: rest) ∧ f0 ≠ AACK) ∧
          m_bufferSize ≤ (a.processAll pre).st.m_buffer.length)) →
      (a.HandleRead (pre ++ m :: post)).res = (a.HandleRead (pre ++ [m])).res ∧
      (a.HandleRead (pre ++ m :: post)).res.status = Status.ret ∧
      (a.HandleRead (pre ++ m :: post)).pending = post ∧
      (a.HandleRead (pre ++ [m])).pending = []) ∧
    (a.allAccepted batch = true →
      (a.HandleRead batch).res.st = (a.processAll batch).st ∧
      (a.HandleRead batch).res.out = (a.processAll batch).out ∧
      (a.HandleRead batch).res.status = Status.next ∧
      (a.HandleRead batch).pending = []) := by
  constructor
  · intro hpre hm
    have hp := HandleRead_of_allAccepted a pre hpre
    have hnext : (a.HandleRead pre).res.status = Status.next := by rw [hp]
    have hst : (a.HandleRead pre).res.st = (a.processAll pre).st := by rw [hp]
    have hret := handlePacket_trigger (a.processAll pre).st m hm
    have hstop : ((a.processAll pre).st.handlePacket m).status ≠ Status.next := by
      rw [hret]
      decide
    rw [HandleRead_append_next a pre (m :: post) hnext,
      HandleRead_append_next a pre [m] hnext, hst,
      HandleRead_cons_stop _ m post hstop, HandleRead_cons_stop _ m [] hstop]
    exact ⟨rfl, hret, rfl, rfl⟩
  · intro hb
    rw [HandleRead_of_allAccepted a batch hb]
    exact ⟨rfl, rfl, rfl, rfl⟩

/-- Witness of C10: a contribution, a CompletionAck and a second
contribution in one batch; and a batch of two contributions. -/
theorem abort_rest_of_batch_witness :
    ((freshRelay 3).HandleRead ([packetOf "1,2,7" worker1] ++
        packetOf "AACK,1,6" coordinator :: [packetOf "1,0,7" worker1])).pending =
      [packetOf "1,0,7" worker1] ∧
    ((freshRelay 3).HandleRead [packetOf "1,2,7" worker1, packetOf "1,0,7" worker1]).pending
      = [] :=
  have h := abort_rest_of_batch (freshRelay 3) [packetOf "1,2,7" worker1]
    (packetOf "AACK,1,6" coordinator) [packetOf "1,0,7" worker1]
    [packetOf "1,2,7" worker1, packetOf "1,0,7" worker1]
  ⟨(h.1 (by decide) (Or.inl ⟨["1".toList, "6".toList], by decide⟩)).2.2.1,
    (h.2 (by decide)).2.2.2⟩

/-! ## Counting CombinedResults -/

theorem Buffer.parts_eraseKey_same (b : Buffer) (key : List Char) :
    (b.eraseKey key).parts key = [] := by
  apply Buffer.parts_of_not_mem
  rw [Buffer.openKeys_erase]
  simp

theorem Buffer.parts_add_same_length (b : Buffer) (key : List Char) (part : Nat) :
    ((b.add key part).parts key).length ≤ (b.parts key).length + 1 := by
  unfold Buffer.add
  by_cases hk : b.hasKey key = true
  · simp only [hk, if_true]
    rw [Buffer.parts_insertPart_same b key part ((Buffer.hasKey_iff b key).1 hk)]
    exact setInsert_length_le _ _
  · have hk2 : key ∉ b.openKeys := fun hh => hk ((Buffer.hasKey_iff b key).2 hh)
    have hk3 : b.hasKey key = false := by simpa using hk
    simp only [hk3, Bool.false_eq_true, if_false]
    rw [Buffer.parts_append_new b key key [part] hk2]
    simp

theorem Buffer.parts_add_other (b : Buffer) (key other : List Char) (part : Nat)
    (h : other ≠ key) : (b.add key part).parts other = b.parts other := by
  unfold Buffer.add
  by_cases hk : b.hasKey key = true
  · simp only [hk, if_true]
    exact Buffer.parts_insertPart_other b key other part h
  · have hk2 : key ∉ b.openKeys := fun hh => hk ((Buffer.hasKey_iff b key).2 hh)
    have hk3 : b.hasKey key = false := by simpa using hk
    simp only [hk3, Bool.false_eq_true, if_false]
    rw [Buffer.parts_append_new b key other [part] hk2]
    simp [h]

theorem Buffer.parts_step_other (b : Buffer) (maxParts : Nat) (key other : List Char)
    (part : Nat) (h : other ≠ key) :
    (b.step maxParts key part).parts other = b.parts other := by
  unfold Buffer.step
  split_ifs
  · rw [Buffer.parts_erase_other _ key other h, Buffer.parts_add_other b key other part h]
  · exact Buffer.parts_add_other b key other part h

theorem countResults_append (key : List Char) (xs ys : List Datagram) :
    countResults key (xs ++ ys) = countResults key xs + countResults key ys := by
  simp [countResults, List.countP_append]

theorem countResults_roundAck_cons (key : List Char) (p : Received) (xs : List Datagram) :
    countResults key (roundAck p :: xs) = countResults key xs := by
  simp [countResults, List.countP_cons, roundAck, isResultFor_gack]

theorem handlePacket_account (a : AggregateSwitch) (p : Received) (key : List Char) :
    countResults key (a.handlePacket p).out * a.m_maxParts +
        ((a.handlePacket p).st.m_buffer.parts key).length ≤
      (a.m_buffer.parts key).length + (if isContributionFor key p = true then 1 else 0) := by
  obtain ⟨_, hcase⟩ := handlePacket_summary a p
  rcases hcase with ⟨hb, _, hc⟩ | ⟨key2, part2, hc2, _, _, hb, ho⟩
  · rw [hb, hc key]
    omega
  · rw [hb, ho, countResults_roundAck_cons]
    by_cases hk : key2 = key
    · subst hk
      have hind : isContributionFor key2 p = true := by simp [isContributionFor, hc2]
      have hle := Buffer.parts_add_same_length a.m_buffer key2 part2
      simp only [hind, if_true]
      unfold Buffer.step
      split_ifs with hfull
      · rw [Buffer.parts_eraseKey_same]
        simp only [countResults, List.countP_cons, List.countP_nil,
          isResultFor_resultDatagram, decide_True, if_true, List.length_nil]
        omega
      · simp only [countResults, List.countP_nil]
        omega
    · have hind : isContributionFor key p = false := by
        simp [isContributionFor, hc2, hk]
      have hko : key ≠ key2 := fun hh => hk hh.symm
      rw [Buffer.parts_step_other _ _ key2 key part2 hko]
      simp only [hind, Bool.false_eq_true, if_false]
      split_ifs
      · simp [countResults, List.countP_cons, isResultFor_resultDatagram, hk]
      · simp [countResults]

theorem HandleRead_account (a : AggregateSwitch) (queue : List Received) (key : List Char) :
    countResults key (a.HandleRead queue).res.out * a.m_maxParts +
        ((a.HandleRead queue).res.st.m_buffer.parts key).length ≤
      (a.m_buffer.parts key).length + queue.countP (isContributionFor key) := by
  induction queue generalizing a with
  | nil => simp [AggregateSwitch.HandleRead, countResults]
  | cons p q ih =>
    have h1 := handlePacket_account a p key
    have hf := (handlePacket_summary a p).1.1
    have hcp : (p :: q).countP (isContributionFor key) =
        q.countP (isContributionFor key) + (if isContributionFor key p = true then 1 else 0) :=
      List.countP_cons _ _ _
    rw [hcp]
    by_cases hp : (a.handlePacket p).status = Status.next
    · rw [HandleRead_cons_next a p q hp]
      have h2 := ih (a.handlePacket p).st
      rw [hf] at h2
      simp only [countResults_append, Nat.add_mul]
      omega
    · rw [HandleRead_cons_stop a p q hp]
      simp only
      omega

theorem run_account (a : AggregateSwitch) (queues : List (List Received)) (key : List Char) :
    countResults key (a.run queues).out * a.m_maxParts +
        ((a.run queues).st.m_buffer.parts key).length ≤
      (a.m_buffer.parts key).length + queues.flatten.countP (isContributionFor key) := by
  induction queues generalizing a with
  | nil => simp [AggregateSwitch.run, countResults]
  | cons q queues ih =>
    have h1 := HandleRead_account a q key
    have hf := (HandleRead_frame a q).1
    rw [run_cons, List.flatten_cons, List.countP_append]
    split_ifs
    · omega
    · have h2 := ih (a.HandleRead q).res.st
      rw [hf] at h2
      simp only [countResults_append, Nat.add_mul]
      omega

/-- C2, as the code behaves: a completed round is forgotten (its key is
erased), so contributions delivered after the completion open the key again
and can complete it again. What holds for every sequence of invocations
from an empty buffer and every key: each CombinedResult for the key uses up
`maxParts` contributions delivered for that key, that is, the number of
CombinedResults times `maxParts` is at most the number of packets read as a
contribution for the key; so at most one CombinedResult is sent for a key
for which fewer than `2 * maxParts` contributions are delivered. -/
theorem results_bounded_by_contributions (a : AggregateSwitch)
    (queues : List (List Received)) (key : List Char)
    (h : a.m_buffer = []) :
    countResults key (a.run queues).out * a.m_maxParts ≤
      queues.flatten.countP (isContributionFor key) ∧
    (queues.flatten.countP (isContributionFor key) < 2 * a.m_maxParts →
      countResults key (a.run queues).out ≤ 1) := by
  have hacc := run_account a queues key
  rw [h] at hacc
  simp only [Buffer.parts, List.length_nil, Nat.zero_add] at hacc
  have hle : countResults key (a.run queues).out * a.m_maxParts ≤
      queues.flatten.countP (isContributionFor key) := by omega
  refine ⟨hle, fun hlt => ?_⟩
  by_contra hgt
  have h2 : 2 ≤ countResults key (a.run queues).out := by omega
  have := Nat.mul_le_mul_right a.m_maxParts h2
  omega

/-- Witness of the amended C2: the three parts of round 7, `maxParts = 3`. -/
theorem results_bounded_by_contributions_witness :
    countResults "1,7".toList ((freshRelay 3).run [[packetOf "1,2,7" worker1],
      [packetOf "1,0,7" worker1], [packetOf "1,1,7" worker1]]).out ≤ 1 :=
  (results_bounded_by_contributions (freshRelay 3) [[packetOf "1,2,7" worker1],
    [packetOf "1,0,7" worker1], [packetOf "1,1,7" worker1]] "1,7".toList rfl).2 (by decide)

/-- Counterexample to C2: with `maxParts = 2`, the two parts of round 7 of
job 1 are delivered, the round completes, and both contributions are
delivered once more: the relay sends a second CombinedResult `RESULT,1,7`. -/
theorem completed_round_completes_again :
    countResults "1,7".toList ((freshRelay 2).run
      [[packetOf "1,0,7" worker1], [packetOf "1,1,7" worker1],
       [packetOf "1,0,7" worker1], [packetOf "1,1,7" worker1]]).out = 2 := by
  decide

/-! ## The open rounds -/

theorem setInsert_ne_nil (s : List Nat) (part : Nat) : (setInsert s part).1 ≠ [] := by
  unfold setInsert
  split_ifs with h
  · intro hs
    simp only at hs
    rw [hs] at h
    cases h
  · simp

theorem mem_setInsert (s : List Nat) (part x : Nat) :
    x ∈ (setInsert s part).1 ↔ x ∈ s ∨ x = part := by
  unfold setInsert
  split_ifs with h
  · constructor
    · exact Or.inl
    · rintro (hx | hx)
      · exact hx
      · rw [hx]
        exact h
  · simp

theorem setInsert_length_new (s : List Nat) (part : Nat) (h : part ∉ s) :
    (setInsert s part).1.length = s.length + 1 := by
  simp [setInsert, h]

theorem collect_cons (s : List Nat) (part : Nat) (ps : List Nat) :
    collect s (part :: ps) = collect (setInsert s part).1 ps := rfl

theorem mem_collect (ps : List Nat) (s : List Nat) (x : Nat) :
    x ∈ collect s ps ↔ x ∈ s ∨ x ∈ ps := by
  induction ps generalizing s with
  | nil => simp [collect]
  | cons part ps ih =>
    rw [collect_cons, ih, mem_setInsert]
    simp only [List.mem_cons]
    tauto

theorem collect_nodup (ps : List Nat) (s : List Nat) (h : s.Nodup) :
    (collect s ps).Nodup := by
  induction ps generalizing s with
  | nil => exact h
  | cons part ps ih =>
    rw [collect_cons]
    exact ih _ (setInsert_nodup s part h)

theorem collect_length_ge (ps : List Nat) (s : List Nat) :
    s.length ≤ (collect s ps).length := by
  induction ps generalizing s with
  | nil => exact le_refl _
  | cons part ps ih =>
    rw [collect_cons]
    exact le_trans (setInsert_length_ge s part) (ih _)

theorem collect_nil_length (ps : List Nat) :
    (collect [] ps).length = ps.toFinset.card := by
  rw [← List.toFinset_card_of_nodup (collect_nodup ps [] List.nodup_nil)]
  congr 1
  ext x
  simp [mem_collect]

theorem Buffer.insertPart_append_last (b0 : Buffer) (key : List Char) (s : List Nat)
    (part : Nat) (h : key ∉ b0.openKeys) :
    Buffer.insertPart (b0 ++ [(key, s)]) key part = b0 ++ [(key, (setInsert s part).1)] := by
  induction b0 with
  | nil => simp [Buffer.insertPart]
  | cons e b ih =>
    obtain ⟨k, t⟩ := e
    simp only [Buffer.openKeys, List.map_cons, List.mem_cons, not_or] at h
    have hk : k ≠ key := fun hh => h.1 hh.symm
    have ih2 := ih h.2
    simp only [List.cons_append, Buffer.insertPart, hk, if_false]
    exact congrArg _ ih2

theorem Buffer.withKey_parts (b0 : Buffer) (key : List Char) (s : List Nat)
    (h : key ∉ b0.openKeys) : (Buffer.withKey b0 key s).parts key = s := by
  unfold Buffer.withKey
  split_ifs with hs
  · rw [hs]
    exact Buffer.parts_of_not_mem b0 key h
  · rw [Buffer.parts_append_new b0 key key s h]
    simp

theorem Buffer.withKey_add (b0 : Buffer) (key : List Char) (s : List Nat) (part : Nat)
    (h : key ∉ b0.openKeys) :
    (Buffer.withKey b0 key s).add key part = Buffer.withKey b0 key (setInsert s part).1 := by
  have hne := setInsert_ne_nil s part
  unfold Buffer.withKey Buffer.add
  by_cases hs : s = []
  · have hk : Buffer.hasKey b0 key = false := by
      cases hh : Buffer.hasKey b0 key
      · rfl
      · exact absurd ((Buffer.hasKey_iff b0 key).1 hh) h
    subst hs
    simp [hk, setInsert]
  · have hk : Buffer.hasKey (b0 ++ [(key, s)]) key = true := by
      rw [Buffer.hasKey_iff]
      simp [Buffer.openKeys]
    simp only [hs, if_false, hk, if_true, hne]
    exact Buffer.insertPart_append_last b0 key s part h

theorem Buffer.withKey_eraseKey (b0 : Buffer) (key : List Char) (s : List Nat)
    (h : key ∉ b0.openKeys) : (Buffer.withKey b0 key s).eraseKey key = b0 := by
  unfold Buffer.withKey
  split_ifs with hs
  · exact Buffer.eraseKey_of_not_mem b0 key h
  · have := Buffer.eraseKey_of_not_mem b0 key h
    unfold Buffer.eraseKey at this ⊢
    rw [List.filter_append, this]
    simp

theorem Buffer.withKey_length (b0 : Buffer) (key : List Char) (s : List Nat) :
    (Buffer.withKey b0 key s).length ≤ b0.length + 1 ∧
    (s = [] → (Buffer.withKey b0 key s).length = b0.length) := by
  unfold Buffer.withKey
  split_ifs with hs
  · exact ⟨Nat.le_succ _, fun _ => rfl⟩
  · exact ⟨by simp, fun h => absurd h hs⟩

theorem contribution_of_isContributionFor (key : List Char) (p : Received)
    (h : isContributionFor key p = true) : contribution p.data = some (key, partOf p) := by
  unfold isContributionFor at h
  unfold partOf
  cases hc : contribution p.data with
  | none => simp [hc] at h
  | some c =>
    obtain ⟨k, part⟩ := c
    simp only [hc, Option.map_some', beq_iff_eq, Option.some.injEq] at h
    simp [h]

theorem HandleRead_collect (b0 : Buffer) (key : List Char) (hkey : key ∉ b0.openKeys)
    (msgs : List Received) :
    ∀ (a : AggregateSwitch) (s : List Nat),
      a.m_buffer = Buffer.withKey b0 key s →
      (msgs = [] ∨ b0.length + 1 < m_bufferSize) →
      (∀ p ∈ msgs, isContributionFor key p = true) →
      (collect s (msgs.map partOf)).length < a.m_maxParts →
      (a.HandleRead msgs).res.status = Status.next ∧
      (a.HandleRead msgs).res.st.m_buffer =
        Buffer.withKey b0 key (collect s (msgs.map partOf)) ∧
      (a.HandleRead msgs).res.out = msgs.map roundAck := by
  induction msgs with
  | nil =>
    intro a s hb _ _ _
    exact ⟨rfl, hb, rfl⟩
  | cons p ps ih =>
    intro a s hb hroom hall hlen
    have hroom2 : b0.length + 1 < m_bufferSize := by
      rcases hroom with h | h
      · cases h
      · exact h
    have hc := contribution_of_isContributionFor key p (hall p (List.mem_cons_self _ _))
    have hr : a.m_buffer.length < m_bufferSize := by
      rw [hb]
      exact lt_of_le_of_lt (Buffer.withKey_length b0 key s).1 hroom2
    obtain ⟨hs, hbuf, hout⟩ := handlePacket_accepted a p key (partOf p) hc hr
    have hmp := (handlePacket_summary a p).1.1
    simp only [List.map_cons, collect_cons] at hlen ⊢
    have hnot : ¬ (((a.m_buffer.add key (partOf p)).parts key).length = a.m_maxParts) := by
      rw [hb, Buffer.withKey_add b0 key s _ hkey, Buffer.withKey_parts b0 key _ hkey]
      have := collect_length_ge (ps.map partOf) (setInsert s (partOf p)).1
      omega
    have hbuf2 : (a.handlePacket p).st.m_buffer =
        Buffer.withKey b0 key (setInsert s (partOf p)).1 := by
      rw [hbuf]
      unfold Buffer.step
      simp only [hnot, if_false]
      rw [hb, Buffer.withKey_add b0 key s _ hkey]
    simp only [hnot, if_false] at hout
    obtain ⟨i1, i2, i3⟩ := ih (a.handlePacket p).st (setInsert s (partOf p)).1 hbuf2
      (Or.inr hroom2) (fun q hq => hall q (List.mem_cons_of_mem _ hq)) (by rw [hmp]; exact hlen)
    rw [HandleRead_cons_next a p ps hs]
    exact ⟨i1, i2, by simp [hout, i3]⟩

theorem run_eq_HandleRead (queues : List (List Received)) :
    ∀ a : AggregateSwitch, (a.HandleRead queues.flatten).res.status = Status.next →
      a.run queues = (a.HandleRead queues.flatten).res := by
  induction queues with
  | nil =>
    intro a _
    rfl
  | cons q queues ih =>
    intro a h
    rw [List.flatten_cons] at h ⊢
    have hq : (a.HandleRead q).res.status = Status.next := by
      by_contra hne
      rw [HandleRead_append_stop a q _ hne] at h
      exact hne h
    rw [HandleRead_append_next a q _ hq] at h ⊢
    simp only at h
    rw [run_cons, ih _ h]
    simp [hq]

theorem countResults_map_roundAck (key : List Char) (msgs : List Received) :
    countResults key (msgs.map roundAck) = 0 := by
  induction msgs with
  | nil => rfl
  | cons p ps ih =>
    rw [List.map_cons, countResults_roundAck_cons]
    exact ih

theorem collect_append (s xs ys : List Nat) :
    collect s (xs ++ ys) = collect (collect s xs) ys := by
  simp [collect, List.foldl_append]

/-- C1, as the code behaves: let the key `<job>,<round>` be absent from the
buffer and let the buffer stay below capacity once the key is open (open
keys + 1 < `m_bufferSize`), or let `maxParts = 1` with the buffer below
capacity. Contributions for that key are delivered, split over any number of
invocations, with any duplicates in between; the last one brings a part id
not seen before and makes the number of distinct part ids `maxParts`. Then
every contribution is answered by its RoundAck, the last datagram is the one
CombinedResult `RESULT,<job>,<round>` to the coordinator, exactly one
CombinedResult for the key is sent, the key is absent from the buffer and
the buffer is what it was before. -/
theorem round_completes_once (a : AggregateSwitch) (job round : List Char)
    (queues : List (List Received)) (pre : List Received) (last : Received)
    (habs : aggKey job round ∉ a.m_buffer.openKeys)
    (hroom : a.m_buffer.length + 1 < m_bufferSize ∨
      (a.m_maxParts = 1 ∧ a.m_buffer.length < m_bufferSize))
    (hq : queues.flatten = pre ++ [last])
    (hall : ∀ p ∈ pre ++ [last], isContributionFor (aggKey job round) p = true)
    (hnew : partOf last ∉ pre.map partOf)
    (hcnt : ((pre ++ [last]).map partOf).toFinset.card = a.m_maxParts) :
    (a.run queues).status = Status.next ∧
    (a.run queues).out = (pre ++ [last]).map roundAck ++
      [⟨RESULT_ ++ aggKey job round ++ [NUL], ⟨a.m_peerAddr, a.m_peerPort⟩⟩] ∧
    countResults (aggKey job round) (a.run queues).out = 1 ∧
    aggKey job round ∉ (a.run queues).st.m_buffer.openKeys ∧
    (a.run queues).st.m_buffer = a.m_buffer := by
  have hnotin : partOf last ∉ collect [] (pre.map partOf) := by
    rw [mem_collect]
    simp only [List.not_mem_nil, false_or]
    exact hnew
  have hS : (collect [] (pre.map partOf)).length + 1 = a.m_maxParts := by
    rw [← hcnt, ← collect_nil_length, List.map_append, collect_append]
    simp only [List.map_cons, List.map_nil, collect_cons]
    rw [show collect (setInsert (collect [] (pre.map partOf)) (partOf last)).1 [] =
      (setInsert (collect [] (pre.map partOf)) (partOf last)).1 from rfl]
    rw [setInsert_length_new _ _ hnotin]
  have hpre : pre = [] ∨ a.m_buffer.length + 1 < m_bufferSize := by
    rcases hroom with h | ⟨h1, _⟩
    · exact Or.inr h
    · left
      cases pre with
      | nil => rfl
      | cons p ps =>
        exfalso
        have hm : partOf p ∈ collect [] ((p :: ps).map partOf) := by
          rw [mem_collect]
          simp
        have : (collect [] ((p :: ps).map partOf)).length ≠ 0 := by
          intro h0
          rw [List.length_eq_zero] at h0
          rw [h0] at hm
          cases hm
        omega
  have hb : a.m_buffer = Buffer.withKey a.m_buffer (aggKey job round) [] := by
    simp [Buffer.withKey]
  obtain ⟨h1, h2, h3⟩ := HandleRead_collect a.m_buffer (aggKey job round) habs pre a [] hb hpre
    (fun p hp => hall p (List.mem_append_left _ hp)) (by omega)
  obtain ⟨f1, f2, f3⟩ := HandleRead_frame a pre
  have hc := contribution_of_isContributionFor (aggKey job round) last
    (hall last (List.mem_append_right _ (List.mem_singleton_self _)))
  have hr : (a.HandleRead pre).res.st.m_buffer.length < m_bufferSize := by
    rw [h2]
    by_cases hnil : collect [] (pre.map partOf) = []
    · rw [(Buffer.withKey_length a.m_buffer (aggKey job round) _).2 hnil]
      rcases hroom with h | ⟨_, h⟩
      · omega
      · exact h
    · have hlt : a.m_buffer.length + 1 < m_bufferSize := by
        rcases hpre with h | h
        · rw [h] at hnil
          exact absurd rfl hnil
        · exact h
      exact lt_of_le_of_lt (Buffer.withKey_length a.m_buffer (aggKey job round) _).1 hlt
  obtain ⟨g1, g2, g3⟩ := handlePacket_accepted (a.HandleRead pre).res.st last
    (aggKey job round) (partOf last) hc hr
  have hfull : (((a.HandleRead pre).res.st.m_buffer.add (aggKey job round)
      (partOf last)).parts (aggKey job round)).length = (a.HandleRead pre).res.st.m_maxParts := by
    rw [h2, Buffer.withKey_add _ _ _ _ habs, Buffer.withKey_parts _ _ _ habs,
      setInsert_length_new _ _ hnotin, f1]
    exact hS
  have hbuf : ((a.HandleRead pre).res.st.handlePacket last).st.m_buffer = a.m_buffer := by
    rw [g2]
    unfold Buffer.step
    simp only [hfull, if_true]
    rw [h2, Buffer.withKey_add _ _ _ _ habs]
    exact Buffer.withKey_eraseKey _ _ _ habs
  simp only [hfull, if_true] at g3
  have hrun : a.HandleRead (pre ++ [last]) =
      ⟨⟨((a.HandleRead pre).res.st.handlePacket last).st,
        (a.HandleRead pre).res.out ++ (((a.HandleRead pre).res.st.handlePacket last).out ++ []),
        (a.HandleRead pre).res.log ++ (((a.HandleRead pre).res.st.handlePacket last).log ++ []),
        Status.next⟩, []⟩ := by
    rw [HandleRead_append_next a pre [last] h1, HandleRead_cons_next _ last [] g1]
    rfl
  have hres : a.run queues = (a.HandleRead (pre ++ [last])).res := by
    rw [← hq]
    apply run_eq_HandleRead
    rw [hq, hrun]
  rw [hres, hrun]
  simp only [List.append_nil, h3, g3, hbuf]
  have hout : pre.map roundAck ++ [roundAck last,
      resultDatagram (a.HandleRead pre).res.st (aggKey job round)] =
      (pre ++ [last]).map roundAck ++
        [⟨RESULT_ ++ aggKey job round ++ [NUL], ⟨a.m_peerAddr, a.m_peerPort⟩⟩] := by
    simp [resultDatagram, f2, f3]
  rw [hout]
  refine ⟨trivial, rfl, ?_, habs, trivial⟩
  rw [countResults_append, countResults_map_roundAck]
  simp [countResults, isResultFor]

/-- Witness of C1: `maxParts = 3`, the parts 2, 0, 1 of round 7 of job 1
arrive in this order at a fresh relay, each in an invocation of its own. -/
theorem round_completes_once_witness :
    ((freshRelay 3).run [[packetOf "1,2,7" worker1], [packetOf "1,0,7" worker1],
        [packetOf "1,1,7" worker1]]).out =
      [⟨"GACK,7".toList ++ [NUL], worker1⟩, ⟨"GACK,7".toList ++ [NUL], worker1⟩,
        ⟨"GACK,7".toList ++ [NUL], worker1⟩, ⟨"RESULT,1,7".toList ++ [NUL], coordinator⟩] ∧
    "1,7".toList ∉ ((freshRelay 3).run [[packetOf "1,2,7" worker1],
        [packetOf "1,0,7" worker1], [packetOf "1,1,7" worker1]]).st.m_buffer.openKeys :=
  have h := round_completes_once (freshRelay 3) "1".toList "7".toList
    [[packetOf "1,2,7" worker1], [packetOf "1,0,7" worker1], [packetOf "1,1,7" worker1]]
    [packetOf "1,2,7" worker1, packetOf "1,0,7" worker1] (packetOf "1,1,7" worker1)
    (by decide) (Or.inl (by decide)) (by decide) (by decide) (by decide) (by decide)
  ⟨h.2.1, h.2.2.2.1⟩

/-- Counterexample to C1: the relay (`maxParts = 2`) holds nine open keys,
so the key of round 0 of job 2 is absent and there is room for it. Its two
parts 0 and 1 are delivered. The first one opens the tenth key; the second
one finds the buffer at capacity and is an overflow: no CombinedResult is
sent and the key stays open with the set {0}. -/
theorem tenth_round_never_completes :
    "2,0".toList ∉ nineRelay.m_buffer.openKeys ∧
    nineRelay.m_buffer.length < m_bufferSize ∧
    nineRelay.m_maxParts = 2 ∧
    contribution (packetOf "2,0,0" worker1).data = some ("2,0".toList, 0) ∧
    contribution (packetOf "2,1,0" worker1).data = some ("2,0".toList, 1) ∧
    countResults "2,0".toList
      (nineRelay.run [[packetOf "2,0,0" worker1], [packetOf "2,1,0" worker1]]).out = 0 ∧
    (nineRelay.run [[packetOf "2,0,0" worker1], [packetOf "2,1,0" worker1]]).st.m_buffer.parts
      "2,0".toList = [0] := by
  decide

/-! ## The worker: reading a RoundAck -/

theorem stoi_range (s : List Char) (v : Int) (h : stoi s = some v) :
    -2147483648 ≤ v ∧ v ≤ 2147483647 := by
  unfold stoi at h
  split at h
  rename_i neg body _
  simp only at h
  split_ifs at h
  all_goals
    simp only [Option.some.injEq] at h
    rw [← h]
    omega

theorem counterOfInt_of_nonneg (v : Int) (h0 : 0 ≤ v) (h1 : v ≤ 2147483647) :
    counterOfInt v = v.toNat := by
  unfold counterOfInt
  rw [Int.emod_eq_of_lt h0 (by omega)]

theorem roundAckOf_eq_some (data : List Char) (r : Nat) (h : roundAckOf data = some r) :
    ∃ f1 rest v, pktFields data = some (GACK :: f1 :: rest) ∧ stoi f1 = some v ∧
      0 ≤ v ∧ v.toNat = r ∧ counterOfInt v = r := by
  unfold roundAckOf at h
  split at h
  · rename_i f0 f1 rest hf
    split_ifs at h with h0
    subst h0
    cases hst : stoi f1 with
    | none => simp [hst] at h
    | some v =>
      simp only [hst] at h
      split_ifs at h with hv
      simp only [Option.some.injEq] at h
      refine ⟨f1, rest, v, hf, hst, hv, h, ?_⟩
      rw [counterOfInt_of_nonneg v hv (stoi_range f1 v hst).2]
      exact h
  · cases h

theorem CustomClient.worker_packet_other (c : CustomClient) (p : Received)
    (f0 : List Char) (rest : List (List Char))
    (h : pktFields p.data = some (f0 :: rest)) (h0 : f0 ≠ GACK) :
    c.handlePacket p = ⟨c, [], [WorkerLog.received p.data], Status.next⟩ := by
  obtain ⟨hl, hs⟩ := pktFields_eq_some _ _ h
  unfold CustomClient.handlePacket
  simp [hl, hs, h0]

theorem CustomClient.worker_packet_gack (c : CustomClient) (p : Received)
    (f1 : List Char) (rest : List (List Char)) (v : Int)
    (h : pktFields p.data = some (GACK :: f1 :: rest)) (hv : stoi f1 = some v) :
    c.handlePacket p =
      if (counterOfInt v + 1) % 4294967296 < c.m_count ∧
          (counterOfInt v + 1) % 4294967296 ≤
            (min (counterOfInt v + c.m_CWD) (c.m_lastAACK + c.m_AWD)) % 4294967296 then
        ⟨CustomClient.ScheduleTransmit
            { c with m_lastGACK := counterOfInt v,
                     m_sent := (counterOfInt v + 1) % 4294967296 } c.m_interval,
          [], [WorkerLog.received p.data], Status.next⟩
      else
        ⟨{ c with m_lastGACK := counterOfInt v,
                  m_sent := (counterOfInt v + 1) % 4294967296 }, [],
          [WorkerLog.received p.data], Status.next⟩ := by
  obtain ⟨hl, hs⟩ := pktFields_eq_some _ _ h
  unfold CustomClient.handlePacket
  simp only [hl, if_false, hs, List.getElem?_cons_zero, if_true, List.getElem?_cons_succ,
    Option.some_bind, hv]

/-- What a RoundAck for round `r` does to a worker: both counters are set,
and the next send is scheduled when the window test of line 410 holds. -/
theorem CustomClient.worker_packet_roundAck (c : CustomClient) (p : Received) (r : Nat)
    (h : roundAckOf p.data = some r) :
    c.handlePacket p =
      if r + 1 < c.m_count ∧
          r + 1 ≤ (min (r + c.m_CWD) (c.m_lastAACK + c.m_AWD)) % 4294967296 then
        ⟨CustomClient.ScheduleTransmit
            { c with m_lastGACK := r, m_sent := r + 1 } c.m_interval,
          [], [WorkerLog.received p.data], Status.next⟩
      else
        ⟨{ c with m_lastGACK := r, m_sent := r + 1 }, [],
          [WorkerLog.received p.data], Status.next⟩ := by
  obtain ⟨f1, rest, v, hf, hv, h0, ht, hc⟩ := roundAckOf_eq_some _ _ h
  have hr : (r + 1) % 4294967296 = r + 1 := by
    have := (stoi_range f1 v hv).2
    exact Nat.mod_eq_of_lt (by omega)
  rw [CustomClient.worker_packet_gack c p f1 rest v hf hv, hc, hr]

theorem CustomClient.worker_packet_roundAck_basic (c : CustomClient) (p : Received) (r : Nat)
    (h : roundAckOf p.data = some r) :
    (c.handlePacket p).status = Status.next ∧
    (c.handlePacket p).out = [] ∧
    (c.handlePacket p).st.m_lastGACK = r ∧
    (c.handlePacket p).st.m_sent = r + 1 ∧
    (c.handlePacket p).st.m_count = c.m_count ∧
    (c.handlePacket p).st.m_interval = c.m_interval ∧
    (c.handlePacket p).st.m_lastAACK = c.m_lastAACK ∧
    (c.handlePacket p).st.m_AWD = c.m_AWD ∧
    (c.handlePacket p).st.m_CWD = c.m_CWD ∧
    (c.handlePacket p).st.m_socket = c.m_socket := by
  rw [CustomClient.worker_packet_roundAck c p r h]
  split_ifs <;> simp [CustomClient.ScheduleTransmit]

theorem CustomClient.worker_read_cons_next (c : CustomClient) (p : Received)
    (queue : List Received) (h : (c.handlePacket p).status = Status.next) :
    c.HandleRead (p :: queue) =
      ⟨((c.handlePacket p).st.HandleRead queue).st,
        (c.handlePacket p).out ++ ((c.handlePacket p).st.HandleRead queue).out,
        (c.handlePacket p).log ++ ((c.handlePacket p).st.HandleRead queue).log,
        ((c.handlePacket p).st.HandleRead queue).status⟩ := by
  simp only [CustomClient.HandleRead, h]

theorem CustomClient.worker_read_cons_stop (c : CustomClient) (p : Received)
    (queue : List Received) (h : (c.handlePacket p).status ≠ Status.next) :
    c.HandleRead (p :: queue) = c.handlePacket p := by
  cases hs : (c.handlePacket p).status with
  | next => exact absurd hs h
  | ret => simp [CustomClient.HandleRead, hs]
  | fault => simp [CustomClient.HandleRead, hs]

theorem CustomClient.worker_read_roundAcks (batch : List Received) :
    ∀ c : CustomClient, (∀ p ∈ batch, (roundAckOf p.data).isSome = true) →
      (c.HandleRead batch).status = Status.next ∧
      (c.HandleRead batch).st.m_socket = c.m_socket ∧
      ((c.m_sent = c.m_lastGACK + 1 ∨ batch ≠ []) →
        (c.HandleRead batch).st.m_sent = (c.HandleRead batch).st.m_lastGACK + 1) := by
  induction batch with
  | nil =>
    intro c _
    refine ⟨rfl, rfl, fun h => ?_⟩
    rcases h with h | h
    · exact h
    · exact absurd rfl h
  | cons p ps ih =>
    intro c hall
    obtain ⟨r, hr⟩ := Option.isSome_iff_exists.1 (hall p (List.mem_cons_self _ _))
    have hb := CustomClient.worker_packet_roundAck_basic c p r hr
    obtain ⟨i1, i2, i3⟩ := ih (c.handlePacket p).st
      (fun q hq => hall q (List.mem_cons_of_mem _ hq))
    rw [CustomClient.worker_read_cons_next c p ps hb.1]
    refine ⟨i1, ?_, fun _ => ?_⟩
    · simp only
      rw [i2]
      exact hb.2.2.2.2.2.2.2.2.2
    · apply i3
      left
      rw [hb.2.2.2.1, hb.2.2.1]

theorem CustomClient.runOps_cons (c : CustomClient) (op : WorkerOp) (ops : List WorkerOp) :
    c.runOps (op :: ops) =
      if (c.step op).status = Status.fault then c.step op
      else ⟨((c.step op).st.runOps ops).st,
        (c.step op).out ++ ((c.step op).st.runOps ops).out,
        (c.step op).log ++ ((c.step op).st.runOps ops).log,
        ((c.step op).st.runOps ops).status⟩ := by
  cases hs : (c.step op).status <;> simp [CustomClient.runOps, hs]

theorem CustomClient.runOps_roundAcks (batches : List (List Received)) :
    ∀ c : CustomClient, c.m_socket = true →
      (∀ b ∈ batches, ∀ p ∈ b, (roundAckOf p.data).isSome = true) →
      (c.runOps (batches.map WorkerOp.deliver)).status = Status.next ∧
      ((c.m_sent = c.m_lastGACK + 1 ∨ batches.flatten ≠ []) →
        (c.runOps (batches.map WorkerOp.deliver)).st.m_sent =
          (c.runOps (batches.map WorkerOp.deliver)).st.m_lastGACK + 1) := by
  induction batches with
  | nil =>
    intro c _ _
    refine ⟨rfl, fun h => ?_⟩
    rcases h with h | h
    · exact h
    · exact absurd rfl h
  | cons b bs ih =>
    intro c hs hall
    obtain ⟨h1, h2, h3⟩ := CustomClient.worker_read_roundAcks b c
      (hall b (List.mem_cons_self _ _))
    have hstep : c.step (WorkerOp.deliver b) = c.HandleRead b := by
      simp [CustomClient.step, hs]
    obtain ⟨i1, i2⟩ := ih (c.HandleRead b).st (by rw [h2]; exact hs)
      (fun b2 hb2 => hall b2 (List.mem_cons_of_mem _ hb2))
    rw [List.map_cons, CustomClient.runOps_cons, hstep]
    simp only [h1, if_false]
    refine ⟨i1, fun h => ?_⟩
    apply i2
    by_cases hb : b = []
    · subst hb
      rcases h with h | h
      · exact Or.inl (h3 (Or.inl h))
      · right
        simpa using h
    · exact Or.inl (h3 (Or.inr hb))

/-! ## The worker: the claims about RoundAcks and the window -/

/-- C11: for every worker state and every well-formed RoundAck `GACK,<r>`
(second field a round id that `std::stoi` reads), the receive handler sets
`lastAck = r` and `sent = r + 1`, whatever `sent` was before; and after any
non-empty sequence of RoundAcks, delivered in any number of invocations of
the receive callback of a started worker, `sent = lastAck + 1`. -/
theorem round_ack_sets_sent (c : CustomClient) :
    (∀ (p : Received) (r : Nat), roundAckOf p.data = some r →
      (c.handlePacket p).status = Status.next ∧
      (c.handlePacket p).st.m_lastGACK = r ∧
      (c.handlePacket p).st.m_sent = r + 1) ∧
    (∀ batches : List (List Received), c.m_socket = true →
      (∀ b ∈ batches, ∀ p ∈ b, (roundAckOf p.data).isSome = true) →
      batches.flatten ≠ [] →
      (c.runOps (batches.map WorkerOp.deliver)).status = Status.next ∧
      (c.runOps (batches.map WorkerOp.deliver)).st.m_sent =
        (c.runOps (batches.map WorkerOp.deliver)).st.m_lastGACK + 1) := by
  constructor
  · intro p r h
    have hb := CustomClient.worker_packet_roundAck_basic c p r h
    exact ⟨hb.1, hb.2.2.1, hb.2.2.2.1⟩
  · intro batches hs hall hne
    obtain ⟨h1, h2⟩ := CustomClient.runOps_roundAcks batches c hs hall
    exact ⟨h1, h2 (Or.inr hne)⟩

/-- Witness of C11: a worker that has sent the rounds 0, 1, 2 reads the
RoundAck of round 7. -/
theorem round_ack_sets_sent_witness :
    (({ freshWorker 10 with m_sent := 3 }).handlePacket
      (packetOf "GACK,7" relayAddr)).st.m_lastGACK = 7 ∧
    (({ freshWorker 10 with m_sent := 3 }).handlePacket
      (packetOf "GACK,7" relayAddr)).st.m_sent = 7 + 1 ∧
    (((freshWorker 10).StartApplication).runOps
      ([[packetOf "GACK,0" relayAddr], [packetOf "GACK,4" relayAddr]].map
        WorkerOp.deliver)).st.m_sent = 5 :=
  have h := round_ack_sets_sent ({ freshWorker 10 with m_sent := 3 })
  have h2 := round_ack_sets_sent ((freshWorker 10).StartApplication)
  ⟨(h.1 (packetOf "GACK,7" relayAddr) 7 (by decide)).2.1,
    (h.1 (packetOf "GACK,7" relayAddr) 7 (by decide)).2.2,
    by
      have h3 := (h2.2 [[packetOf "GACK,0" relayAddr], [packetOf "GACK,4" relayAddr]]
        (by decide) (by decide) (by decide)).2
      rw [h3]
      decide⟩

theorem append_singleton_ne_self {α : Type} (l : List α) (x : α) : l ++ [x] ≠ l := by
  intro h
  have := congrArg List.length h
  simp at this

/-- The scheduling done by the handler for a RoundAck of round `r`, in terms
of the test of line 410 as the machine evaluates it. -/
theorem CustomClient.worker_packet_roundAck_sched (c : CustomClient) (p : Received) (r : Nat)
    (h : roundAckOf p.data = some r) :
    ((r + 1 < c.m_count ∧
        r + 1 ≤ (min (r + c.m_CWD) (c.m_lastAACK + c.m_AWD)) % 4294967296) →
      (c.handlePacket p).st.sim_events = c.sim_events ++ [⟨c.sim_uid, c.m_interval⟩] ∧
      (c.handlePacket p).st.m_sendEvent = some c.sim_uid) ∧
    (¬ (r + 1 < c.m_count ∧
        r + 1 ≤ (min (r + c.m_CWD) (c.m_lastAACK + c.m_AWD)) % 4294967296) →
      (c.handlePacket p).st.sim_events = c.sim_events ∧
      (c.handlePacket p).st.m_sendEvent = c.m_sendEvent) := by
  rw [CustomClient.worker_packet_roundAck c p r h]
  constructor
  · intro hc
    simp only [hc, and_self, if_true, CustomClient.ScheduleTransmit]
  · intro hc
    simp [hc]

theorem CustomClient.boundary_after_roundAck (c : CustomClient) (p : Received) (r : Nat)
    (h : roundAckOf p.data = some r) :
    (c.handlePacket p).st.boundary = min (r + c.m_CWD) (c.m_lastAACK + c.m_AWD) := by
  have hb := CustomClient.worker_packet_roundAck_basic c p r h
  unfold CustomClient.boundary
  rw [hb.2.2.1, hb.2.2.2.2.2.2.1, hb.2.2.2.2.2.2.2.1, hb.2.2.2.2.2.2.2.2.1]

/-- C12, as the code behaves: a RoundAck for round `r` sets `sent = lastAck
+ 1` whatever the windows are. So after each RoundAck `sent` is at most
`lastAck + relayWindow + 1`, and it is at most `min(lastAck + relayWindow,
lastCompletion + ackWindow) + 1` exactly when `r` is at most `lastCompletion
+ ackWindow`. The window test bounds the scheduling, not the counter: when
the handler schedules a send, `sent` is at most the boundary. -/
theorem window_bound_after_round_ack (c : CustomClient) (p : Received) (r : Nat)
    (h : roundAckOf p.data = some r) :
    (c.handlePacket p).st.m_sent = (c.handlePacket p).st.m_lastGACK + 1 ∧
    (c.handlePacket p).st.m_sent ≤
      (c.handlePacket p).st.m_lastGACK + (c.handlePacket p).st.m_CWD + 1 ∧
    ((c.handlePacket p).st.m_sent ≤ (c.handlePacket p).st.boundary + 1 ↔
      r ≤ c.m_lastAACK + c.m_AWD) ∧
    ((c.handlePacket p).st.sim_events ≠ c.sim_events →
      (c.handlePacket p).st.m_sent ≤ (c.handlePacket p).st.boundary) := by
  have hb := CustomClient.worker_packet_roundAck_basic c p r h
  have hbd := CustomClient.boundary_after_roundAck c p r h
  have hsch := CustomClient.worker_packet_roundAck_sched c p r h
  refine ⟨by rw [hb.2.2.2.1, hb.2.2.1], by rw [hb.2.2.2.1, hb.2.2.1]; omega, ?_, ?_⟩
  · rw [hb.2.2.2.1, hbd]
    constructor
    · intro h1
      have := Nat.min_le_right (r + c.m_CWD) (c.m_lastAACK + c.m_AWD)
      omega
    · intro h1
      have : r ≤ min (r + c.m_CWD) (c.m_lastAACK + c.m_AWD) := by
        apply Nat.le_min.2
        exact ⟨by omega, h1⟩
      omega
  · intro hne
    by_cases hc : r + 1 < c.m_count ∧
        r + 1 ≤ (min (r + c.m_CWD) (c.m_lastAACK + c.m_AWD)) % 4294967296
    · rw [hb.2.2.2.1, hbd]
      exact le_trans hc.2 (Nat.mod_le _ _)
    · exact absurd (hsch.2 hc).1 hne

/-- Witness of the amended C12: the RoundAck of round 0 at a fresh worker
gives `sent = 1`, within the boundary 5 plus one. -/
theorem window_bound_after_round_ack_witness :
    ((freshWorker 10).handlePacket (packetOf "GACK,0" relayAddr)).st.m_sent ≤
      ((freshWorker 10).handlePacket (packetOf "GACK,0" relayAddr)).st.boundary + 1 :=
  ((window_bound_after_round_ack (freshWorker 10) (packetOf "GACK,0" relayAddr) 0
    (by decide)).2.2.1).2 (by decide)

/-- Counterexample to C12: a fresh worker (`relayWindow = 5`, `ackWindow =
15`, `lastCompletion = 0`) reads the RoundAck of round 16. Then `sent = 17`
while `min(lastAck + relayWindow, lastCompletion + ackWindow) + 1 = 16`. -/
theorem sent_exceeds_window_bound :
    roundAckOf (packetOf "GACK,16" relayAddr).data = some 16 ∧
    ((freshWorker 100).handlePacket (packetOf "GACK,16" relayAddr)).st.m_sent = 17 ∧
    min (((freshWorker 100).handlePacket (packetOf "GACK,16" relayAddr)).st.m_lastGACK + 5)
      (((freshWorker 100).handlePacket (packetOf "GACK,16" relayAddr)).st.m_lastAACK + 15)
        + 1 = 16 ∧
    ¬ (((freshWorker 100).handlePacket (packetOf "GACK,16" relayAddr)).st.m_sent ≤
      ((freshWorker 100).handlePacket (packetOf "GACK,16" relayAddr)).st.boundary + 1) := by
  decide

/-- C13: after a RoundAck is processed (in a worker state whose outer bound
`lastCompletion + ackWindow` fits 32 bits, as in every state the worker
reaches), the handler schedules one `Send` event, with the pacing interval
as delay and recorded in `m_sendEvent`, if and only if `sent < count` and
`sent <= boundary`, where `boundary = min(lastAck + relayWindow,
lastCompletion + ackWindow)`; otherwise it schedules nothing and leaves the
handle as it was. No datagram is sent either way. -/
theorem round_ack_schedules_next (c : CustomClient) (p : Received) (r : Nat)
    (h : roundAckOf p.data = some r) (hfit : c.m_lastAACK + c.m_AWD < 4294967296) :
    ((c.handlePacket p).st.sim_events = c.sim_events ++ [⟨c.sim_uid, c.m_interval⟩] ↔
      ((c.handlePacket p).st.m_sent < (c.handlePacket p).st.m_count ∧
        (c.handlePacket p).st.m_sent ≤ (c.handlePacket p).st.boundary)) ∧
    (((c.handlePacket p).st.m_sent < (c.handlePacket p).st.m_count ∧
        (c.handlePacket p).st.m_sent ≤ (c.handlePacket p).st.boundary) →
      (c.handlePacket p).st.m_sendEvent = some c.sim_uid) ∧
    (¬ ((c.handlePacket p).st.m_sent < (c.handlePacket p).st.m_count ∧
        (c.handlePacket p).st.m_sent ≤ (c.handlePacket p).st.boundary) →
      (c.handlePacket p).st.sim_events = c.sim_events ∧
      (c.handlePacket p).st.m_sendEvent = c.m_sendEvent) ∧
    (c.handlePacket p).out = [] := by
  have hb := CustomClient.worker_packet_roundAck_basic c p r h
  have hbd := CustomClient.boundary_after_roundAck c p r h
  have hsch := CustomClient.worker_packet_roundAck_sched c p r h
  have hmod : (min (r + c.m_CWD) (c.m_lastAACK + c.m_AWD)) % 4294967296 =
      min (r + c.m_CWD) (c.m_lastAACK + c.m_AWD) := by
    apply Nat.mod_eq_of_lt
    exact lt_of_le_of_lt (Nat.min_le_right _ _) hfit
  rw [hmod] at hsch
  rw [hb.2.2.2.1, hb.2.2.2.2.1, hbd]
  refine ⟨⟨fun he => ?_, fun hc => (hsch.1 hc).1⟩, fun hc => (hsch.1 hc).2,
    fun hc => hsch.2 hc, hb.2.1⟩
  by_contra hc
  rw [(hsch.2 hc).1] at he
  exact append_singleton_ne_self _ _ he.symm

/-- Witness of C13: `relayWindow = 5`, `ackWindow = 15`, `count = 10`, a
freshly constructed worker (`sent = 0`) reads the RoundAck of round 0: then
`sent = 1`, the boundary is 5, and one send is scheduled after the
interval. -/
theorem round_ack_schedules_next_witness :
    ((freshWorker 10).handlePacket (packetOf "GACK,0" relayAddr)).st.m_sent = 1 ∧
    ((freshWorker 10).handlePacket (packetOf "GACK,0" relayAddr)).st.boundary = 5 ∧
    ((freshWorker 10).handlePacket (packetOf "GACK,0" relayAddr)).st.sim_events =
      (freshWorker 10).sim_events ++ [⟨(freshWorker 10).sim_uid, (freshWorker 10).m_interval⟩] :=
  ⟨by decide, by decide,
    ((round_ack_schedules_next (freshWorker 10) (packetOf "GACK,0" relayAddr) 0
      (by decide) (by decide)).1).2 (by decide)⟩

/-- C14, as the code behaves: `lastCompletion` never advances, so the outer
bound `lastCompletion + ackWindow` is fixed, and it is the inner window that
never changes the outcome (`sent = lastAck + 1` is always within `lastAck +
relayWindow` when `relayWindow >= 1`): after a RoundAck the handler
schedules the next send if and only if `sent < count` and `sent <=
lastCompletion + ackWindow`. -/
theorem outer_window_decides (c : CustomClient) (p : Received) (r : Nat)
    (h : roundAckOf p.data = some r) (hfit : c.m_lastAACK + c.m_AWD < 4294967296)
    (hw : 1 ≤ c.m_CWD) :
    ((c.handlePacket p).st.sim_events = c.sim_events ++ [⟨c.sim_uid, c.m_interval⟩] ↔
      ((c.handlePacket p).st.m_sent < (c.handlePacket p).st.m_count ∧
        (c.handlePacket p).st.m_sent ≤
          (c.handlePacket p).st.m_lastAACK + (c.handlePacket p).st.m_AWD)) ∧
    (¬ ((c.handlePacket p).st.m_sent < (c.handlePacket p).st.m_count ∧
        (c.handlePacket p).st.m_sent ≤
          (c.handlePacket p).st.m_lastAACK + (c.handlePacket p).st.m_AWD) →
      (c.handlePacket p).st.sim_events = c.sim_events) := by
  have hb := CustomClient.worker_packet_roundAck_basic c p r h
  have hbd := CustomClient.boundary_after_roundAck c p r h
  have hmain := round_ack_schedules_next c p r h hfit
  have hiff : ((c.handlePacket p).st.m_sent < (c.handlePacket p).st.m_count ∧
        (c.handlePacket p).st.m_sent ≤ (c.handlePacket p).st.boundary) ↔
      ((c.handlePacket p).st.m_sent < (c.handlePacket p).st.m_count ∧
        (c.handlePacket p).st.m_sent ≤
          (c.handlePacket p).st.m_lastAACK + (c.handlePacket p).st.m_AWD) := by
    rw [hbd, hb.2.2.2.1, hb.2.2.2.2.2.2.1, hb.2.2.2.2.2.2.2.1]
    constructor
    · rintro ⟨h1, h2⟩
      exact ⟨h1, le_trans h2 (Nat.min_le_right _ _)⟩
    · rintro ⟨h1, h2⟩
      exact ⟨h1, Nat.le_min.2 ⟨by omega, h2⟩⟩
  refine ⟨hmain.1.trans hiff, fun hc => ?_⟩
  exact (hmain.2.2.1 (fun hh => hc (hiff.1 hh))).1

/-- Witness of the amended C14: the RoundAck of round 14 at a fresh worker
with `count = 100`: `sent = 15` is within `0 + 15`, a send is scheduled. -/
theorem outer_window_decides_witness :
    ((freshWorker 100).handlePacket (packetOf "GACK,14" relayAddr)).st.sim_events =
      (freshWorker 100).sim_events ++
        [⟨(freshWorker 100).sim_uid, (freshWorker 100).m_interval⟩] :=
  ((outer_window_decides (freshWorker 100) (packetOf "GACK,14" relayAddr) 14
    (by decide) (by decide) (by decide)).1).2 (by decide)

/-- Counterexample to C14: a fresh worker with `count = 100` reads the
RoundAck of round 15. With the boundary `lastAck + relayWindow` alone the
send would be scheduled (`16 < 100` and `16 <= 15 + 5`); the worker
schedules nothing, because `16 > lastCompletion + ackWindow = 15`. -/
theorem outer_window_blocks_round_16 :
    roundAckOf (packetOf "GACK,15" relayAddr).data = some 15 ∧
    ((freshWorker 100).handlePacket (packetOf "GACK,15" relayAddr)).st.m_sent <
      ((freshWorker 100).handlePacket (packetOf "GACK,15" relayAddr)).st.m_count ∧
    ((freshWorker 100).handlePacket (packetOf "GACK,15" relayAddr)).st.m_sent ≤
      ((freshWorker 100).handlePacket (packetOf "GACK,15" relayAddr)).st.m_lastGACK +
        ((freshWorker 100).handlePacket (packetOf "GACK,15" relayAddr)).st.m_CWD ∧
    ((freshWorker 100).handlePacket (packetOf "GACK,15" relayAddr)).st.sim_events =
      (freshWorker 100).sim_events ∧
    ((freshWorker 100).handlePacket (packetOf "GACK,15" relayAddr)).st.sim_events = [] := by
  decide

/-! ## The worker: what never changes -/

theorem CustomClient.worker_packet_frame (c : CustomClient) (p : Received) :
    (c.handlePacket p).st.m_lastAACK = c.m_lastAACK ∧
    (c.handlePacket p).st.m_AWD = c.m_AWD ∧
    (c.handlePacket p).st.m_CWD = c.m_CWD := by
  unfold CustomClient.handlePacket
  split_ifs
  · exact ⟨rfl, rfl, rfl⟩
  · simp only
    split
    · exact ⟨rfl, rfl, rfl⟩
    · split_ifs
      · split
        · exact ⟨rfl, rfl, rfl⟩
        · split_ifs <;> exact ⟨rfl, rfl, rfl⟩
      · exact ⟨rfl, rfl, rfl⟩

theorem CustomClient.worker_read_frame (batch : List Received) :
    ∀ c : CustomClient, (c.HandleRead batch).st.m_lastAACK = c.m_lastAACK ∧
      (c.HandleRead batch).st.m_AWD = c.m_AWD ∧
      (c.HandleRead batch).st.m_CWD = c.m_CWD := by
  induction batch with
  | nil =>
    intro c
    exact ⟨rfl, rfl, rfl⟩
  | cons p ps ih =>
    intro c
    have hf := CustomClient.worker_packet_frame c p
    by_cases hp : (c.handlePacket p).status = Status.next
    · rw [CustomClient.worker_read_cons_next c p ps hp]
      have := ih (c.handlePacket p).st
      exact ⟨this.1.trans hf.1, this.2.1.trans hf.2.1, this.2.2.trans hf.2.2⟩
    · rw [CustomClient.worker_read_cons_stop c p ps hp]
      exact hf

theorem CustomClient.Send_frame (c : CustomClient) :
    (c.Send).st.m_lastAACK = c.m_lastAACK ∧ (c.Send).st.m_AWD = c.m_AWD ∧
    (c.Send).st.m_CWD = c.m_CWD := by
  simp only [CustomClient.Send]
  split_ifs <;> simp [CustomClient.SetFill]

theorem CustomClient.step_frame (c : CustomClient) (op : WorkerOp) :
    (c.step op).st.m_lastAACK = c.m_lastAACK ∧ (c.step op).st.m_AWD = c.m_AWD ∧
    (c.step op).st.m_CWD = c.m_CWD := by
  cases op with
  | start =>
    simp only [CustomClient.step, CustomClient.StartApplication]
    split_ifs <;> exact ⟨rfl, rfl, rfl⟩
  | stop =>
    simp only [CustomClient.step, CustomClient.StopApplication]
    split <;> exact ⟨rfl, rfl, rfl⟩
  | fire uid =>
    simp only [CustomClient.step]
    split_ifs
    · exact CustomClient.Send_frame _
    · exact ⟨rfl, rfl, rfl⟩
  | deliver batch =>
    simp only [CustomClient.step]
    split_ifs
    · exact CustomClient.worker_read_frame batch c
    · exact ⟨rfl, rfl, rfl⟩

theorem CustomClient.runOps_frame (ops : List WorkerOp) :
    ∀ c : CustomClient, (c.runOps ops).st.m_lastAACK = c.m_lastAACK ∧
      (c.runOps ops).st.m_AWD = c.m_AWD ∧ (c.runOps ops).st.m_CWD = c.m_CWD := by
  induction ops with
  | nil =>
    intro c
    exact ⟨rfl, rfl, rfl⟩
  | cons op ops ih =>
    intro c
    have hf := CustomClient.step_frame c op
    rw [CustomClient.runOps_cons]
    split_ifs
    · exact hf
    · have := ih (c.step op).st
      exact ⟨this.1.trans hf.1, this.2.1.trans hf.2.1, this.2.2.trans hf.2.2⟩

/-- C15: the worker never advances `lastCompletion`: in every state a
constructed worker reaches by any sequence of start, stop, fired sends and
deliveries of any packets, `m_lastAACK` is 0, its initial value (and the
windows are still 15 and 5); and a packet whose first field is not `GACK`,
a CompletionAck `AACK,<p>,<r>` in particular, leaves the whole worker state
unchanged (`sent`, `lastAck`, `lastCompletion`, no send scheduled) and sends
nothing. -/
theorem last_completion_never_advances :
    (∀ (count interval size jobId partId peerAddr peerPort : Nat) (ops : List WorkerOp),
      ((CustomClient.init count interval size jobId partId peerAddr peerPort).runOps
        ops).st.m_lastAACK = 0 ∧
      ((CustomClient.init count interval size jobId partId peerAddr peerPort).runOps
        ops).st.m_AWD = 15 ∧
      ((CustomClient.init count interval size jobId partId peerAddr peerPort).runOps
        ops).st.m_CWD = 5) ∧
    (∀ (c : CustomClient) (p : Received) (f0 : List Char) (rest : List (List Char)),
      pktFields p.data = some (f0 :: rest) → f0 ≠ GACK →
      (c.handlePacket p).st = c ∧ (c.handlePacket p).out = [] ∧
      (c.handlePacket p).status = Status.next) := by
  constructor
  · intro count interval size jobId partId peerAddr peerPort ops
    exact CustomClient.runOps_frame ops _
  · intro c p f0 rest hf h0
    rw [CustomClient.worker_packet_other c p f0 rest hf h0]
    exact ⟨rfl, rfl, rfl⟩

/-- Witness of C15: a started worker that has sent round 0 reads the
CompletionAck `AACK,0,0`. -/
theorem last_completion_never_advances_witness :
    (((freshWorker 10).runOps [WorkerOp.start, WorkerOp.fire 0]).st.handlePacket
        (packetOf "AACK,0,0" coordinator)).st =
      ((freshWorker 10).runOps [WorkerOp.start, WorkerOp.fire 0]).st ∧
    ((freshWorker 10).runOps [WorkerOp.start, WorkerOp.fire 0,
      WorkerOp.deliver [packetOf "AACK,0,0" coordinator]]).st.m_lastAACK = 0 :=
  ⟨(last_completion_never_advances.2
      ((freshWorker 10).runOps [WorkerOp.start, WorkerOp.fire 0]).st
      (packetOf "AACK,0,0" coordinator) AACK ["0".toList, "0".toList]
      (by decide) (by decide)).1,
    (last_completion_never_advances.1 10 1000000000 100 1 0 relayAddr.ipv4 relayAddr.port
      [WorkerOp.start, WorkerOp.fire 0,
        WorkerOp.deliver [packetOf "AACK,0,0" coordinator]]).1⟩

/-! ## The worker: sending -/

theorem CustomClient.Send_ok (c : CustomClient) (hs : c.m_socket = true)
    (he : c.sendEventExpired = true) :
    c.Send =
      ⟨{ c with
          m_data := (decimal c.m_jobId ++ ',' :: decimal c.m_partId ++ ',' ::
            decimal c.m_sent) ++ [NUL],
          m_dataSize := (decimal c.m_jobId ++ ',' :: decimal c.m_partId ++ ',' ::
            decimal c.m_sent).length + 1,
          m_size := (decimal c.m_jobId ++ ',' :: decimal c.m_partId ++ ',' ::
            decimal c.m_sent).length + 1,
          m_sent := c.m_sent + 1 },
        [⟨(decimal c.m_jobId ++ ',' :: decimal c.m_partId ++ ',' :: decimal c.m_sent) ++
          [NUL], ⟨c.m_peerAddr, c.m_peerPort⟩⟩],
        [WorkerLog.sent ((decimal c.m_jobId ++ ',' :: decimal c.m_partId ++ ',' ::
          decimal c.m_sent).length + 1)],
        Status.next⟩ := by
  simp only [CustomClient.Send, he, CustomClient.SetFill, hs]
  simp
  omega

/-- C18, the code with `MaxPackets = 0`: the tests `m_sent < m_count` of
`StartApplication` and of `HandleRead` are false for `m_count = 0`, so the
started worker has no send scheduled, and a RoundAck whose `sent` is within
the window boundary schedules none either; the worker never sends. -/
theorem zero_count_never_sends :
    (freshWorker 0).m_count = 0 ∧
    ((freshWorker 0).StartApplication).sim_events = [] ∧
    (((freshWorker 0).StartApplication).handlePacket
      (packetOf "GACK,0" relayAddr)).st.m_sent ≤
      (((freshWorker 0).StartApplication).handlePacket
        (packetOf "GACK,0" relayAddr)).st.boundary ∧
    (((freshWorker 0).StartApplication).handlePacket
      (packetOf "GACK,0" relayAddr)).st.sim_events = [] ∧
    ((freshWorker 0).runOps [WorkerOp.start, WorkerOp.fire 0,
      WorkerOp.deliver [packetOf "GACK,0" relayAddr], WorkerOp.fire 1]).out = [] := by
  decide

/-- C19, the code when two RoundAcks arrive before the scheduled send
fires: the worker is started, sends round 0, and reads the RoundAck of
round 0 twice in one batch. Each RoundAck schedules a send, and the handle
`m_sendEvent` records only the second event (uid 2). `StopApplication`
cancels that one; the event with uid 1 is still scheduled after the stop. -/
theorem stop_leaves_send_pending :
    ((freshWorker 10).runOps [WorkerOp.start, WorkerOp.fire 0,
      WorkerOp.deliver [packetOf "GACK,0" relayAddr, packetOf "GACK,0" relayAddr]]).st.sim_events
      = [⟨1, 1000000000⟩, ⟨2, 1000000000⟩] ∧
    ((freshWorker 10).runOps [WorkerOp.start, WorkerOp.fire 0,
      WorkerOp.deliver [packetOf "GACK,0" relayAddr, packetOf "GACK,0" relayAddr]]).st.m_sendEvent
      = some 2 ∧
    ((freshWorker 10).runOps [WorkerOp.start, WorkerOp.fire 0,
      WorkerOp.deliver [packetOf "GACK,0" relayAddr, packetOf "GACK,0" relayAddr],
      WorkerOp.stop]).status = Status.next ∧
    ((freshWorker 10).runOps [WorkerOp.start, WorkerOp.fire 0,
      WorkerOp.deliver [packetOf "GACK,0" relayAddr, packetOf "GACK,0" relayAddr],
      WorkerOp.stop]).st.sim_events = [⟨1, 1000000000⟩] ∧
    ((freshWorker 10).runOps [WorkerOp.start, WorkerOp.fire 0,
      WorkerOp.deliver [packetOf "GACK,0" relayAddr, packetOf "GACK,0" relayAddr],
      WorkerOp.fire 1]).status = Status.fault := by
  decide

/-! ## Malformed payloads -/

theorem ParameterServer.server_packet_aack (s : ParameterServer) (p : Received)
    (rest : List (List Char)) (h : pktFields p.data = some (AACK :: rest)) :
    s.handlePacket p = ⟨s, [], [ServerLog.received p.data], Status.ret⟩ := by
  obtain ⟨hl, hs⟩ := pktFields_eq_some _ _ h
  unfold ParameterServer.handlePacket
  simp [hl, hs]

theorem ParameterServer.server_packet_fields (s : ParameterServer) (p : Received)
    (f0 f1 f2 : List Char) (rest : List (List Char))
    (h : pktFields p.data = some (f0 :: f1 :: f2 :: rest)) (h0 : f0 ≠ AACK) :
    s.handlePacket p =
      ⟨({ s with m_gradientCount := s.m_gradientCount + 1 }).SetFill
          (AACK_ ++ f1 ++ ',' :: f2),
        [⟨AACK_ ++ f1 ++ ',' :: f2 ++ [NUL], ⟨broadcastIp, s.m_peerPort⟩⟩],
        [ServerLog.received p.data, ServerLog.sentAACK ⟨broadcastIp, s.m_peerPort⟩],
        Status.next⟩ := by
  obtain ⟨hl, hs⟩ := pktFields_eq_some _ _ h
  unfold ParameterServer.handlePacket
  simp only [hl, if_false, hs, List.getElem?_cons_zero, h0, List.getElem?_cons_succ]
  simp [ParameterServer.SetFill]
  omega

theorem ParameterServer.server_packet_fields_frame (s : ParameterServer) (p : Received)
    (f0 f1 f2 : List Char) (rest : List (List Char))
    (h : pktFields p.data = some (f0 :: f1 :: f2 :: rest)) (h0 : f0 ≠ AACK) :
    (s.handlePacket p).st.m_gradientCount = s.m_gradientCount + 1 ∧
    (s.handlePacket p).st.m_peerPort = s.m_peerPort ∧
    (s.handlePacket p).out = [aackDatagram f1 f2 s.m_peerPort] ∧
    (s.handlePacket p).status = Status.next := by
  rw [ParameterServer.server_packet_fields s p f0 f1 f2 rest h h0]
  exact ⟨rfl, rfl, rfl, rfl⟩

theorem ParameterServer.server_read_replicate (p : Received)
    (f0 f1 f2 : List Char) (rest : List (List Char))
    (h : pktFields p.data = some (f0 :: f1 :: f2 :: rest)) (h0 : f0 ≠ AACK) (n : Nat) :
    ∀ s : ParameterServer,
      (s.HandleRead (List.replicate n p)).st.m_gradientCount = s.m_gradientCount + n ∧
      (s.HandleRead (List.replicate n p)).st.m_peerPort = s.m_peerPort ∧
      (s.HandleRead (List.replicate n p)).out =
        List.replicate n (aackDatagram f1 f2 s.m_peerPort) ∧
      (s.HandleRead (List.replicate n p)).status = Status.next := by
  induction n with
  | zero => intro s; exact ⟨rfl, rfl, rfl, rfl⟩
  | succ n ih =>
    intro s
    obtain ⟨hc, hp, ho, hs⟩ := ParameterServer.server_packet_fields_frame s p f0 f1 f2 rest h h0
    obtain ⟨ic, ip, io, is⟩ := ih (s.handlePacket p).st
    simp only [List.replicate_succ, ParameterServer.HandleRead, hs]
    refine ⟨by rw [ic, hc]; omega, by rw [ip, hp], ?_, is⟩
    rw [io, ho, hp]
    rfl

theorem ParameterServer.server_run_replicate (p : Received)
    (f0 f1 f2 : List Char) (rest : List (List Char))
    (h : pktFields p.data = some (f0 :: f1 :: f2 :: rest)) (h0 : f0 ≠ AACK) (n : Nat) :
    ∀ s : ParameterServer,
      (s.run (List.replicate n [p])).st.m_gradientCount = s.m_gradientCount + n ∧
      (s.run (List.replicate n [p])).st.m_peerPort = s.m_peerPort ∧
      (s.run (List.replicate n [p])).out =
        List.replicate n (aackDatagram f1 f2 s.m_peerPort) ∧
      (s.run (List.replicate n [p])).status = Status.next := by
  induction n with
  | zero => intro s; exact ⟨rfl, rfl, rfl, rfl⟩
  | succ n ih =>
    intro s
    obtain ⟨hc, hp, ho, hs⟩ := ParameterServer.server_packet_fields_frame s p f0 f1 f2 rest h h0
    have h1 : s.HandleRead [p] = s.handlePacket p := by
      have hr : ∀ r : ServerOutcome, r.status = Status.next →
          (⟨r.st, r.out, r.log, Status.next⟩ : ServerOutcome) = r := by
        intro r hr
        cases r
        simp only at hr
        simp [hr]
      simp only [ParameterServer.HandleRead, hs, List.append_nil]
      exact hr _ hs
    obtain ⟨ic, ip, io, is⟩ := ih (s.handlePacket p).st
    simp only [List.replicate_succ, ParameterServer.run, h1, hs]
    refine ⟨by rw [ic, hc]; omega, by rw [ip, hp], ?_, is⟩
    rw [io, ho, hp]
    rfl

/-- C21: a payload with at least three fields whose first field is not `AACK`
makes the coordinator increment its completion counter by exactly 1 and send
exactly one datagram, `AACK,<field 1>,<field 2>` with its zero terminator, to
255.255.255.255 on the peer port, and go on with the next packet. This holds
in every state of the coordinator (it keeps nothing per round): the same
payload delivered `n` times, in one invocation of `HandleRead` or in `n`
invocations, raises the counter by `n` and sends `n` such broadcasts. -/
theorem coordinator_counts_and_broadcasts (s : ParameterServer) (p : Received)
    (f0 f1 f2 : List Char) (rest : List (List Char))
    (h : pktFields p.data = some (f0 :: f1 :: f2 :: rest)) (h0 : f0 ≠ AACK) :
    ((s.handlePacket p).st.m_gradientCount = s.m_gradientCount + 1 ∧
      (s.handlePacket p).out =
        [⟨AACK_ ++ f1 ++ ',' :: f2 ++ [NUL], ⟨broadcastIp, s.m_peerPort⟩⟩] ∧
      (s.handlePacket p).status = Status.next) ∧
    ∀ n : Nat,
      ((s.HandleRead (List.replicate n p)).st.m_gradientCount = s.m_gradientCount + n ∧
        (s.HandleRead (List.replicate n p)).out =
          List.replicate n ⟨AACK_ ++ f1 ++ ',' :: f2 ++ [NUL], ⟨broadcastIp, s.m_peerPort⟩⟩) ∧
      ((s.run (List.replicate n [p])).st.m_gradientCount = s.m_gradientCount + n ∧
        (s.run (List.replicate n [p])).out =
          List.replicate n ⟨AACK_ ++ f1 ++ ',' :: f2 ++ [NUL], ⟨broadcastIp, s.m_peerPort⟩⟩) := by
  obtain ⟨hc, _, ho, hs⟩ := ParameterServer.server_packet_fields_frame s p f0 f1 f2 rest h h0
  refine ⟨⟨hc, ho, hs⟩, fun n => ⟨?_, ?_⟩⟩
  · obtain ⟨a, _, b, _⟩ := ParameterServer.server_read_replicate p f0 f1 f2 rest h h0 n s
    exact ⟨a, b⟩
  · obtain ⟨a, _, b, _⟩ := ParameterServer.server_run_replicate p f0 f1 f2 rest h h0 n s
    exact ⟨a, b⟩

/-- Witness of C21: the payload `1,0,9` raises the counter of a fresh
coordinator from 0 to 1 and is answered by the broadcast `AACK,0,9`; three
deliveries raise the counter to 3 and send three broadcasts. -/
theorem coordinator_counts_and_broadcasts_witness :
    pktFields (packetOf "1,0,9" relayAddr).data =
        some ["1".toList, "0".toList, "9".toList] ∧
    (freshServer.handlePacket (packetOf "1,0,9" relayAddr)).st.m_gradientCount = 1 ∧
    (freshServer.handlePacket (packetOf "1,0,9" relayAddr)).out =
      [⟨"AACK,0,9".toList ++ [NUL], ⟨broadcastIp, 9⟩⟩] ∧
    (freshServer.HandleRead (List.replicate 3 (packetOf "1,0,9" relayAddr))).st.m_gradientCount
      = 3 ∧
    (freshServer.run (List.replicate 3 [packetOf "1,0,9" relayAddr])).out =
      List.replicate 3 ⟨"AACK,0,9".toList ++ [NUL], ⟨broadcastIp, 9⟩⟩ :=
  have h := coordinator_counts_and_broadcasts freshServer (packetOf "1,0,9" relayAddr)
    "1".toList "0".toList "9".toList [] (by decide) (by decide)
  ⟨by decide, h.1.1, h.1.2.1, (h.2 3).1.1, (h.2 3).2.2⟩

/-- C22: a payload whose first field is `AACK` is ignored by the coordinator:
no member changes (the completion counter keeps its value), no datagram is
sent, and `HandleRead` returns, whatever else the socket holds. -/
theorem coordinator_ignores_aack (s : ParameterServer) (p : Received)
    (rest : List (List Char)) (queue : List Received)
    (h : pktFields p.data = some (AACK :: rest)) :
    (s.handlePacket p).st = s ∧
    (s.handlePacket p).out = [] ∧
    (s.HandleRead (p :: queue)).st = s ∧
    (s.HandleRead (p :: queue)).st.m_gradientCount = s.m_gradientCount ∧
    (s.HandleRead (p :: queue)).out = [] ∧
    (s.HandleRead (p :: queue)).status = Status.ret := by
  have hp := ParameterServer.server_packet_aack s p rest h
  have hr : s.HandleRead (p :: queue) = s.handlePacket p := by
    simp [ParameterServer.HandleRead, hp]
  rw [hr, hp]
  exact ⟨rfl, rfl, rfl, rfl, rfl, rfl⟩

/-- Witness of C22: the CompletionAck `AACK,1,9` leaves a fresh coordinator
as it was and is answered by nothing. -/
theorem coordinator_ignores_aack_witness :
    pktFields (packetOf "AACK,1,9" relayAddr).data =
        some (AACK :: ["1".toList, "9".toList]) ∧
    (freshServer.HandleRead [packetOf "AACK,1,9" relayAddr]).st = freshServer ∧
    (freshServer.HandleRead [packetOf "AACK,1,9" relayAddr]).out = [] :=
  have h := coordinator_ignores_aack freshServer (packetOf "AACK,1,9" relayAddr)
    ["1".toList, "9".toList] [] (by decide)
  ⟨by decide, h.2.2.1, h.2.2.2.2.1⟩

/-! ## `split_string` and its reference definition -/

theorem comma_elem (x : Char) : comma.elem x = (x == ',') := by
  simp only [comma, List.elem]
  cases (x == ',') <;> rfl

theorem splitOn_comma_cons (cs : List Char) :
    (',' :: cs).splitOn ',' = [] :: cs.splitOn ',' := by
  simp [List.splitOn, List.splitOnP_cons]

theorem splitOn_other_cons (c : Char) (cs : List Char) (h : c ≠ ',') :
    (c :: cs).splitOn ',' = (cs.splitOn ',').modifyHead (List.cons c) := by
  simp [List.splitOn, List.splitOnP_cons, h]

theorem splitOn_takeWhile (l : List Char) :
    (l.dropWhile (fun x => !(x == ',')) = [] →
      l.splitOn ',' = [l.takeWhile (fun x => !(x == ','))]) ∧
    (∀ x r, l.dropWhile (fun x => !(x == ',')) = x :: r →
      l.splitOn ',' = l.takeWhile (fun x => !(x == ',')) :: r.splitOn ',') := by
  induction l with
  | nil => simp [List.splitOn]
  | cons c l ih =>
    by_cases hc : c = ','
    · subst hc
      simp only [List.dropWhile_cons, List.takeWhile_cons, splitOn_comma_cons]
      simp
    · rw [splitOn_other_cons c l hc]
      simp only [List.dropWhile_cons, List.takeWhile_cons, beq_iff_eq, hc, Bool.not_eq_true',
        decide_False, Bool.not_false, if_true, decide_eq_false_iff_not, not_false_eq_true,
        beq_eq_false_iff_ne, ne_eq]
      constructor
      · intro h
        rw [ih.1 h]
        rfl
      · intro x r h
        rw [ih.2 x r h]
        rfl

theorem commaPieces_nil : commaPieces [] = [] := by
  simp [commaPieces]

theorem commaPieces_comma_cons (cs : List Char) :
    commaPieces (',' :: cs) = commaPieces cs := by
  simp [commaPieces, splitOn_comma_cons]

theorem strtok_comma_cons (cs : List Char) :
    strtok comma (',' :: cs) = strtok comma cs := by
  unfold strtok
  simp only [List.dropWhile_cons, comma_elem]
  simp

theorem strtok_other_cons (c : Char) (cs : List Char) (hc : c ≠ ',') :
    strtok comma (c :: cs) =
      some ((c :: cs).takeWhile (fun x => !(x == ',')),
        ((c :: cs).dropWhile (fun x => !(x == ','))).drop 1) := by
  unfold strtok
  simp only [List.dropWhile_cons, comma_elem]
  simp [hc]

/-- One call of `strtok` against the reference: it returns `NULL` exactly
when no non-empty piece is left, and otherwise the first non-empty piece,
leaving a shorter string that holds the other pieces. -/
theorem strtok_commaPieces (s : List Char) :
    (strtok comma s = none ∧ commaPieces s = []) ∨
    ∃ tok rest, strtok comma s = some (tok, rest) ∧
      commaPieces s = tok :: commaPieces rest ∧ rest.length < s.length := by
  induction s with
  | nil => exact Or.inl ⟨rfl, commaPieces_nil⟩
  | cons c cs ih =>
    by_cases hc : c = ','
    · subst hc
      rw [strtok_comma_cons, commaPieces_comma_cons]
      rcases ih with h | ⟨tok, rest, h1, h2, h3⟩
      · exact Or.inl h
      · exact Or.inr ⟨tok, rest, h1, h2, by simp only [List.length_cons]; omega⟩
    · right
      have hs := strtok_other_cons c cs hc
      refine ⟨_, _, hs, ?_, (strtok_eq_some _ _ _ _ hs).2.2.2⟩
      have htok : (c :: cs).takeWhile (fun x => !(x == ',')) =
          c :: cs.takeWhile (fun x => !(x == ',')) := by
        simp [List.takeWhile_cons, hc]
      have hsp := splitOn_takeWhile (c :: cs)
      cases hd : (c :: cs).dropWhile (fun x => !(x == ',')) with
      | nil =>
        rw [commaPieces, hsp.1 hd, htok]
        simp [commaPieces_nil]
      | cons x r =>
        rw [commaPieces, hsp.2 x r hd, htok]
        simp [commaPieces]

theorem split_loop_eq_commaPieces (n : Nat) :
    ∀ s : List Char, s.length < n → split_loop comma n s = commaPieces s := by
  induction n with
  | zero => intro s h; cases h
  | succ n ih =>
    intro s h
    unfold split_loop
    rcases strtok_commaPieces s with ⟨h1, h2⟩ | ⟨tok, rest, h1, h2, h3⟩
    · rw [h1, h2]
    · rw [h1, h2]
      simp only
      rw [ih rest (by omega)]

theorem split_string_eq_spec (s : List Char) :
    split_string s comma = split_string_spec s := by
  unfold split_string split_string_spec c_str
  apply split_loop_eq_commaPieces
  have : (List.takeWhile (fun c => c != NUL) s).length ≤ s.length :=
    (List.takeWhile_sublist _).length_le
  omega

theorem splitOn_token_comma (tok r : List Char) (hc : ∀ c ∈ tok, c ≠ ',') :
    (tok ++ ',' :: r).splitOn ',' = tok :: r.splitOn ',' := by
  induction tok with
  | nil => exact splitOn_comma_cons r
  | cons c tok ih =>
    rw [List.cons_append, splitOn_other_cons c _ (hc c (List.mem_cons_self _ _)),
      ih (fun x hx => hc x (List.mem_cons_of_mem _ hx))]
    rfl

theorem splitOn_token (tok : List Char) (hc : ∀ c ∈ tok, c ≠ ',') :
    tok.splitOn ',' = [tok] := by
  induction tok with
  | nil => rfl
  | cons c tok ih =>
    rw [splitOn_other_cons c _ (hc c (List.mem_cons_self _ _)),
      ih (fun x hx => hc x (List.mem_cons_of_mem _ hx))]
    rfl

theorem commaPieces_token_comma (tok r : List Char) (hne : tok ≠ [])
    (hc : ∀ c ∈ tok, c ≠ ',') :
    commaPieces (tok ++ ',' :: r) = tok :: commaPieces r := by
  cases tok with
  | nil => exact absurd rfl hne
  | cons c cs =>
    rw [commaPieces, splitOn_token_comma _ _ hc]
    simp [commaPieces]

theorem commaPieces_token (tok : List Char) (hne : tok ≠ [])
    (hc : ∀ c ∈ tok, c ≠ ',') : commaPieces tok = [tok] := by
  cases tok with
  | nil => exact absurd rfl hne
  | cons c cs =>
    rw [commaPieces, splitOn_token _ hc]
    simp

/-- Three non-empty fields without comma or zero byte, joined by commas and
followed by the zero terminator, are read back as these three fields. -/
theorem split_string_three (t0 t1 t2 : List Char)
    (h0 : t0 ≠ [] ∧ ∀ c ∈ t0, c ≠ ',' ∧ c ≠ NUL)
    (h1 : t1 ≠ [] ∧ ∀ c ∈ t1, c ≠ ',' ∧ c ≠ NUL)
    (h2 : t2 ≠ [] ∧ ∀ c ∈ t2, c ≠ ',' ∧ c ≠ NUL) :
    split_string (t0 ++ ',' :: (t1 ++ ',' :: (t2 ++ [NUL]))) comma = [t0, t1, t2] := by
  have hcs : (t0 ++ ',' :: (t1 ++ ',' :: (t2 ++ [NUL]))).takeWhile (fun c => c != NUL) =
      t0 ++ ',' :: (t1 ++ ',' :: t2) := by
    have e : t0 ++ ',' :: (t1 ++ ',' :: (t2 ++ [NUL])) =
        (t0 ++ ',' :: (t1 ++ ',' :: t2)) ++ [NUL] := by simp
    rw [e, List.takeWhile_append_of_pos]
    · simp
    · intro x hx
      have hn : x ≠ NUL := by
        simp only [List.mem_append, List.mem_cons] at hx
        rcases hx with hx | hx | hx | hx | hx
        · exact (h0.2 x hx).2
        · rw [hx]; decide
        · exact (h1.2 x hx).2
        · rw [hx]; decide
        · exact (h2.2 x hx).2
      simpa using hn
  rw [split_string_eq_spec, split_string_spec, hcs,
    commaPieces_token_comma t0 _ h0.1 (fun c h => (h0.2 c h).1),
    commaPieces_token_comma t1 _ h1.1 (fun c h => (h1.2 c h).1),
    commaPieces_token t2 h2.1 (fun c h => (h2.2 c h).1)]

/-- C27: the function `split_string(s, ",")` equals the reference definition
(take `s` up to its first zero byte, split at every comma, drop the empty
pieces, keep the order). Hence no token it returns is empty or contains a
comma; leading, trailing and consecutive commas produce no field (`1,,7`
yields `1` and `7`, `,1,7,` as well); and the empty payload yields the empty
list. -/
theorem split_string_refines_spec :
    (∀ s : List Char, split_string s comma = split_string_spec s) ∧
    (∀ (s tok : List Char), tok ∈ split_string s comma → tok ≠ [] ∧ ',' ∉ tok) ∧
    split_string "1,,7".toList comma = ["1".toList, "7".toList] ∧
    split_string ",1,7,".toList comma = ["1".toList, "7".toList] ∧
    split_string [] comma = [] := by
  refine ⟨split_string_eq_spec, ?_, by decide, by decide, by decide⟩
  intro s tok h
  have hm := split_string_mem s tok h
  exact ⟨hm.1, fun hc => (hm.2 ',' hc).1 rfl⟩

/-- Witness of C27: on the bytes `1,,7`, a zero byte and `,8` the function and
the reference definition both give the fields `1` and `7`, and the token `7`
is neither empty nor holds a comma. -/
theorem split_string_refines_spec_witness :
    split_string ("1,,7".toList ++ NUL :: ",8".toList) comma =
      split_string_spec ("1,,7".toList ++ NUL :: ",8".toList) ∧
    split_string_spec ("1,,7".toList ++ NUL :: ",8".toList) = ["1".toList, "7".toList] ∧
    "7".toList ∈ split_string ("1,,7".toList ++ NUL :: ",8".toList) comma ∧
    ("7".toList ≠ [] ∧ ',' ∉ "7".toList) :=
  ⟨split_string_refines_spec.1 _, by decide, by decide,
    split_string_refines_spec.2.1 ("1,,7".toList ++ NUL :: ",8".toList) "7".toList
      (by decide)⟩

/-! ## A full buffer -/

theorem HandleRead_full (a : AggregateSwitch) (q : List Received)
    (hfull : m_bufferSize ≤ a.m_buffer.length) :
    (a.HandleRead q).res.st.m_buffer = a.m_buffer ∧
    (∀ key, countResults key (a.HandleRead q).res.out = 0) ∧
    ((∀ p ∈ q, ∃ f0 f1 f2 rest, pktFields p.data = some (f0 :: f1 :: f2 :: rest) ∧
        f0 ≠ AACK) →
      ∀ d ∈ (a.HandleRead q).res.out, ∃ p ∈ q, d = roundAck p) := by
  cases q with
  | nil => exact ⟨rfl, fun _ => rfl, fun _ d hd => by cases hd⟩
  | cons p queue =>
    rcases (handlePacket_summary a p).2 with ⟨hb, hs, hc⟩ | ⟨_, _, _, hlt, _⟩
    · rw [HandleRead_cons_stop a p queue hs]
      refine ⟨hb, hc, fun hq d hd => ?_⟩
      obtain ⟨f0, f1, f2, rest, hf, h0⟩ := hq p (List.mem_cons_self _ _)
      rw [handlePacket_overflow a p f0 f1 f2 rest hf h0 hfull] at hd
      simp only [List.mem_singleton] at hd
      exact ⟨p, List.mem_cons_self _ _, by rw [hd, roundAck_eq p f0 f1 f2 rest hf]⟩
    · omega

/-- C24: a full buffer is absorbing. Once the buffer of the relay holds
`m_bufferSize` keys, then after every later sequence of invocations of
`HandleRead`, on any packets, the buffer is the same (it is never modified
again) and no CombinedResult has been sent, for any key; and when the packets
are contributions (three fields, the first not `AACK`; contributions for open
keys included), every datagram sent is the RoundAck of one of them. -/
theorem full_buffer_is_absorbing (a : AggregateSwitch) (queues : List (List Received))
    (hfull : m_bufferSize ≤ a.m_buffer.length) :
    (a.run queues).st.m_buffer = a.m_buffer ∧
    (∀ key, countResults key (a.run queues).out = 0) ∧
    ((∀ q ∈ queues, ∀ p ∈ q, ∃ f0 f1 f2 rest,
        pktFields p.data = some (f0 :: f1 :: f2 :: rest) ∧ f0 ≠ AACK) →
      ∀ d ∈ (a.run queues).out, ∃ q ∈ queues, ∃ p ∈ q, d = roundAck p) := by
  induction queues generalizing a with
  | nil => exact ⟨rfl, fun _ => rfl, fun _ d hd => by cases hd⟩
  | cons q queues ih =>
    obtain ⟨hb, hc, hr⟩ := HandleRead_full a q hfull
    rw [run_cons]
    split_ifs with hfault
    · exact ⟨hb, hc, fun hq d hd =>
        let ⟨p, hp, e⟩ := hr (hq q (List.mem_cons_self _ _)) d hd
        ⟨q, List.mem_cons_self _ _, p, hp, e⟩⟩
    · obtain ⟨ib, ic, ir⟩ := ih (a.HandleRead q).res.st (by rw [hb]; exact hfull)
      refine ⟨ib.trans hb, fun key => ?_, fun hq d hd => ?_⟩
      · show countResults key (_ ++ _) = 0
        rw [countResults_append, hc key, ic key]
      · rcases List.mem_append.1 hd with hd | hd
        · obtain ⟨p, hp, e⟩ := hr (hq q (List.mem_cons_self _ _)) d hd
          exact ⟨q, List.mem_cons_self _ _, p, hp, e⟩
        · obtain ⟨q2, hq2, p, hp, e⟩ :=
            ir (fun q2 h2 => hq q2 (List.mem_cons_of_mem _ h2)) d hd
          exact ⟨q2, List.mem_cons_of_mem _ hq2, p, hp, e⟩

/-- Witness of C24: the relay that holds ten open rounds (part 0 of the
rounds 0 to 9 of job 1, of two parts each) receives part 1 of the open
round 0 and then part 0 of the new round 10: its buffer is the same and no
CombinedResult for the round 0 of job 1 has been sent, although that round
has received both its parts. -/
theorem full_buffer_is_absorbing_witness :
    m_bufferSize ≤ fullRelay.m_buffer.length ∧
    (fullRelay.run [[packetOf "1,1,0" worker1], [packetOf "1,0,10" worker1]]).st.m_buffer =
      fullRelay.m_buffer ∧
    countResults "1,0".toList
      (fullRelay.run [[packetOf "1,1,0" worker1], [packetOf "1,0,10" worker1]]).out = 0 ∧
    (fullRelay.run [[packetOf "1,1,0" worker1], [packetOf "1,0,10" worker1]]).out =
      [roundAck (packetOf "1,1,0" worker1), roundAck (packetOf "1,0,10" worker1)] :=
  have h := full_buffer_is_absorbing fullRelay
    [[packetOf "1,1,0" worker1], [packetOf "1,0,10" worker1]] (by decide)
  ⟨by decide, h.1, h.2.1 _, by decide⟩

/-! ## The pattern fill -/

theorem memcpy_spec (dst : List Char) (off : Nat) (src : List Char) (n : Nat)
    (h1 : off + n ≤ dst.length) (h2 : n ≤ src.length) :
    ∃ r, memcpy dst off src n = some r ∧ r.length = dst.length ∧
      (∀ i, i < off → r[i]? = dst[i]?) ∧
      (∀ i, i < n → r[off + i]? = src[i]?) ∧
      (∀ i, off + n ≤ i → r[i]? = dst[i]?) := by
  refine ⟨_, by rw [memcpy, if_pos ⟨h1, h2⟩], ?_, ?_, ?_, ?_⟩
  · simp only [List.length_append, List.length_take, List.length_drop]
    omega
  · intro i hi
    rw [List.append_assoc, List.getElem?_append_left (by simp; omega)]
    simp [List.getElem?_take, hi]
  · intro i hi
    have hl : (List.take off dst).length = off := by simp; omega
    rw [List.append_assoc, List.getElem?_append_right (by omega), hl,
      List.getElem?_append_left (by simp; omega)]
    simp [List.getElem?_take, hi]
  · intro i hi
    have hl : (List.take off dst).length = off := by simp; omega
    have hl2 : (List.take n src).length = n := by simp; omega
    rw [List.getElem?_append_right (by simp; omega)]
    simp only [List.length_append, hl, hl2, List.getElem?_drop]
    congr 1
    omega

theorem fillLoop_spec (fill : List Char) (fillSize dataSize : Nat)
    (hfs : 1 ≤ fillSize) (hfl : fill.length = fillSize)
    (q : Nat) (hq1 : dataSize ≤ q * fillSize) (hq2 : q * fillSize < 4294967296) :
    ∀ (fuel filled : Nat) (data : List Char),
      data.length = dataSize → filled < dataSize → fillSize ∣ filled →
      (∀ i, i < filled → data[i]? = fill[i % fillSize]?) →
      dataSize - filled ≤ fuel →
      ∃ filled1 data1,
        fillLoop fill fillSize dataSize fuel filled data = FillResult.done (filled1, data1) ∧
        data1.length = dataSize ∧ filled1 < dataSize ∧ dataSize ≤ filled1 + fillSize ∧
        (∀ i, i < filled1 → data1[i]? = fill[i % fillSize]?) ∧ fillSize ∣ filled1 := by
  intro fuel
  induction fuel with
  | zero =>
    intro filled data _ hlt _ _ hfuel
    omega
  | succ fuel ih =>
    intro filled data hlen hlt hdvd hpre hfuel
    have hmod : (filled + fillSize) % 4294967296 = filled + fillSize := by
      apply Nat.mod_eq_of_lt
      obtain ⟨k, hk⟩ := hdvd
      have hkq : k < q := by
        by_contra hge
        have := Nat.mul_le_mul_right fillSize (Nat.le_of_not_lt hge)
        rw [Nat.mul_comm k fillSize, ← hk] at this
        omega
      have := Nat.mul_le_mul_right fillSize (Nat.succ_le_of_lt hkq)
      rw [Nat.succ_mul, Nat.mul_comm k fillSize, ← hk] at this
      omega
    unfold fillLoop
    rw [hmod]
    by_cases hc : filled + fillSize < dataSize
    · rw [if_pos hc]
      obtain ⟨r, hr, hrl, hr1, hr2, _⟩ :=
        memcpy_spec data filled fill fillSize (by omega) (by omega)
      rw [hr]
      simp only
      apply ih (filled + fillSize) r (hrl.trans hlen) hc (Dvd.dvd.add hdvd (dvd_refl _)) _
        (by omega)
      intro i hi
      by_cases h1 : i < filled
      · rw [hr1 i h1, hpre i h1]
      · obtain ⟨j, rfl⟩ : ∃ j, i = filled + j := ⟨i - filled, by omega⟩
        have hj : j < fillSize := by omega
        rw [hr2 j hj]
        obtain ⟨k, rfl⟩ := hdvd
        rw [Nat.mul_add_mod, Nat.mod_eq_of_lt hj]
    · rw [if_neg hc]
      exact ⟨filled, data, rfl, hlen, hlt, by omega, hpre, hdvd⟩

/-- The pattern fill when no loop test wraps, that is, when the pattern is at
least as long as the data or some multiple of `fillSize` lies between
`dataSize` and `2^32`: it returns, given more loop tests than there are data
bytes, with `dataSize` bytes that repeat the pattern. -/
theorem patternFill_spec (m : FillMembers) (fill : List Char) (fillSize dataSize fuel : Nat)
    (hfs : 1 ≤ fillSize) (hfl : fill.length = fillSize)
    (hinv : m.m_data.length = m.m_dataSize)
    (hsum : dataSize ≤ fillSize ∨
      ∃ q, dataSize ≤ q * fillSize ∧ q * fillSize < 4294967296)
    (hfuel : dataSize < fuel) :
    ∃ r, patternFill m fill fillSize dataSize fuel = FillResult.done r ∧
      r.m_data.length = dataSize ∧ r.m_dataSize = dataSize ∧ r.m_size = dataSize ∧
      ∀ i, i < dataSize → r.m_data[i]? = fill[i % fillSize]? := by
  have hlen0 : (if dataSize ≠ m.m_dataSize then List.replicate dataSize NUL
      else m.m_data).length = dataSize := by
    split_ifs with h
    · simp
    · rw [hinv]
      exact (not_not.1 h).symm
  unfold patternFill
  simp only
  generalize (if dataSize ≠ m.m_dataSize then List.replicate dataSize NUL
      else m.m_data) = d0 at hlen0 ⊢
  by_cases hge : fillSize ≥ dataSize
  · rw [if_pos hge]
    obtain ⟨r, hr, hrl, _, hr2, _⟩ := memcpy_spec d0 0 fill dataSize (by omega) (by omega)
    rw [hr]
    refine ⟨_, rfl, hrl.trans hlen0, rfl, rfl, fun i hi => ?_⟩
    have := hr2 i hi
    rw [Nat.zero_add] at this
    rw [this, Nat.mod_eq_of_lt (by omega)]
  · rw [if_neg hge]
    obtain ⟨q, hq1, hq2⟩ : ∃ q, dataSize ≤ q * fillSize ∧ q * fillSize < 4294967296 := by
      rcases hsum with h | h
      · omega
      · exact h
    obtain ⟨filled1, data1, hl, hdl, hlt, hle, hpre, hdvd⟩ :=
      fillLoop_spec fill fillSize dataSize hfs hfl q hq1 hq2 fuel 0 d0 hlen0 (by omega)
        (dvd_zero _) (fun i hi => absurd hi (Nat.not_lt_zero i)) (by omega)
    rw [hl]
    simp only
    have hn : (dataSize + 4294967296 - filled1) % 4294967296 = dataSize - filled1 := by
      have e : dataSize + 4294967296 - filled1 = (dataSize - filled1) + 4294967296 := by omega
      rw [e, Nat.add_mod_right, Nat.mod_eq_of_lt (by omega)]
    rw [hn]
    obtain ⟨r, hr, hrl, hr1, hr2, _⟩ :=
      memcpy_spec data1 filled1 fill (dataSize - filled1) (by omega) (by omega)
    rw [hr]
    refine ⟨_, rfl, hrl.trans hdl, rfl, rfl, fun i hi => ?_⟩
    by_cases h1 : i < filled1
    · rw [hr1 i h1, hpre i h1]
    · obtain ⟨j, rfl⟩ : ∃ j, i = filled1 + j := ⟨i - filled1, by omega⟩
      rw [hr2 j (by omega)]
      obtain ⟨k, rfl⟩ := hdvd
      rw [Nat.mul_add_mod, Nat.mod_eq_of_lt (by omega)]

theorem fillLoop_zero (fill : List Char) (dataSize : Nat) (hd : 0 < dataSize) :
    ∀ (fuel : Nat) (data : List Char),
      fillLoop fill 0 dataSize fuel 0 data = FillResult.unfinished := by
  intro fuel
  induction fuel with
  | zero => intro data; rfl
  | succ fuel ih =>
    intro data
    unfold fillLoop
    have hm : memcpy data 0 fill 0 = some data := by simp [memcpy]
    simp only [Nat.add_zero, Nat.zero_mod, hd, if_true, hm]
    exact ih data

/-- With an empty pattern and a data size above zero the pattern fill has not
returned after any number of loop tests: `filled` stays 0. -/
theorem patternFill_zero (m : FillMembers) (fill : List Char) (dataSize fuel : Nat)
    (hd : 0 < dataSize) :
    patternFill m fill 0 dataSize fuel = FillResult.unfinished := by
  unfold patternFill
  simp only
  rw [if_neg (by omega), fillLoop_zero fill dataSize hd]

/-- A pattern of 2^31 + 1 bytes for 2^32 - 1 data bytes: the second loop
test computes `filled + fillSize = 2^32 + 2` in 32 bits, finds 2 below
`dataSize`, and the `memcpy` that follows writes past the end of `m_data`. -/
theorem patternFill_overrun (m : FillMembers) (fill : List Char) (fuel : Nat)
    (hfl : fill.length = 2147483649) (hinv : m.m_data.length = m.m_dataSize) :
    patternFill m fill 2147483649 4294967295 (fuel + 2) = FillResult.overrun := by
  have hlen0 : (if 4294967295 ≠ m.m_dataSize then List.replicate 4294967295 NUL
      else m.m_data).length = 4294967295 := by
    split_ifs with h
    · exact List.length_replicate _ _
    · rw [hinv]
      exact (not_not.1 h).symm
  unfold patternFill
  simp only
  generalize (if 4294967295 ≠ m.m_dataSize then List.replicate 4294967295 NUL
      else m.m_data) = d0 at hlen0 ⊢
  rw [if_neg (by omega)]
  obtain ⟨r, hr, hrl, _⟩ := memcpy_spec d0 0 fill 2147483649 (by omega) (by omega)
  have h2 : memcpy r 2147483649 fill 2147483649 = none := by
    rw [memcpy, if_neg]
    rw [hrl, hlen0]
    omega
  have hloop : fillLoop fill 2147483649 4294967295 (fuel + 2) 0 d0 = FillResult.overrun := by
    rw [fillLoop, if_pos (by omega), hr]
    simp only
    rw [fillLoop, if_pos (by omega)]
    have e : (0 + 2147483649) % 4294967296 = 2147483649 := by omega
    rw [e, h2]
  rw [hloop]

theorem SetFillPattern_eq (c : CustomClient) (s : ParameterServer) (fill : List Char)
    (fillSize dataSize fuel : Nat) :
    (∀ r, patternFill ⟨c.m_data, c.m_dataSize, c.m_size⟩ fill fillSize dataSize fuel = r →
      c.SetFillPattern fill fillSize dataSize fuel =
        match r with
        | FillResult.unfinished => FillResult.unfinished
        | FillResult.overrun => FillResult.overrun
        | FillResult.done m => FillResult.done
            { c with m_data := m.m_data, m_dataSize := m.m_dataSize, m_size := m.m_size }) ∧
    (∀ r, patternFill ⟨s.m_data, s.m_dataSize, s.m_size⟩ fill fillSize dataSize fuel = r →
      s.SetFillPattern fill fillSize dataSize fuel =
        match r with
        | FillResult.unfinished => FillResult.unfinished
        | FillResult.overrun => FillResult.overrun
        | FillResult.done m => FillResult.done
            { s with m_data := m.m_data, m_dataSize := m.m_dataSize, m_size := m.m_size }) := by
  constructor
  · intro r h
    rw [CustomClient.SetFillPattern, h]
  · intro r h
    rw [ParameterServer.SetFillPattern, h]

/-- The pattern fill where no loop test wraps: for a pattern `fill` of
`fillSize >= 1` bytes and a data size that the pattern is at least as long
as, or that is at most some multiple of `fillSize` below `2^32`,
`SetFill(fill, fillSize, dataSize)` of the worker and of the coordinator
returns (given more loop tests than data bytes) and leaves a data buffer of
exactly `dataSize` bytes whose byte `i` is `fill[i mod fillSize]` for every
`i < dataSize`, with the packet size and the buffer size equal to `dataSize`
and every other member unchanged. The objects are taken in a state in which
`m_dataSize` is the length of `m_data`, as every method leaves them. -/
theorem pattern_fill_repeats (c : CustomClient) (s : ParameterServer) (fill : List Char)
    (fillSize dataSize fuel : Nat)
    (hfs : 1 ≤ fillSize) (hfl : fill.length = fillSize)
    (hc : c.m_data.length = c.m_dataSize) (hs : s.m_data.length = s.m_dataSize)
    (hsum : dataSize ≤ fillSize ∨
      ∃ q, dataSize ≤ q * fillSize ∧ q * fillSize < 4294967296)
    (hfuel : dataSize < fuel) :
    (∃ d : List Char,
      c.SetFillPattern fill fillSize dataSize fuel =
        FillResult.done { c with m_data := d, m_dataSize := dataSize, m_size := dataSize } ∧
      d.length = dataSize ∧ ∀ i, i < dataSize → d[i]? = fill[i % fillSize]?) ∧
    (∃ d : List Char,
      s.SetFillPattern fill fillSize dataSize fuel =
        FillResult.done { s with m_data := d, m_dataSize := dataSize, m_size := dataSize } ∧
      d.length = dataSize ∧ ∀ i, i < dataSize → d[i]? = fill[i % fillSize]?) := by
  obtain ⟨e1, e2⟩ := SetFillPattern_eq c s fill fillSize dataSize fuel
  constructor
  · obtain ⟨r, hr, hl, hds, hsz, hb⟩ :=
      patternFill_spec ⟨c.m_data, c.m_dataSize, c.m_size⟩ fill fillSize dataSize fuel
        hfs hfl hc hsum hfuel
    refine ⟨r.m_data, ?_, hl, hb⟩
    rw [e1 _ hr]
    simp only [hds, hsz]
  · obtain ⟨r, hr, hl, hds, hsz, hb⟩ :=
      patternFill_spec ⟨s.m_data, s.m_dataSize, s.m_size⟩ fill fillSize dataSize fuel
        hfs hfl hs hsum hfuel
    refine ⟨r.m_data, ?_, hl, hb⟩
    rw [e2 _ hr]
    simp only [hds, hsz]

/-- An example of the pattern fill: the pattern `ab` for five data bytes
gives `ababa` in a fresh worker and in a fresh coordinator, with the packet
size 5. -/
theorem pattern_fill_repeats_witness :
    (freshWorker 10).SetFillPattern "ab".toList 2 5 6 =
      FillResult.done { freshWorker 10 with
        m_data := "ababa".toList, m_dataSize := 5, m_size := 5 } ∧
    freshServer.SetFillPattern "ab".toList 2 5 6 =
      FillResult.done { freshServer with
        m_data := "ababa".toList, m_dataSize := 5, m_size := 5 } ∧
    (freshWorker 10).SetFillPattern "ab".toList 2 5 6 ≠ FillResult.unfinished :=
  ⟨by decide, by decide,
    (pattern_fill_repeats (freshWorker 10) freshServer "ab".toList 2 5 6 (by decide)
      (by decide) (by decide) (by decide) (Or.inr ⟨3, by decide, by decide⟩)
      (by decide)).1.elim
      (fun _ h => by rw [h.1]; exact fun e => by cases e)⟩

/-- C23, the code at a pattern of 2^31 + 1 bytes (`fillSize >= 1`) for
`dataSize = 2^32 - 1`: the data is not filled with the repeated pattern.
After the first copy `filled + fillSize` is 2^32 + 2, which is 2 in the 32
bits of the loop test; the loop goes on and its second `memcpy` writes
2^31 + 1 bytes at offset 2^31 + 1 of a buffer of 2^32 - 1 bytes. Both the
worker's and the coordinator's `SetFill` write past the end of `m_data`
instead of returning a filled packet. -/
theorem pattern_fill_overruns :
    (List.replicate 2147483649 'a').length = 2147483649 ∧
    (freshWorker 10).SetFillPattern (List.replicate 2147483649 'a') 2147483649 4294967295
      4294967296 = FillResult.overrun ∧
    freshServer.SetFillPattern (List.replicate 2147483649 'a') 2147483649 4294967295
      4294967296 = FillResult.overrun := by
  have hl : (List.replicate 2147483649 'a').length = 2147483649 := List.length_replicate _ _
  obtain ⟨e1, e2⟩ := SetFillPattern_eq (freshWorker 10) freshServer
    (List.replicate 2147483649 'a') 2147483649 4294967295 4294967296
  exact ⟨hl,
    e1 _ (patternFill_overrun _ _ 4294967294 hl rfl),
    e2 _ (patternFill_overrun _ _ 4294967294 hl rfl)⟩

/-- C28: with an empty pattern (`fillSize = 0`) and a data size above zero
(`dataSize + 1`) the function `SetFill(fill, fillSize, dataSize)` of the
worker and of the coordinator does not terminate: the test
`fillSize >= dataSize` fails, and in the loop
`while (filled + fillSize < dataSize)` the counter `filled` stays 0, so after
any number `fuel` of loop tests the loop is still running. For `fill = []`,
one data byte and a fresh worker and coordinator this is the call
`SetFill(fill, 0, 1)`. -/
theorem zero_length_pattern_never_returns (c : CustomClient) (s : ParameterServer)
    (fill : List Char) (dataSize fuel : Nat) :
    c.SetFillPattern fill 0 (dataSize + 1) fuel = FillResult.unfinished ∧
    s.SetFillPattern fill 0 (dataSize + 1) fuel = FillResult.unfinished ∧
    (freshWorker 10).SetFillPattern [] 0 1 fuel = FillResult.unfinished ∧
    freshServer.SetFillPattern [] 0 1 fuel = FillResult.unfinished := by
  have h : ∀ (c : CustomClient) (s : ParameterServer) (fill : List Char) (n : Nat),
      c.SetFillPattern fill 0 (n + 1) fuel = FillResult.unfinished ∧
      s.SetFillPattern fill 0 (n + 1) fuel = FillResult.unfinished := by
    intro c s fill n
    obtain ⟨e1, e2⟩ := SetFillPattern_eq c s fill 0 (n + 1) fuel
    exact ⟨e1 _ (patternFill_zero _ fill (n + 1) fuel (Nat.succ_pos n)),
      e2 _ (patternFill_zero _ fill (n + 1) fuel (Nat.succ_pos n))⟩
  exact ⟨(h c s fill dataSize).1, (h c s fill dataSize).2,
    (h (freshWorker 10) freshServer [] 0).1, (h (freshWorker 10) freshServer [] 0).2⟩

/-! ## Decimal texts -/

theorem digitChar_mem (m : Nat) (h : m < 10) :
    Nat.digitChar m ∈ decimalDigits ∧ (Nat.digitChar m).toNat - 48 = m := by
  interval_cases m <;> decide

theorem digitsValue_append_singleton (pre : List Char) (d : Char) :
    digitsValue (pre ++ [d]) = 10 * digitsValue pre + (d.toNat - 48) := by
  simp [digitsValue, List.foldl_append]

theorem toDigitsCore_spec :
    ∀ (fuel n : Nat) (ds : List Char), n < fuel →
      ∃ pre, Nat.toDigitsCore 10 fuel n ds = pre ++ ds ∧ pre ≠ [] ∧
        (∀ c ∈ pre, c ∈ decimalDigits) ∧ digitsValue pre = n := by
  intro fuel
  induction fuel with
  | zero => intro n ds h; cases h
  | succ fuel ih =>
    intro n ds h
    obtain ⟨hm, hv⟩ := digitChar_mem (n % 10) (Nat.mod_lt _ (by decide))
    unfold Nat.toDigitsCore
    simp only
    by_cases h0 : n / 10 = 0
    · rw [if_pos h0]
      refine ⟨[Nat.digitChar (n % 10)], rfl, by simp, ?_, ?_⟩
      · intro c hc
        rw [List.mem_singleton] at hc
        rw [hc]
        exact hm
      · have : digitsValue [Nat.digitChar (n % 10)] = (Nat.digitChar (n % 10)).toNat - 48 := by
          simp [digitsValue]
        rw [this, hv]
        omega
    · rw [if_neg h0]
      obtain ⟨pre, hp, _, hd, hval⟩ := ih (n / 10) (Nat.digitChar (n % 10) :: ds) (by omega)
      refine ⟨pre ++ [Nat.digitChar (n % 10)], by rw [hp]; simp, by simp, ?_, ?_⟩
      · intro c hc
        rcases List.mem_append.1 hc with hc | hc
        · exact hd c hc
        · rw [List.mem_singleton] at hc
          rw [hc]
          exact hm
      · rw [digitsValue_append_singleton, hval, hv]
        omega

/-- The text `std::to_string(n)`: it is not empty, it holds decimal digits
only, and its value is `n`. -/
theorem decimal_spec (n : Nat) :
    decimal n ≠ [] ∧ (∀ c ∈ decimal n, c ∈ decimalDigits) ∧ digitsValue (decimal n) = n := by
  obtain ⟨pre, hp, hne, hd, hv⟩ := toDigitsCore_spec (n + 1) n [] (Nat.lt_succ_self n)
  have e : decimal n = pre := by
    rw [decimal, Nat.toDigits, hp, List.append_nil]
  rw [e]
  exact ⟨hne, hd, hv⟩

theorem decimal_length (n e : Nat) (h : n < 10 ^ e) (he : 0 < e) :
    (decimal n).length ≤ e :=
  Nat.toDigitsCore_length 10 (by decide) (n + 1) n e h he

theorem decimalDigits_props (c : Char) (h : c ∈ decimalDigits) :
    c ≠ ',' ∧ c ≠ NUL ∧ isspace c = false ∧ c.isDigit = true ∧ c ≠ '-' ∧ c ≠ '+' ∧
      c ≠ 'A' ∧ c ≠ 'G' := by
  revert c
  decide

/-- A decimal text is a field: not empty, without comma and zero byte. -/
theorem decimal_token (n : Nat) :
    decimal n ≠ [] ∧ ∀ c ∈ decimal n, c ≠ ',' ∧ c ≠ NUL := by
  obtain ⟨h1, h2, _⟩ := decimal_spec n
  exact ⟨h1, fun c hc =>
    ⟨(decimalDigits_props c (h2 c hc)).1, (decimalDigits_props c (h2 c hc)).2.1⟩⟩

theorem stoi_digits (l : List Char) (hne : l ≠ []) (hd : ∀ c ∈ l, c ∈ decimalDigits) :
    stoi l = if 2147483647 < digitsValue l then none else some (digitsValue l : Int) := by
  cases l with
  | nil => exact absurd rfl hne
  | cons c cs =>
    obtain ⟨_, _, hsp, _, hm, hp, _⟩ := decimalDigits_props c (hd c (List.mem_cons_self _ _))
    have h1 : (c :: cs).dropWhile isspace = c :: cs := by
      simp [List.dropWhile_cons, hsp]
    have h2 : stripSign (c :: cs) = (false, c :: cs) := by
      unfold stripSign
      split
      · rename_i heq
        exact absurd (List.cons.inj heq).1 hm
      · rename_i heq
        exact absurd (List.cons.inj heq).1 hp
      · rfl
    have h3 : (c :: cs).takeWhile Char.isDigit = c :: cs := by
      rw [List.takeWhile_eq_self_iff]
      intro x hx
      exact (decimalDigits_props x (hd x hx)).2.2.2.1
    unfold stoi
    rw [h1, h2]
    simp only [h3, List.isEmpty_cons, Bool.false_eq_true, if_false]
    split_ifs with ha hb hb
    · rfl
    · omega
    · omega
    · rfl

/-- The function `std::stoi` reads the text of `n` back as `n` exactly when
`n` is an `int`. -/
theorem stoi_decimal (n : Nat) :
    stoi (decimal n) = if 2147483647 < n then none else some (n : Int) := by
  obtain ⟨h1, h2, h3⟩ := decimal_spec n
  rw [stoi_digits (decimal n) h1 h2, h3]

/-! ## The codec round trip -/

theorem contribution_fields (j p k : Nat) :
    split_string (contributionText j p k ++ [NUL]) comma = [decimal j, decimal p, decimal k] := by
  have e : contributionText j p k ++ [NUL] =
      decimal j ++ ',' :: (decimal p ++ ',' :: (decimal k ++ [NUL])) := by
    simp [contributionText]
  rw [e]
  exact split_string_three _ _ _ (decimal_token j) (decimal_token p) (decimal_token k)

theorem decimal_ne_AACK (j : Nat) : decimal j ≠ AACK := by
  obtain ⟨h1, h2, _⟩ := decimal_spec j
  intro h
  rw [h] at h2
  exact (decimalDigits_props 'A' (h2 'A' (by decide))).2.2.2.2.2.2.1 rfl

theorem contribution_pktFields (j p k : Nat) (hj : j < 65536) (hp : p < 65536)
    (hk : k ≤ 2147483647) :
    pktFields (contributionText j p k ++ [NUL]) = some [decimal j, decimal p, decimal k] := by
  have h1 := decimal_length j 5 (by omega) (by decide)
  have h2 := decimal_length p 5 (by omega) (by decide)
  have h3 := decimal_length k 10 (by omega) (by decide)
  have hl : ¬ 1000 < (contributionText j p k ++ [NUL]).length := by
    simp only [contributionText, List.length_append, List.length_cons, List.length_nil]
    omega
  rw [pktFields, if_neg hl, contribution_fields]

theorem roundAckOf_decimal (k : Nat) (hk : k ≤ 2147483647) :
    roundAckOf (GACK_ ++ decimal k ++ [NUL]) = some k := by
  have h3 := decimal_length k 10 (by omega) (by decide)
  have hl : ¬ 1000 < (GACK_ ++ decimal k ++ [NUL]).length := by
    simp only [GACK_, List.length_append, List.length_cons, List.length_nil]
    omega
  have hs := split_string_gack (decimal k) (decimal_token k).1 (decimal_token k).2
  have hst : stoi (decimal k) = some (k : Int) := by
    rw [stoi_decimal, if_neg (by omega)]
  unfold roundAckOf
  rw [pktFields, if_neg hl, hs]
  simp [hst]

/-- The amended C25: for a worker whose job id and part id are 16-bit
values and whose round counter `m_sent` is at most 2147483647, the largest
`int`: `Send` emits the text `<jobId>,<partId>,<sent>` followed by one zero
terminator (its length is the length of the text plus 1); `split_string`
reads these bytes as exactly the three decimal texts; the first datagram the
relay sends in answer, in any state, is the RoundAck `GACK,<sent>` with a
zero terminator to the sender; `split_string` reads it as `GACK` and the
decimal text of the round, `std::stoi` reads that text as the round, and a
worker that receives it records the round as its last RoundAck. -/
theorem codec_round_trip (c w : CustomClient) (a : AggregateSwitch)
    (sender : InetSocketAddress)
    (hs : c.m_socket = true) (he : c.sendEventExpired = true)
    (hj : c.m_jobId < 65536) (hp : c.m_partId < 65536) (hk : c.m_sent ≤ 2147483647) :
    c.Send.out = [⟨contributionText c.m_jobId c.m_partId c.m_sent ++ [NUL],
      ⟨c.m_peerAddr, c.m_peerPort⟩⟩] ∧
    (contributionText c.m_jobId c.m_partId c.m_sent ++ [NUL]).length =
      (contributionText c.m_jobId c.m_partId c.m_sent).length + 1 ∧
    split_string (contributionText c.m_jobId c.m_partId c.m_sent ++ [NUL]) comma =
      [decimal c.m_jobId, decimal c.m_partId, decimal c.m_sent] ∧
    (a.handlePacket ⟨contributionText c.m_jobId c.m_partId c.m_sent ++ [NUL], sender⟩).out.head?
      = some ⟨GACK_ ++ decimal c.m_sent ++ [NUL], sender⟩ ∧
    split_string (GACK_ ++ decimal c.m_sent ++ [NUL]) comma = [GACK, decimal c.m_sent] ∧
    stoi (decimal c.m_sent) = some (c.m_sent : Int) ∧
    (w.handlePacket ⟨GACK_ ++ decimal c.m_sent ++ [NUL], sender⟩).st.m_lastGACK = c.m_sent ∧
    (w.handlePacket ⟨GACK_ ++ decimal c.m_sent ++ [NUL], sender⟩).status = Status.next := by
  have hw := CustomClient.worker_packet_roundAck_basic w
    ⟨GACK_ ++ decimal c.m_sent ++ [NUL], sender⟩ c.m_sent (roundAckOf_decimal c.m_sent hk)
  refine ⟨?_, by simp, contribution_fields _ _ _, ?_,
    split_string_gack _ (decimal_token _).1 (decimal_token _).2, ?_, hw.2.2.1, hw.1⟩
  · rw [CustomClient.Send_ok c hs he]
    rfl
  · rw [handlePacket_fields a ⟨_, sender⟩ _ _ _ [] (contribution_pktFields _ _ _ hj hp hk)
      (decimal_ne_AACK _)]
    split_ifs
    · rfl
    · cases stoi (decimal c.m_partId) <;> rfl
  · rw [stoi_decimal, if_neg (by omega)]

/-- Witness of the amended C25: a worker for part 0 of job 1 that has sent
the rounds 0, 1 and 2 sends the round 3 as the bytes `1,0,3` and a zero
terminator; the relay answers `GACK,3`, which `std::stoi` reads as 3. -/
theorem codec_round_trip_witness :
    workerAfterThree.Send.out =
      [⟨"1,0,3".toList ++ [NUL], relayAddr⟩] ∧
    split_string ("1,0,3".toList ++ [NUL]) comma = ["1".toList, "0".toList, "3".toList] ∧
    ((freshRelay 3).handlePacket ⟨"1,0,3".toList ++ [NUL], worker1⟩).out.head? =
      some ⟨"GACK,3".toList ++ [NUL], worker1⟩ ∧
    stoi "3".toList = some 3 :=
  have h := codec_round_trip workerAfterThree (freshWorker 10)
    (freshRelay 3) worker1 (by decide) (by decide) (by decide) (by decide) (by decide)
  ⟨h.1, h.2.2.1, h.2.2.2.1, h.2.2.2.2.2.1⟩

/-- Counterexample to C25: the round 2147483648. A started worker that is
told by a RoundAck that the round 2147483647 is acknowledged sets `m_sent`
to 2147483648, and its pending `Send` emits `1,0,2147483648`. The relay
answers `GACK,2147483648`. `std::stoi` throws `out_of_range` for this text:
the worker does not read the value 2147483648 from it, its handler
terminates the process. -/
theorem round_beyond_int_is_not_read_back :
    ((freshWorker 10).runOps [WorkerOp.start,
      WorkerOp.deliver [packetOf "GACK,2147483647" relayAddr], WorkerOp.fire 0]).out =
      [⟨contributionText 1 0 2147483648 ++ [NUL], relayAddr⟩] ∧
    split_string (contributionText 1 0 2147483648 ++ [NUL]) comma =
      [decimal 1, decimal 0, decimal 2147483648] ∧
    ((freshRelay 3).handlePacket ⟨contributionText 1 0 2147483648 ++ [NUL], worker1⟩).out.head?
      = some ⟨GACK_ ++ decimal 2147483648 ++ [NUL], worker1⟩ ∧
    split_string (GACK_ ++ decimal 2147483648 ++ [NUL]) comma = [GACK, decimal 2147483648] ∧
    stoi (decimal 2147483648) = none ∧
    ((freshWorker 10).handlePacket ⟨GACK_ ++ decimal 2147483648 ++ [NUL], relayAddr⟩).status =
      Status.fault := by
  decide

/-! ## From the relay to the coordinator -/

theorem result_fields (f0 f2 : List Char)
    (h0 : f0 ≠ [] ∧ ∀ c ∈ f0, c ≠ ',' ∧ c ≠ NUL)
    (h2 : f2 ≠ [] ∧ ∀ c ∈ f2, c ≠ ',' ∧ c ≠ NUL) :
    split_string (RESULT_ ++ aggKey f0 f2 ++ [NUL]) comma = [RESULT, f0, f2] ∧
    split_string (AACK_ ++ f0 ++ ',' :: f2 ++ [NUL]) comma = [AACK, f0, f2] := by
  have e1 : RESULT_ ++ aggKey f0 f2 ++ [NUL] =
      RESULT ++ ',' :: (f0 ++ ',' :: (f2 ++ [NUL])) := by
    simp [RESULT, RESULT_, aggKey]
  have e2 : AACK_ ++ f0 ++ ',' :: f2 ++ [NUL] =
      AACK ++ ',' :: (f0 ++ ',' :: (f2 ++ [NUL])) := by
    simp [AACK, AACK_]
  rw [e1, e2]
  exact ⟨split_string_three _ _ _ (by decide) h0 h2,
    split_string_three _ _ _ (by decide) h0 h2⟩

theorem handlePacket_result_out (a : AggregateSwitch) (p : Received)
    (f0 f1 f2 : List Char) (rest : List (List Char))
    (hf : pktFields p.data = some (f0 :: f1 :: f2 :: rest)) (h0 : f0 ≠ AACK)
    (hdone : resultDatagram a (aggKey f0 f2) ∈ (a.handlePacket p).out) :
    (a.handlePacket p).out =
      [gackDatagram f2 p.sender, resultDatagram a (aggKey f0 f2)] := by
  have hne : resultDatagram a (aggKey f0 f2) ∉ [gackDatagram f2 p.sender] := by
    intro h
    rw [List.mem_singleton] at h
    have h1 := isResultFor_resultDatagram a (aggKey f0 f2) (aggKey f0 f2)
    rw [h, isResultFor_gack] at h1
    simp at h1
  rw [handlePacket_fields a p f0 f1 f2 rest hf h0] at hdone ⊢
  split_ifs at hdone ⊢
  · exact absurd hdone hne
  · cases hst : stoi f1 with
    | none =>
      rw [hst] at hdone
      exact absurd hdone hne
    | some v =>
      rw [hst] at hdone
      simp only at hdone ⊢
      rw [aggregate_out] at hdone ⊢
      split_ifs at hdone ⊢
      · rfl
      · exact absurd hdone hne

/-- C26: when the relay completes the round of the job field `f0` and the
round field `f2` (the packet it handles has these as first and third field
and the CombinedResult for their key is among the datagrams sent), the
relay has sent the RoundAck and then that CombinedResult, whose payload is `RESULT,<f0>,<f2>` with a zero terminator;
delivered to the coordinator, in any state and from any address, it is read
as the fields `RESULT`, `f0`, `f2`, raises the completion counter by 1 and is
answered by the one broadcast `AACK,<f0>,<f2>`, whose second field is the job
field and whose third field is the round field. The payload has to fit the
coordinator's read buffer of 1000 bytes, which it does for every 16-bit job
id and 32-bit round id in decimal. -/
theorem result_reaches_coordinator (a : AggregateSwitch) (s : ParameterServer)
    (p : Received) (f0 f1 f2 : List Char) (rest : List (List Char))
    (relay : InetSocketAddress)
    (hf : pktFields p.data = some (f0 :: f1 :: f2 :: rest)) (h0 : f0 ≠ AACK)
    (hdone : resultDatagram a (aggKey f0 f2) ∈ (a.handlePacket p).out)
    (hfit : (resultDatagram a (aggKey f0 f2)).data.length ≤ 1000) :
    (a.handlePacket p).out =
      [⟨GACK_ ++ f2 ++ [NUL], p.sender⟩, resultDatagram a (aggKey f0 f2)] ∧
    (resultDatagram a (aggKey f0 f2)).data = RESULT_ ++ f0 ++ ',' :: f2 ++ [NUL] ∧
    pktFields (resultDatagram a (aggKey f0 f2)).data = some [RESULT, f0, f2] ∧
    (s.handlePacket ⟨(resultDatagram a (aggKey f0 f2)).data, relay⟩).st.m_gradientCount =
      s.m_gradientCount + 1 ∧
    (s.handlePacket ⟨(resultDatagram a (aggKey f0 f2)).data, relay⟩).out =
      [⟨AACK_ ++ f0 ++ ',' :: f2 ++ [NUL], ⟨broadcastIp, s.m_peerPort⟩⟩] ∧
    split_string (AACK_ ++ f0 ++ ',' :: f2 ++ [NUL]) comma = [AACK, f0, f2] ∧
    ∀ j r : Nat, j < 65536 → r < 4294967296 →
      (resultDatagram a (aggKey (decimal j) (decimal r))).data.length ≤ 1000 := by
  have hfs := (pktFields_eq_some _ _ hf).2
  have t0 : f0 ≠ [] ∧ ∀ c ∈ f0, c ≠ ',' ∧ c ≠ NUL := by
    obtain ⟨h1, h2⟩ := split_string_mem p.data f0 (by rw [hfs]; simp)
    exact ⟨h1, fun c hc => ⟨(h2 c hc).1, (h2 c hc).2.1⟩⟩
  have t2 : f2 ≠ [] ∧ ∀ c ∈ f2, c ≠ ',' ∧ c ≠ NUL := by
    obtain ⟨h1, h2⟩ := split_string_mem p.data f2 (by rw [hfs]; simp)
    exact ⟨h1, fun c hc => ⟨(h2 c hc).1, (h2 c hc).2.1⟩⟩
  obtain ⟨r1, r2⟩ := result_fields f0 f2 t0 t2
  have hpf : pktFields (resultDatagram a (aggKey f0 f2)).data = some [RESULT, f0, f2] := by
    rw [pktFields, if_neg (by omega)]
    exact congrArg some r1
  have hsv := ParameterServer.server_packet_fields_frame s
    ⟨(resultDatagram a (aggKey f0 f2)).data, relay⟩ RESULT f0 f2 [] hpf (by decide)
  refine ⟨handlePacket_result_out a p f0 f1 f2 rest hf h0 hdone,
    by simp [resultDatagram, aggKey], hpf, hsv.1, hsv.2.2.1, r2, fun j r hj hr => ?_⟩
  have h1 := decimal_length j 5 (by omega) (by decide)
  have h2 := decimal_length r 10 (by omega) (by decide)
  simp only [resultDatagram, aggKey, RESULT_, List.length_append, List.length_cons,
    List.length_nil]
  omega

/-- Witness of C26: a relay that expects one part completes the round 7 of
job 1 with the packet `1,0,7`; its CombinedResult `RESULT,1,7` raises the
counter of a fresh coordinator to 1 and is answered by the broadcast
`AACK,1,7`. -/
theorem result_reaches_coordinator_witness :
    resultDatagram (freshRelay 1) (aggKey "1".toList "7".toList) ∈
      ((freshRelay 1).handlePacket (packetOf "1,0,7" worker1)).out ∧
    (resultDatagram (freshRelay 1) (aggKey "1".toList "7".toList)).data =
      "RESULT,1,7".toList ++ [NUL] ∧
    (freshServer.handlePacket
      ⟨(resultDatagram (freshRelay 1) (aggKey "1".toList "7".toList)).data,
        relayAddr⟩).st.m_gradientCount = 1 ∧
    (freshServer.handlePacket
      ⟨(resultDatagram (freshRelay 1) (aggKey "1".toList "7".toList)).data, relayAddr⟩).out =
      [⟨"AACK,1,7".toList ++ [NUL], ⟨broadcastIp, 9⟩⟩] :=
  have h := result_reaches_coordinator (freshRelay 1) freshServer (packetOf "1,0,7" worker1)
    "1".toList "0".toList "7".toList [] relayAddr (by decide) (by decide) (by decide)
    (by decide)
  ⟨by decide, h.2.1, h.2.2.2.1, h.2.2.2.2.1⟩

end AtpNs3
